import Mathlib

/-!
# First-order unification with occurs-check (`A1/unification.cpp`)

A shallow embedding of the term model, the substitution store `theta`, `occursCheck`,
`applySubst` and `unify` of `A1/unification.cpp`, and theorems about them.

Modelling decisions.

* `Term` has the three shapes the program builds (`new Term('V', n)`, `new Term('A', n)`,
  `new Term('F', n)` followed by `func->args = args`); `Term.type`, `Term.name` and `Term.args`
  read the three fields of the C++ `struct Term`.
* The global `map<string, Term*> theta` is threaded explicitly as a `Theta`, a list of
  key/value pairs kept in ascending key order as `std::map` keeps it.
* Term nodes are modelled by value.  `applySubst` overwrites every argument slot of an `'F'`
  node with the resolved argument and returns the node; the embedding returns the rewritten
  term, which is the content of that node after the call, and `unify` goes on with it as the
  source goes on with the node.  Other pointers to a rewritten node (a bound value of the
  store, a pair further down the stack) are read through `applySubst` and `occursCheck`, which
  follow the bindings, and a slot is only ever replaced by what `applySubst` returns for it,
  so they resolve to the same term before and after the rewriting (`subst_resolved`).
* Null pointers are outside the term model: `parse` returns `nullptr` only for text that is
  not a term, and `unify` dereferences its arguments without a null test.  The parser is
  embedded with its own result type `TermPtr`, which has the three shapes and `null`, so that
  what it builds on text that is not a term is kept as the source builds it.
* A `std::string` that is scanned or printed is a `List Char`; `expr[pos]` is `charAt`, and
  `pos` is threaded through the parser as the source threads its `size_t&`.  `cout << ...` is
  the text appended to the output, returned by `printTerm` and `printSubst`.
* Where a claim is about the nodes themselves and not about the terms they stand for, the same
  four functions are embedded a second time over an explicit memory, in the namespace `Mem`:
  a heap is a list of nodes, a pointer is an index into it, and `applySubst` returns the heap
  in which it has overwritten the argument slots.
* The recursive functions of the source and the `while` loop of `unify` can only be entered
  finitely deep by a terminating run.  Each of them takes a fuel argument bounding the depth and
  returns `none` when the bound is hit, so that termination is a theorem and not an assumption.
-/

namespace Unification

/-- A term: a variable `'V'`, an atom `'A'` or a function application `'F'`. -/
inductive Term where
  | Var (name : String)
  | Atom (name : String)
  | Compound (name : String) (args : List Term)

namespace Term

/-- The field `type` of the C++ struct. -/
def type : Term → Char
  | Var _ => 'V'
  | Atom _ => 'A'
  | Compound _ _ => 'F'

/-- The field `name` of the C++ struct. -/
def name : Term → String
  | Var n => n
  | Atom n => n
  | Compound n _ => n

/-- The field `args` of the C++ struct (empty for `'V'` and `'A'` nodes). -/
def args : Term → List Term
  | Var _ => []
  | Atom _ => []
  | Compound _ as => as

end Term

/-- The store `theta`: bindings in ascending order of variable name. -/
abbrev Theta := List (String × Term)

/-- The lookup `theta.find(k)`: the bound value, `none` for `theta.end()`. -/
def Theta.find : Theta → String → Option Term
  | [], _ => none
  | (k, v) :: rest, x => if x = k then some v else Theta.find rest x

/-- The assignment `theta[k] = v`: insert at the sorted position, overwriting an existing
entry.  Keys are compared as `std::string` compares them, character by character. -/
def Theta.set : Theta → String → Term → Theta
  | [], k, v => [(k, v)]
  | (k0, v0) :: rest, k, v =>
    if k.data < k0.data then (k, v) :: (k0, v0) :: rest
    else if k = k0 then (k, v) :: rest
    else (k0, v0) :: Theta.set rest k v

/-- The loop `for (auto& arg : term->args) arg = f(arg);`. -/
def mapArgs (f : Term → Option Term) : List Term → Option (List Term)
  | [] => some []
  | a :: as =>
    match f a with
    | none => none
    | some b =>
      match mapArgs f as with
      | none => none
      | some bs => some (b :: bs)

/-- The loop `for (Term* arg : term->args) if (f(arg)) return true;` followed by
`return false`. -/
def anyArg (f : Term → Option Bool) : List Term → Option Bool
  | [] => some false
  | a :: as =>
    match f a with
    | none => none
    | some true => some true
    | some false => anyArg f as

/-- The function `applySubst(term)` against the store `θ`, with recursion depth bounded by the fuel. -/
def applySubst (θ : Theta) : Nat → Term → Option Term
  | 0, _ => none
  | n + 1, Term.Var x =>
    match θ.find x with
    | some t => applySubst θ n t
    | none => some (Term.Var x)
  | _ + 1, Term.Atom a => some (Term.Atom a)
  | n + 1, Term.Compound f as =>
    match mapArgs (fun a => applySubst θ n a) as with
    | none => none
    | some bs => some (Term.Compound f bs)

/-- The function `occursCheck(var, term)` against the store `θ`, with recursion depth bounded
by the fuel. -/
def occursCheck (θ : Theta) (var : String) : Nat → Term → Option Bool
  | 0, _ => none
  | n + 1, Term.Var x =>
    match θ.find x with
    | some t => occursCheck θ var n t
    | none => some (decide (x = var))
  | _ + 1, Term.Atom _ => some false
  | n + 1, Term.Compound _ as => anyArg (fun a => occursCheck θ var n a) as

/-- The loop `for (i = 0; i < ptr1->args.size(); i++) stack.push_back({a1[i], a2[i]})`.
The head of the list is the back of the vector. -/
def pushArgs (stack : List (Term × Term)) : List Term → List Term → List (Term × Term)
  | a :: as, b :: bs => pushArgs ((a, b) :: stack) as bs
  | _, _ => stack

/-- The `while (!stack.empty())` loop of `unify`, one iteration per unit of fuel.  The result
is the returned boolean and the store at that moment. -/
def unifyLoop : Nat → Theta → List (Term × Term) → Option (Bool × Theta)
  | 0, _, _ => none
  | _ + 1, θ, [] => some (true, θ)
  | n + 1, θ, (p1, p2) :: stack =>
    match applySubst θ n p1, applySubst θ n p2 with
    | some ptr1, some ptr2 =>
      if ptr1.type = ptr2.type ∧ ptr1.name = ptr2.name ∧
          ptr1.args.length = ptr2.args.length then
        if ptr1.type ≠ 'F' then unifyLoop n θ stack
        else unifyLoop n θ (pushArgs stack ptr1.args ptr2.args)
      else if ptr1.type = 'V' then
        match occursCheck θ ptr1.name n ptr2 with
        | none => none
        | some true => some (false, θ)
        | some false => unifyLoop n (θ.set ptr1.name ptr2) stack
      else if ptr2.type = 'V' then
        match occursCheck θ ptr2.name n ptr1 with
        | none => none
        | some true => some (false, θ)
        | some false => unifyLoop n (θ.set ptr2.name ptr1) stack
      else some (false, θ)
    | _, _ => none

/-- The function `unify(t1, t2)`: clear the store, push the pair, run the loop. -/
def unify (fuel : Nat) (t1 t2 : Term) : Option (Bool × Theta) :=
  unifyLoop fuel [] [(t1, t2)]

/-! ## Notions the claims are stated with -/

mutual
/-- Apply a substitution, a map from variable names to terms, to a term. -/
def subst (σ : String → Term) : Term → Term
  | Term.Var x => σ x
  | Term.Atom a => Term.Atom a
  | Term.Compound f as => Term.Compound f (substList σ as)
/-- Apply a substitution to every term of a list. -/
def substList (σ : String → Term) : List Term → List Term
  | [] => []
  | t :: ts => subst σ t :: substList σ ts
end

mutual
/-- The names of the variables that occur in a term, left to right. -/
def Term.vars : Term → List String
  | Term.Var x => [x]
  | Term.Atom _ => []
  | Term.Compound _ as => varsList as
/-- The names of the variables that occur in a list of terms. -/
def varsList : List Term → List String
  | [] => []
  | t :: ts => t.vars ++ varsList ts
end

mutual
/-- Number of nodes of a term. -/
def Term.size : Term → Nat
  | Term.Var _ => 1
  | Term.Atom _ => 1
  | Term.Compound _ as => 1 + sizeList as
/-- Number of nodes of a list of terms. -/
def sizeList : List Term → Nat
  | [] => 0
  | t :: ts => t.size + sizeList ts
end

/-- The term `applySubst` returns for `t` against `θ`, when the call returns. -/
def Resolves (θ : Theta) (t r : Term) : Prop :=
  ∃ n, applySubst θ n t = some r

/-- The substitution `σ` is the one the store `θ` denotes: `applySubst` returns `σ x` for
every variable `x`. -/
def Denotes (θ : Theta) (σ : String → Term) : Prop :=
  ∀ x, Resolves θ (Term.Var x) (σ x)

/-- The substitution `τ` satisfies every binding of the store: `τ x = τ t` whenever `θ` binds
`x` to `t`. -/
def SolvesStore (τ : String → Term) (θ : Theta) : Prop :=
  ∀ x t, θ.find x = some t → τ x = subst τ t

/-- The substitution `τ` makes the two terms of every pair of the stack identical. -/
def SolvesStack (τ : String → Term) (stack : List (Term × Term)) : Prop :=
  ∀ p ∈ stack, subst τ p.1 = subst τ p.2

/-- The substitution that maps `x` to `t` and every other variable to itself. -/
def single (x : String) (t : Term) : String → Term :=
  fun y => if y = x then t else Term.Var y

/-- The substitution `τ` solves the state of the loop: the bindings of the store and the
pairs of the stack. -/
def Solves (τ : String → Term) (θ : Theta) (stack : List (Term × Term)) : Prop :=
  SolvesStore τ θ ∧ SolvesStack τ stack

/-- Number of the variables of `V` the store leaves unbound. -/
def unboundCount (V : List String) (θ : Theta) : Nat :=
  (V.filter (fun y => (θ.find y).isNone)).length

/-- Total size of the terms of the stack once the substitution is applied. -/
def stackSize (σ : String → Term) (stack : List (Term × Term)) : Nat :=
  (stack.map (fun p => (subst σ p.1).size + (subst σ p.2).size)).sum

/-- Every variable of the bound values and of the stack is in `V`. -/
def Closed (V : List String) (θ : Theta) (stack : List (Term × Term)) : Prop :=
  (∀ x t, θ.find x = some t → ∀ y ∈ t.vars, y ∈ V) ∧
    ∀ p ∈ stack, (∀ y ∈ p.1.vars, y ∈ V) ∧ ∀ y ∈ p.2.vars, y ∈ V

/-- What a run of the loop from `θ` and `stack` that returns `b` with the store `θ1`
establishes: the store denotes a substitution; on `true` its solutions are those of the state
the loop started from; on `false` that state has no solution. -/
def Post (θ : Theta) (stack : List (Term × Term)) (b : Bool) (θ1 : Theta) : Prop :=
  (∃ σ1, Denotes θ1 σ1) ∧ (b = true → ∀ τ, Solves τ θ stack ↔ SolvesStore τ θ1) ∧
    (b = false → ∀ τ, ¬ Solves τ θ stack)

/-- The binding graph of the store has no cycle: the variables can be ranked so that every
variable of a bound value ranks below the variable the value is bound to. -/
def Acyclic (θ : Theta) : Prop :=
  ∃ rank : String → Nat, ∀ x t, θ.find x = some t → ∀ y ∈ t.vars, rank y < rank x

/-- One iteration of the `while` loop of `unify`: either the value `unify` returns at this
iteration (`Sum.inl`: `true` when the stack is empty, `false` from one of the three `return
false`), or the store and the stack the next iteration starts from (`Sum.inr`). -/
def unifyStep (n : Nat) (θ : Theta) :
    List (Term × Term) → Option ((Bool × Theta) ⊕ (Theta × List (Term × Term)))
  | [] => some (Sum.inl (true, θ))
  | (p1, p2) :: stack =>
    match applySubst θ n p1, applySubst θ n p2 with
    | some ptr1, some ptr2 =>
      if ptr1.type = ptr2.type ∧ ptr1.name = ptr2.name ∧
          ptr1.args.length = ptr2.args.length then
        if ptr1.type ≠ 'F' then some (Sum.inr (θ, stack))
        else some (Sum.inr (θ, pushArgs stack ptr1.args ptr2.args))
      else if ptr1.type = 'V' then
        match occursCheck θ ptr1.name n ptr2 with
        | none => none
        | some true => some (Sum.inl (false, θ))
        | some false => some (Sum.inr (θ.set ptr1.name ptr2, stack))
      else if ptr2.type = 'V' then
        match occursCheck θ ptr2.name n ptr1 with
        | none => none
        | some true => some (Sum.inl (false, θ))
        | some false => some (Sum.inr (θ.set ptr2.name ptr1, stack))
      else some (Sum.inl (false, θ))
    | _, _ => none

/-- The states, store and stack, at the head of the loop in a run of `unify t1 t2`: the
initial one, and the one every iteration leaves. -/
inductive Reaches (t1 t2 : Term) : Theta → List (Term × Term) → Prop
  | start : Reaches t1 t2 [] [(t1, t2)]
  | step {θ θ1 : Theta} {stack stack1 : List (Term × Term)} (n : Nat) :
      Reaches t1 t2 θ stack → unifyStep n θ stack = some (Sum.inr (θ1, stack1)) →
      Reaches t1 t2 θ1 stack1

/-! ## Text: the parser and the printer

A `std::string` read or written as text is modelled by the list of its characters; `cout` by
the text written to it. -/

/-- A `Term*` as the parser returns it: `nullptr`, or a node, whose arguments are such
pointers again (the parser pushes what `parse` returns, `nullptr` included). -/
inductive TermPtr where
  | null
  | Var (name : String)
  | Atom (name : String)
  | Compound (name : String) (args : List TermPtr)

mutual
/-- The pointer to a term: no `nullptr` in it. -/
def Term.ptr : Term → TermPtr
  | Term.Var x => TermPtr.Var x
  | Term.Atom a => TermPtr.Atom a
  | Term.Compound f as => TermPtr.Compound f (ptrList as)
/-- The pointers to the terms of a list. -/
def ptrList : List Term → List TermPtr
  | [] => []
  | t :: ts => t.ptr :: ptrList ts
end

/-- The character `expr[pos]`; `std::string` gives the null character one past the end. -/
def charAt (expr : List Char) (pos : Nat) : Char :=
  expr.getD pos (Char.ofNat 0)

/-- The C function `isupper`, in the "C" locale. -/
def isupper (c : Char) : Bool := c.isUpper

/-- The C function `islower`, in the "C" locale. -/
def islower (c : Char) : Bool := c.isLower

/-- The C function `isalnum`, in the "C" locale. -/
def isalnum (c : Char) : Bool := c.isAlphanum

/-- The loop `while (pos < expr.length() && expr[pos] == ' ') pos++;`, run for at most `k`
iterations. -/
def skipSpacesLoop (expr : List Char) : Nat → Nat → Nat
  | 0, pos => pos
  | k + 1, pos =>
    if pos < expr.length ∧ charAt expr pos = ' ' then skipSpacesLoop expr k (pos + 1) else pos

/-- The function `skipSpaces(expr, pos)`: the new value of `pos`.  The loop leaves after at
most `expr.length() - pos` iterations. -/
def skipSpaces (expr : List Char) (pos : Nat) : Nat :=
  skipSpacesLoop expr (expr.length - pos) pos

/-- The loop `while (pos < expr.length() && isalnum(expr[pos])) { name += expr[pos]; pos++; }`,
run for at most `k` iterations: the characters of the name and the new value of `pos`. -/
def readNameLoop (expr : List Char) : Nat → List Char → Nat → List Char × Nat
  | 0, name, pos => (name, pos)
  | k + 1, name, pos =>
    if pos < expr.length ∧ isalnum (charAt expr pos) = true then
      readNameLoop expr k (name ++ [charAt expr pos]) (pos + 1)
    else (name, pos)

/-- The name loop of `parseAtom` from an empty `name`: the name and the new value of `pos`.
The loop leaves after at most `expr.length() - pos` iterations. -/
def readName (expr : List Char) (pos : Nat) : String × Nat :=
  let r := readNameLoop expr (expr.length - pos) [] pos
  (String.mk r.1, r.2)

mutual
/-- The function `parseAtom(expr, pos)`: the pointer returned and the new value of `pos`.
The fuel bounds the depth of the recursion. -/
def parseAtom : Nat → List Char → Nat → Option (TermPtr × Nat)
  | 0, _, _ => none
  | n + 1, expr, pos0 =>
    let pos := skipSpaces expr pos0
    if pos ≥ expr.length then some (TermPtr.null, pos)
    else if isupper (charAt expr pos) = true then
      let r := readName expr pos
      some (TermPtr.Var r.1, r.2)
    else if islower (charAt expr pos) = true then
      let r := readName expr pos
      let pos1 := skipSpaces expr r.2
      if pos1 < expr.length ∧ charAt expr pos1 = '(' then
        match parseArgs n expr (pos1 + 1) [] with
        | none => none
        | some (args, pos2) => some (TermPtr.Compound r.1 args, pos2 + 1)
      else some (TermPtr.Atom r.1, pos1)
    else some (TermPtr.null, pos)
/-- The loop `while (pos < expr.length() && expr[pos] != ')')` of `parseAtom`, one iteration
per unit of fuel: the vector `args` and the value of `pos` when the loop is left.  The call
`parse(expr, pos)` is the call `parseAtom(expr, pos)`. -/
def parseArgs : Nat → List Char → Nat → List TermPtr → Option (List TermPtr × Nat)
  | 0, _, _, _ => none
  | n + 1, expr, pos, args =>
    if pos < expr.length ∧ charAt expr pos ≠ ')' then
      let pos1 := skipSpaces expr pos
      if charAt expr pos1 = ')' then some (args, pos1)
      else
        match parseAtom n expr pos1 with
        | none => none
        | some (arg, pos2) =>
          let pos3 := skipSpaces expr pos2
          let pos4 := if pos3 < expr.length ∧ charAt expr pos3 = ',' then pos3 + 1 else pos3
          parseArgs n expr pos4 (args ++ [arg])
    else some (args, pos)
end

/-- The function `parse(expr, pos)`. -/
def parse (fuel : Nat) (expr : List Char) (pos : Nat) : Option (TermPtr × Nat) :=
  parseAtom fuel expr pos

/-- The loop of `printTerm` over the arguments: each argument printed by `f`, `", "` between
two of them. -/
def printArgs (f : Term → Option (List Char)) : List Term → Option (List Char)
  | [] => some []
  | a :: rest =>
    match f a with
    | none => none
    | some s =>
      match rest with
      | [] => some s
      | _ :: _ =>
        match printArgs f rest with
        | none => none
        | some r => some (s ++ ", ".data ++ r)

/-- The function `printTerm(term)` against the store `θ`: the text written to `cout`.  The
fuel bounds the depth of the recursion. -/
def printTerm (θ : Theta) : Nat → Term → Option (List Char)
  | 0, _ => none
  | n + 1, t =>
    match applySubst θ n t with
    | none => none
    | some term =>
      if term.type = 'V' ∨ term.type = 'A' then some term.name.data
      else if term.type = 'F' then
        match printArgs (fun a => printTerm θ n a) term.args with
        | none => none
        | some s => some (term.name.data ++ "(".data ++ s ++ ")".data)
      else some []

/-- The loop of `printSubst` over the bindings, in the order of the store: `", "` before
every binding but the first, then the variable, `" = "` and the bound term printed by `f`. -/
def printBindings (f : Term → Option (List Char)) : Bool → Theta → Option (List Char)
  | _, [] => some []
  | first, (var, term) :: rest =>
    match f term with
    | none => none
    | some s =>
      match printBindings f false rest with
      | none => none
      | some r => some ((if first then [] else ", ".data) ++ var.data ++ " = ".data ++ s ++ r)

/-- The function `printSubst()` against the store `θ`: the text written to `cout`. -/
def printSubst (θ : Theta) (fuel : Nat) : Option (List Char) :=
  if θ.isEmpty then some "no bindings".data
  else printBindings (fun t => printTerm θ fuel t) true θ

mutual
/-- The text of a term: the name of a variable or atom, `name(arg, ..., arg)` for a
compound. -/
def Term.text : Term → List Char
  | Term.Var x => x.data
  | Term.Atom a => a.data
  | Term.Compound f as => f.data ++ "(".data ++ textList as ++ ")".data
/-- The texts of the terms of a list, `", "` between two of them. -/
def textList : List Term → List Char
  | [] => []
  | t :: ts =>
    match ts with
    | [] => t.text
    | _ :: _ => t.text ++ ", ".data ++ textList ts
end

/-- The keys of the store are in strictly ascending order, the order in which `std::map`
holds and iterates them. -/
def Theta.Ordered (θ : Theta) : Prop :=
  θ.Pairwise (fun p q => p.1.data < q.1.data)

/-- The texts of a list joined by a separator. -/
def joinSep (sep : List Char) : List (List Char) → List Char
  | [] => []
  | e :: es =>
    match es with
    | [] => e
    | _ :: _ => e ++ sep ++ joinSep sep es

/-- The entry `<name> = <term>` of a binding, the bound term resolved by `σ`. -/
def entryText (σ : String → Term) (p : String × Term) : List Char :=
  p.1.data ++ " = ".data ++ (subst σ p.2).text

/-- The text of `k` spaces. -/
def sp (k : Nat) : List Char := List.replicate k ' '

/-- The number of spaces a text starts with. -/
def lead : List Char → Nat
  | [] => 0
  | c :: r => if c = ' ' then lead r + 1 else 0

/-- The name is an uppercase letter followed by alphanumerics, the token `VAR` of the
grammar. -/
def isVarName (x : String) : Bool :=
  match x.data with
  | [] => false
  | c :: cs => isupper c && cs.all isalnum

/-- The name is a lowercase letter followed by alphanumerics, the token `IDENT` of the
grammar. -/
def isAtomName (x : String) : Bool :=
  match x.data with
  | [] => false
  | c :: cs => islower c && cs.all isalnum

mutual
/-- Every name of the term has the shape the grammar gives it. -/
def Term.wf : Term → Bool
  | Term.Var x => isVarName x
  | Term.Atom a => isAtomName a
  | Term.Compound f as => isAtomName f && wfList as
/-- Every term of the list is well formed. -/
def wfList : List Term → Bool
  | [] => true
  | t :: ts => t.wf && wfList ts
end

/-- A term together with the number of spaces written around each of its tokens: before
the identifier (`pre`), after the identifier of a variable or atom and after the `)` of a
compound (`post`), between the functor and `(` (`mid`) and after `(` (`inner`).  The spaces
before and after a `,` are the `post` of the argument before it and the `pre` of the one
after it. -/
inductive Spaced where
  | Var (pre : Nat) (name : String) (post : Nat)
  | Atom (pre : Nat) (name : String) (post : Nat)
  | Compound (pre : Nat) (name : String) (mid inner : Nat) (args : List Spaced) (post : Nat)

mutual
/-- The term without its spacing. -/
def Spaced.erase : Spaced → Term
  | Spaced.Var _ x _ => Term.Var x
  | Spaced.Atom _ a _ => Term.Atom a
  | Spaced.Compound _ f _ _ args _ => Term.Compound f (eraseList args)
/-- The terms of a list without their spacing. -/
def eraseList : List Spaced → List Term
  | [] => []
  | s :: ss => s.erase :: eraseList ss
end

mutual
/-- The text of a term with its spacing. -/
def Spaced.text : Spaced → List Char
  | Spaced.Var pre x post => sp pre ++ x.data ++ sp post
  | Spaced.Atom pre a post => sp pre ++ a.data ++ sp post
  | Spaced.Compound pre f mid inner args post =>
    sp pre ++ f.data ++ sp mid ++ '(' :: (sp inner ++ argsText args ++ ')' :: sp post)
/-- The texts of the arguments, a comma between two of them. -/
def argsText : List Spaced → List Char
  | [] => []
  | s :: ss =>
    match ss with
    | [] => s.text
    | _ :: _ => s.text ++ ',' :: argsText ss
end

/-- The number of spaces the text of the term ends with by its own spacing. -/
def Spaced.post : Spaced → Nat
  | Spaced.Var _ _ post => post
  | Spaced.Atom _ _ post => post
  | Spaced.Compound _ _ _ _ _ post => post

mutual
/-- The spacing `printTerm` writes a term with, after `k` spaces: none, but one space after
every comma. -/
def Term.spaced (k : Nat) : Term → Spaced
  | Term.Var x => Spaced.Var k x 0
  | Term.Atom a => Spaced.Atom k a 0
  | Term.Compound f as => Spaced.Compound k f 0 0 (spacedArgs 0 as) 0
/-- The spacing `printTerm` writes the arguments with: the first after `k` spaces, the others
after one. -/
def spacedArgs (k : Nat) : List Term → List Spaced
  | [] => []
  | t :: ts => t.spaced k :: spacedArgs 1 ts
end

/-- What may follow the text of a term: after any spaces, the end of the text or a character
that is neither `(` nor alphanumeric. -/
def RestOK (rest : List Char) : Prop :=
  ∀ c r, rest.drop (lead rest) = c :: r → c ≠ '(' ∧ isalnum c = false

/-- The parser reads the text of `s` wherever it stands: with the text at position `p` of
`expr`, followed by `rest`, `parseAtom` returns the term of `s` and leaves `pos` after the text,
up to the spaces at its end and at the start of `rest`. -/
def Parses (s : Spaced) : Prop :=
  ∀ (expr : List Char) (p : Nat) (rest : List Char), expr.drop p = s.text ++ rest →
    RestOK rest → ∃ N, ∀ n, N ≤ n → ∃ pos,
      parseAtom n expr p = some (s.erase.ptr, pos) ∧
      p + s.text.length - s.post ≤ pos ∧
      skipSpaces expr pos = skipSpaces expr (p + s.text.length)

/-! ## Terms in memory

The same functions over an explicit memory of `struct Term` nodes, to state what `unify` writes
into the nodes it is given.  An address is an index into the memory; an address outside the
memory stands for `nullptr`. -/

namespace Mem

/-- A `struct Term` in memory: `args` holds the addresses of the arguments. -/
structure Node where
  type : Char
  name : String
  args : List Nat

/-- The memory: the nodes `new Term` has allocated, by address. -/
abbrev Heap := List Node

/-- The store `theta`, a `map<string, Term*>`: bindings of names to addresses, in ascending
order of the names. -/
abbrev Theta := List (String × Nat)

/-- The lookup `theta.find(k)`. -/
def Theta.find : Theta → String → Option Nat
  | [], _ => none
  | (k, v) :: rest, x => if x = k then some v else Theta.find rest x

/-- The assignment `theta[k] = v`. -/
def Theta.set : Theta → String → Nat → Theta
  | [], k, v => [(k, v)]
  | (k0, v0) :: rest, k, v =>
    if k.data < k0.data then (k, v) :: (k0, v0) :: rest
    else if k = k0 then (k, v) :: rest
    else (k0, v0) :: Theta.set rest k v

/-- The assignment `arg = r` to the `i`-th slot of `args` of the node at `p`. -/
def setArg (h : Heap) (p i r : Nat) : Heap :=
  match h[p]? with
  | none => h
  | some node => h.set p { node with args := node.args.set i r }

/-- The loop `for (auto& arg : term->args) arg = f(arg);` over the slots `is` of the node at
`p`: each slot is read, `f` is called, and its result is written into the slot. -/
def rewriteArgs (f : Heap → Nat → Option (Heap × Nat)) (p : Nat) :
    List Nat → Heap → Option Heap
  | [], h => some h
  | i :: is, h =>
    match (h[p]?).bind (fun node => node.args[i]?) with
    | none => none
    | some a =>
      match f h a with
      | none => none
      | some (h1, r) => rewriteArgs f p is (setArg h1 p i r)

/-- The function `applySubst(term)`: the memory after the call and the pointer returned. -/
def applySubst (θ : Theta) : Nat → Heap → Nat → Option (Heap × Nat)
  | 0, _, _ => none
  | n + 1, h, p =>
    match h[p]? with
    | none => some (h, p)
    | some node =>
      if node.type = 'V' then
        match θ.find node.name with
        | some q => applySubst θ n h q
        | none => some (h, p)
      else if node.type = 'F' then
        match rewriteArgs (fun h1 a => applySubst θ n h1 a) p
            (List.range node.args.length) h with
        | none => none
        | some h1 => some (h1, p)
      else some (h, p)

/-- The loop `for (Term* arg : term->args) if (f(arg)) return true;` followed by
`return false`. -/
def anyArg (f : Nat → Option Bool) : List Nat → Option Bool
  | [] => some false
  | a :: as =>
    match f a with
    | none => none
    | some true => some true
    | some false => anyArg f as

/-- The function `occursCheck(var, term)`; it writes nothing. -/
def occursCheck (θ : Theta) (var : String) (h : Heap) : Nat → Nat → Option Bool
  | 0, _ => none
  | n + 1, p =>
    match h[p]? with
    | none => some false
    | some node =>
      if node.type = 'V' then
        match θ.find node.name with
        | some q => occursCheck θ var h n q
        | none => some (decide (node.name = var))
      else if node.type = 'F' then anyArg (fun a => occursCheck θ var h n a) node.args
      else some false

/-- The loop that pushes the pairs of arguments. -/
def pushArgs (stack : List (Nat × Nat)) : List Nat → List Nat → List (Nat × Nat)
  | a :: as, b :: bs => pushArgs ((a, b) :: stack) as bs
  | _, _ => stack

/-- The `while` loop of `unify`: the boolean returned, the memory and the store at that
moment.  Dereferencing `nullptr` gives no result. -/
def unifyLoop : Nat → Heap → Theta → List (Nat × Nat) → Option (Bool × Heap × Theta)
  | 0, _, _, _ => none
  | _ + 1, h, θ, [] => some (true, h, θ)
  | n + 1, h, θ, (p1, p2) :: stack =>
    match applySubst θ n h p1 with
    | none => none
    | some (h1, ptr1) =>
      match applySubst θ n h1 p2 with
      | none => none
      | some (h2, ptr2) =>
        match h2[ptr1]?, h2[ptr2]? with
        | some node1, some node2 =>
          if node1.type = node2.type ∧ node1.name = node2.name ∧
              node1.args.length = node2.args.length then
            if node1.type ≠ 'F' then unifyLoop n h2 θ stack
            else unifyLoop n h2 θ (pushArgs stack node1.args node2.args)
          else if node1.type = 'V' then
            match occursCheck θ node1.name h2 n ptr2 with
            | none => none
            | some true => some (false, h2, θ)
            | some false => unifyLoop n h2 (θ.set node1.name ptr2) stack
          else if node2.type = 'V' then
            match occursCheck θ node2.name h2 n ptr1 with
            | none => none
            | some true => some (false, h2, θ)
            | some false => unifyLoop n h2 (θ.set node2.name ptr1) stack
          else some (false, h2, θ)
        | _, _ => none

/-- The function `unify(t1, t2)` on the nodes at `t1` and `t2`. -/
def unify (fuel : Nat) (h : Heap) (t1 t2 : Nat) : Option (Bool × Heap × Theta) :=
  unifyLoop fuel h [] [(t1, t2)]

/-- The terms a list of pointers points to, each read by `f`. -/
def mapLoad (f : Nat → Option Term) : List Nat → Option (List Term)
  | [] => some []
  | a :: as =>
    match f a with
    | none => none
    | some t =>
      match mapLoad f as with
      | none => none
      | some ts => some (t :: ts)

/-- The term a pointer points to, read from the memory; `none` for `nullptr` and for a depth
beyond the fuel. -/
def load (h : Heap) : Nat → Nat → Option Term
  | 0, _ => none
  | n + 1, p =>
    match h[p]? with
    | none => none
    | some node =>
      if node.type = 'V' then some (Term.Var node.name)
      else if node.type = 'A' then some (Term.Atom node.name)
      else if node.type = 'F' then
        match mapLoad (fun a => load h n a) node.args with
        | none => none
        | some as => some (Term.Compound node.name as)
      else none

/-- What a call may change in the memory: no node is added or removed, no node changes its
tag, its name or the number of its arguments, and a node that is not an `'F'` node does not
change at all. -/
def Frame (h h1 : Heap) : Prop :=
  h1.length = h.length ∧
    ∀ (p : Nat) (node : Node), h[p]? = some node → ∃ node1 : Node, h1[p]? = some node1 ∧
      node1.type = node.type ∧ node1.name = node.name ∧
      node1.args.length = node.args.length ∧ (node.type ≠ 'F' → node1 = node)

end Mem

/-! ## Terms -/

theorem Term.induction {P : Term → Prop} (hv : ∀ x, P (Term.Var x)) (ha : ∀ a, P (Term.Atom a))
    (hc : ∀ f as, (∀ t ∈ as, P t) → P (Term.Compound f as)) (t : Term) : P t := by
  refine @Term.rec P (fun l => ∀ t ∈ l, P t) hv ha (fun f as ih => hc f as ih) ?_ ?_ t
  · intro t ht
    cases ht
  · intro hd tl ih1 ih2 t ht
    rcases List.mem_cons.1 ht with h | h
    · exact h ▸ ih1
    · exact ih2 t h

theorem substList_eq_map (σ : String → Term) (l : List Term) :
    substList σ l = l.map (subst σ) := by
  induction l with
  | nil => simp [substList]
  | cons a l ih => simp [substList, ih]

@[simp] theorem subst_var (σ : String → Term) (x : String) : subst σ (Term.Var x) = σ x := by
  simp [subst]

@[simp] theorem subst_atom (σ : String → Term) (a : String) :
    subst σ (Term.Atom a) = Term.Atom a := by
  simp [subst]

@[simp] theorem subst_compound (σ : String → Term) (f : String) (as : List Term) :
    subst σ (Term.Compound f as) = Term.Compound f (as.map (subst σ)) := by
  simp [subst, substList_eq_map]

theorem mem_varsList {x : String} {l : List Term} :
    x ∈ varsList l ↔ ∃ t ∈ l, x ∈ t.vars := by
  induction l with
  | nil => simp [varsList]
  | cons a l ih => simp [varsList, ih]

@[simp] theorem vars_var (x : String) : (Term.Var x).vars = [x] := by
  simp [Term.vars]

@[simp] theorem vars_atom (a : String) : (Term.Atom a).vars = [] := by
  simp [Term.vars]

theorem mem_vars_compound {x f : String} {as : List Term} :
    x ∈ (Term.Compound f as).vars ↔ ∃ t ∈ as, x ∈ t.vars := by
  simp [Term.vars, mem_varsList]

theorem sizeList_eq_sum (l : List Term) : sizeList l = (l.map Term.size).sum := by
  induction l with
  | nil => simp [sizeList]
  | cons a l ih => simp [sizeList, ih]

@[simp] theorem size_var (x : String) : (Term.Var x).size = 1 := by
  simp [Term.size]

@[simp] theorem size_atom (a : String) : (Term.Atom a).size = 1 := by
  simp [Term.size]

@[simp] theorem size_compound (f : String) (as : List Term) :
    (Term.Compound f as).size = 1 + (as.map Term.size).sum := by
  simp [Term.size, sizeList_eq_sum]

theorem size_pos (t : Term) : 0 < t.size := by
  cases t <;> simp

theorem size_le_sum_of_mem {a : Term} {l : List Term} (h : a ∈ l) :
    a.size ≤ (l.map Term.size).sum :=
  List.single_le_sum (by simp) _ (List.mem_map_of_mem _ h)

/-! ## The store -/

theorem find_set (θ : Theta) (k : String) (v : Term) (x : String) :
    (θ.set k v).find x = if x = k then some v else θ.find x := by
  induction θ with
  | nil => simp [Theta.set, Theta.find]
  | cons p rest ih =>
    obtain ⟨k0, v0⟩ := p
    by_cases h1 : k.data < k0.data
    · simp [Theta.set, Theta.find, h1]
    · by_cases h2 : k = k0
      · subst h2
        by_cases h3 : x = k <;> simp [Theta.set, Theta.find, h3]
      · by_cases h3 : x = k0
        · have h4 : ¬ k0 = k := fun h => h2 h.symm
          simp [Theta.set, Theta.find, h1, h2, h3, h4]
        · simp [Theta.set, Theta.find, h1, h2, h3, ih]

theorem find_set_self (θ : Theta) (k : String) (v : Term) : (θ.set k v).find k = some v := by
  simp [find_set]

theorem find_set_ne (θ : Theta) (k : String) (v : Term) {x : String} (h : x ≠ k) :
    (θ.set k v).find x = θ.find x := by
  simp [find_set, h]

/-! ## The argument loops -/

theorem mapArgs_eq_some {f : Term → Option Term} {as bs : List Term} :
    mapArgs f as = some bs ↔ List.Forall₂ (fun a b => f a = some b) as bs := by
  induction as generalizing bs with
  | nil =>
    cases bs <;> simp [mapArgs]
  | cons a as ih =>
    cases hfa : f a with
    | none =>
      simp only [mapArgs, hfa]
      constructor
      · intro h
        cases h
      · intro h
        cases h with
        | cons h1 _ => rw [hfa] at h1; cases h1
    | some b =>
      cases hm : mapArgs f as with
      | none =>
        simp only [mapArgs, hfa, hm]
        constructor
        · intro h
          cases h
        · intro h
          cases h with
          | cons _ h2 => rw [← ih, hm] at h2; cases h2
      | some cs =>
        simp only [mapArgs, hfa, hm]
        constructor
        · intro h
          cases h
          exact List.Forall₂.cons hfa (ih.1 hm)
        · intro h
          cases h with
          | cons h1 h2 =>
            rw [hfa] at h1
            cases h1
            have := ih.2 h2
            rw [hm] at this
            cases this
            rfl

theorem anyArg_eq_true {f : Term → Option Bool} {as : List Term}
    (h : ∀ a ∈ as, ∃ b, f a = some b) :
    anyArg f as = some (decide (∃ a ∈ as, f a = some true)) := by
  induction as with
  | nil => simp [anyArg]
  | cons a as ih =>
    obtain ⟨b, hb⟩ := h a (List.mem_cons_self _ _)
    have ih1 := ih (fun c hc => h c (List.mem_cons_of_mem _ hc))
    cases b with
    | true => simp [anyArg, hb]
    | false => simp [anyArg, hb, ih1]

/-! ## More fuel gives the same result -/

theorem applySubst_mono {θ : Theta} : ∀ {n m : Nat} {t r : Term},
    applySubst θ n t = some r → n ≤ m → applySubst θ m t = some r := by
  intro n
  induction n with
  | zero =>
    intro m t r h
    simp [applySubst] at h
  | succ n ih =>
    intro m t r h hnm
    obtain ⟨m, rfl⟩ : ∃ k, m = k + 1 := ⟨m - 1, by omega⟩
    have hle : n ≤ m := by omega
    cases t with
    | Var x =>
      simp only [applySubst] at h ⊢
      cases hf : θ.find x with
      | none => simpa [hf] using h
      | some t =>
        rw [hf] at h
        exact ih h hle
    | Atom a => simpa [applySubst] using h
    | Compound f as =>
      simp only [applySubst] at h ⊢
      cases hm : mapArgs (fun a => applySubst θ n a) as with
      | none => simp [hm] at h
      | some bs =>
        rw [hm] at h
        have h2 : mapArgs (fun a => applySubst θ m a) as = some bs :=
          mapArgs_eq_some.2 ((mapArgs_eq_some.1 hm).imp (fun _ _ hab => ih hab hle))
        rw [h2]
        exact h

theorem anyArg_mono {f g : Term → Option Bool} {as : List Term} {b : Bool}
    (hfg : ∀ a ∈ as, ∀ c, f a = some c → g a = some c) (h : anyArg f as = some b) :
    anyArg g as = some b := by
  induction as with
  | nil => simpa [anyArg] using h
  | cons a as ih =>
    cases hfa : f a with
    | none => simp [anyArg, hfa] at h
    | some c =>
      have hga := hfg a (List.mem_cons_self _ _) c hfa
      cases c with
      | true => simpa [anyArg, hfa, hga] using h
      | false =>
        simp only [anyArg, hfa, hga] at h ⊢
        exact ih (fun d hd => hfg d (List.mem_cons_of_mem _ hd)) h

theorem occursCheck_mono {θ : Theta} {v : String} : ∀ {n m : Nat} {t : Term} {b : Bool},
    occursCheck θ v n t = some b → n ≤ m → occursCheck θ v m t = some b := by
  intro n
  induction n with
  | zero =>
    intro m t b h
    simp [occursCheck] at h
  | succ n ih =>
    intro m t b h hnm
    obtain ⟨m, rfl⟩ : ∃ k, m = k + 1 := ⟨m - 1, by omega⟩
    have hle : n ≤ m := by omega
    cases t with
    | Var x =>
      simp only [occursCheck] at h ⊢
      cases hf : θ.find x with
      | none => simpa [hf] using h
      | some t =>
        rw [hf] at h
        exact ih h hle
    | Atom a => simpa [occursCheck] using h
    | Compound f as =>
      simp only [occursCheck] at h ⊢
      exact anyArg_mono (fun a _ c hc => ih hc hle) h

/-! ## What `applySubst` returns -/

theorem forall₂_common_fuel {α β : Type} {R : Nat → α → β → Prop}
    (hmono : ∀ n m a b, R n a b → n ≤ m → R m a b) {as : List α} {bs : List β}
    (h : List.Forall₂ (fun a b => ∃ n, R n a b) as bs) : ∃ n, List.Forall₂ (R n) as bs := by
  induction h with
  | nil => exact ⟨0, List.Forall₂.nil⟩
  | cons h1 _ ih =>
    obtain ⟨n1, hn1⟩ := h1
    obtain ⟨n2, hn2⟩ := ih
    refine ⟨max n1 n2, List.Forall₂.cons (hmono _ _ _ _ hn1 (le_max_left _ _)) ?_⟩
    exact hn2.imp (fun a b hab => hmono _ _ _ _ hab (le_max_right _ _))

theorem forall₂_mem_right {α β : Type} {R : α → β → Prop} {as : List α} {bs : List β}
    (h : List.Forall₂ R as bs) {b : β} (hb : b ∈ bs) : ∃ a ∈ as, R a b := by
  induction h with
  | nil => cases hb
  | cons h1 _ ih =>
    rcases List.mem_cons.1 hb with e | hb2
    · exact ⟨_, List.mem_cons_self _ _, e ▸ h1⟩
    · obtain ⟨a, ha, hab⟩ := ih hb2
      exact ⟨a, List.mem_cons_of_mem _ ha, hab⟩

theorem forall₂_mem_left {α β : Type} {R : α → β → Prop} {as : List α} {bs : List β}
    (h : List.Forall₂ R as bs) {a : α} (ha : a ∈ as) : ∃ b ∈ bs, R a b := by
  induction h with
  | nil => cases ha
  | cons h1 _ ih =>
    rcases List.mem_cons.1 ha with e | ha2
    · exact ⟨_, List.mem_cons_self _ _, e ▸ h1⟩
    · obtain ⟨b, hb, hab⟩ := ih ha2
      exact ⟨b, List.mem_cons_of_mem _ hb, hab⟩

theorem Resolves.var_unbound {θ : Theta} {x : String} (h : θ.find x = none) :
    Resolves θ (Term.Var x) (Term.Var x) :=
  ⟨1, by simp [applySubst, h]⟩

theorem Resolves.var_bound {θ : Theta} {x : String} {t r : Term} (h : θ.find x = some t)
    (hr : Resolves θ t r) : Resolves θ (Term.Var x) r := by
  obtain ⟨n, hn⟩ := hr
  exact ⟨n + 1, by simp [applySubst, h, hn]⟩

theorem Resolves.atom (θ : Theta) (a : String) : Resolves θ (Term.Atom a) (Term.Atom a) :=
  ⟨1, by simp [applySubst]⟩

theorem Resolves.compound {θ : Theta} {f : String} {as bs : List Term}
    (h : List.Forall₂ (Resolves θ) as bs) :
    Resolves θ (Term.Compound f as) (Term.Compound f bs) := by
  obtain ⟨n, hn⟩ := forall₂_common_fuel
    (R := fun n a b => applySubst θ n a = some b) (fun _ _ _ _ hab hnm => applySubst_mono hab hnm) h
  exact ⟨n + 1, by simp [applySubst, mapArgs_eq_some.2 hn]⟩

theorem Resolves.det {θ : Theta} {t r1 r2 : Term} (h1 : Resolves θ t r1)
    (h2 : Resolves θ t r2) : r1 = r2 := by
  obtain ⟨n1, hn1⟩ := h1
  obtain ⟨n2, hn2⟩ := h2
  have e1 := applySubst_mono hn1 (le_max_left n1 n2)
  have e2 := applySubst_mono hn2 (le_max_right n1 n2)
  rw [e1] at e2
  exact Option.some.inj e2

/-- Induction on a terminating call of `applySubst`. -/
theorem Resolves.induct {θ : Theta} {P : Term → Term → Prop}
    (hvb : ∀ x t r, θ.find x = some t → Resolves θ t r → P t r → P (Term.Var x) r)
    (hvu : ∀ x, θ.find x = none → P (Term.Var x) (Term.Var x))
    (hat : ∀ a, P (Term.Atom a) (Term.Atom a))
    (hc : ∀ f as bs, List.Forall₂ (fun a b => Resolves θ a b ∧ P a b) as bs →
      P (Term.Compound f as) (Term.Compound f bs))
    {t r : Term} (h : Resolves θ t r) : P t r := by
  obtain ⟨n, hn⟩ := h
  induction n generalizing t r with
  | zero => simp [applySubst] at hn
  | succ n ih =>
    cases t with
    | Var x =>
      simp only [applySubst] at hn
      cases hf : θ.find x with
      | none =>
        rw [hf] at hn
        cases hn
        exact hvu x hf
      | some t =>
        rw [hf] at hn
        exact hvb x t r hf ⟨n, hn⟩ (ih hn)
    | Atom a =>
      simp only [applySubst] at hn
      cases hn
      exact hat a
    | Compound f as =>
      simp only [applySubst] at hn
      cases hm : mapArgs (fun a => applySubst θ n a) as with
      | none => simp [hm] at hn
      | some bs =>
        rw [hm] at hn
        cases hn
        exact hc f as bs ((mapArgs_eq_some.1 hm).imp (fun a b hab => ⟨⟨n, hab⟩, ih hab⟩))

theorem Resolves.var_inv {θ : Theta} {x : String} {r : Term}
    (h : Resolves θ (Term.Var x) r) :
    (θ.find x = none ∧ r = Term.Var x) ∨ ∃ t, θ.find x = some t ∧ Resolves θ t r := by
  obtain ⟨n, hn⟩ := h
  cases n with
  | zero => simp [applySubst] at hn
  | succ n =>
    simp only [applySubst] at hn
    cases hf : θ.find x with
    | none =>
      rw [hf] at hn
      cases hn
      exact Or.inl ⟨rfl, rfl⟩
    | some t =>
      rw [hf] at hn
      exact Or.inr ⟨t, rfl, n, hn⟩

/-- The term `applySubst` returns holds no variable the store binds. -/
theorem Resolves.unbound {θ : Theta} {t r : Term} (h : Resolves θ t r) :
    ∀ x ∈ r.vars, θ.find x = none := by
  refine Resolves.induct (P := fun _ r => ∀ x ∈ r.vars, θ.find x = none) ?_ ?_ ?_ ?_ h
  · intro x t r _ _ ih
    exact ih
  · intro x hx y hy
    simp at hy
    exact hy ▸ hx
  · intro a y hy
    simp at hy
  · intro f as bs hall y hy
    obtain ⟨b, hb, hyb⟩ := mem_vars_compound.1 hy
    obtain ⟨a, _, ha⟩ := forall₂_mem_right hall hb
    exact ha.2 y hyb

/-- A term that holds no bound variable is returned as it is. -/
theorem resolves_self {θ : Theta} (r : Term) :
    (∀ x ∈ r.vars, θ.find x = none) → Resolves θ r r := by
  refine Term.induction (P := fun r => (∀ x ∈ r.vars, θ.find x = none) → Resolves θ r r)
    ?_ ?_ ?_ r
  · intro x h
    exact Resolves.var_unbound (h x (by simp))
  · intro a _
    exact Resolves.atom θ a
  · intro f as ih h
    apply Resolves.compound
    rw [List.forall₂_same]
    intro a ha
    exact ih a ha (fun x hx => h x (mem_vars_compound.2 ⟨a, ha, hx⟩))

/-- A substitution that satisfies the bindings of the store does not tell a term from what
`applySubst` returns for it. -/
theorem Resolves.subst_eq {θ : Theta} {τ : String → Term} (hτ : SolvesStore τ θ)
    {t r : Term} (h : Resolves θ t r) : subst τ r = subst τ t := by
  refine Resolves.induct (P := fun t r => subst τ r = subst τ t) ?_ ?_ ?_ ?_ h
  · intro x t r hf _ ih
    rw [ih, subst_var, hτ x t hf]
  · intro x _
    rfl
  · intro a
    rfl
  · intro f as bs hall
    simp only [subst_compound, Term.Compound.injEq, true_and]
    induction hall with
    | nil => rfl
    | cons h1 _ ih => simp [h1.2, ih]

theorem Denotes.resolves {θ : Theta} {σ : String → Term} (h : Denotes θ σ) (t : Term) :
    Resolves θ t (subst σ t) := by
  refine Term.induction (P := fun t => Resolves θ t (subst σ t)) ?_ ?_ ?_ t
  · intro x
    simpa using h x
  · intro a
    simpa using Resolves.atom θ a
  · intro f as ih
    rw [subst_compound]
    apply Resolves.compound
    rw [List.forall₂_map_right_iff, List.forall₂_same]
    exact ih

theorem Denotes.solves {θ : Theta} {σ : String → Term} (h : Denotes θ σ) :
    SolvesStore σ θ := by
  intro x t hf
  rcases (h x).var_inv with ⟨hn, _⟩ | ⟨t2, hf2, hr⟩
  · rw [hn] at hf
    cases hf
  · rw [hf] at hf2
    cases hf2
    exact hr.det (h.resolves t)

theorem Denotes.idem {θ : Theta} {σ : String → Term} (h : Denotes θ σ) (t : Term) :
    subst σ (subst σ t) = subst σ t :=
  (h.resolves (subst σ t)).det (resolves_self _ (h.resolves t).unbound)

theorem denotes_nil : Denotes [] Term.Var := by
  intro x
  exact Resolves.var_unbound rfl

/-! ## Binding a variable -/

theorem subst_single_self {x : String} {t : Term} (r : Term) (h : x ∉ r.vars) :
    subst (single x t) r = r := by
  revert h
  refine Term.induction (P := fun r => x ∉ r.vars → subst (single x t) r = r) ?_ ?_ ?_ r
  · intro y hy
    have : y ≠ x := fun e => hy (by simp [e])
    simp [single, this]
  · intro a _
    simp
  · intro f as ih h
    rw [subst_compound]
    congr 1
    conv_rhs => rw [← List.map_id as]
    apply List.map_congr_left
    intro a ha
    exact ih a ha (fun hx => h (mem_vars_compound.2 ⟨a, ha, hx⟩))

/-- Binding an unbound variable to a resolved term in which it does not occur composes the
denoted substitution with that single binding. -/
theorem Denotes.set {θ : Theta} {σ : String → Term} {x : String} {t : Term}
    (h : Denotes θ σ) (hx : θ.find x = none) (ht : ∀ y ∈ t.vars, θ.find y = none)
    (hxt : x ∉ t.vars) : Denotes (θ.set x t) (fun y => subst (single x t) (σ y)) := by
  have key : ∀ {s r : Term}, Resolves θ s r →
      Resolves (θ.set x t) s (subst (single x t) r) := by
    intro s r hsr
    refine Resolves.induct
      (P := fun s r => Resolves (θ.set x t) s (subst (single x t) r)) ?_ ?_ ?_ ?_ hsr
    · intro y u r hf _ ih
      have hne : y ≠ x := by
        intro e
        rw [e, hx] at hf
        cases hf
      exact Resolves.var_bound (by rw [find_set_ne _ _ _ hne]; exact hf) ih
    · intro y hy
      by_cases e : y = x
      · subst e
        have : subst (single y t) (Term.Var y) = t := by simp [single]
        rw [this]
        refine Resolves.var_bound (find_set_self _ _ _) (resolves_self t ?_)
        intro z hz
        have hzne : z ≠ y := fun e => hxt (e ▸ hz)
        rw [find_set_ne _ _ _ hzne]
        exact ht z hz
      · have : subst (single x t) (Term.Var y) = Term.Var y := by simp [single, e]
        rw [this]
        exact Resolves.var_unbound (by rw [find_set_ne _ _ _ e]; exact hy)
    · intro a
      simpa using Resolves.atom _ a
    · intro f as bs hall
      rw [subst_compound]
      apply Resolves.compound
      rw [List.forall₂_map_right_iff]
      exact hall.imp (fun _ _ hab => hab.2)
  intro y
  exact key (h y)

/-! ## What `occursCheck` returns -/

theorem anyArg_forall₂ {f : Term → Option Bool} {Q : Term → Prop} [DecidablePred Q]
    {as bs : List Term} (h : List.Forall₂ (fun a b => f a = some (decide (Q b))) as bs) :
    anyArg f as = some (decide (∃ b ∈ bs, Q b)) := by
  induction h with
  | nil => simp [anyArg]
  | @cons a b as bs h1 _ ih =>
    by_cases hq : Q b
    · simp [anyArg, h1, hq]
    · simp [anyArg, h1, hq, ih]

/-- The occurs-check answers whether the variable occurs in the resolved term. -/
theorem occursCheck_of_resolves {θ : Theta} {v : String} {t r : Term} (h : Resolves θ t r) :
    ∃ n, occursCheck θ v n t = some (decide (v ∈ r.vars)) := by
  refine Resolves.induct
    (P := fun t r => ∃ n, occursCheck θ v n t = some (decide (v ∈ r.vars))) ?_ ?_ ?_ ?_ h
  · intro x t r hf _ ih
    obtain ⟨n, hn⟩ := ih
    exact ⟨n + 1, by simp only [occursCheck, hf]; exact hn⟩
  · intro x hx
    refine ⟨1, ?_⟩
    simp only [occursCheck, hx, vars_var, List.mem_singleton]
    congr 1
    exact decide_eq_decide.2 eq_comm
  · intro a
    exact ⟨1, by simp [occursCheck]⟩
  · intro f as bs hall
    have hall2 : List.Forall₂
        (fun a b => ∃ n, occursCheck θ v n a = some (decide (v ∈ b.vars))) as bs :=
      hall.imp (fun _ _ hab => hab.2)
    obtain ⟨n, hn⟩ := forall₂_common_fuel
      (R := fun n (a b : Term) => occursCheck θ v n a = some (decide (v ∈ b.vars)))
      (fun _ _ _ _ hab hnm => occursCheck_mono hab hnm) hall2
    refine ⟨n + 1, ?_⟩
    simp only [occursCheck]
    rw [anyArg_forall₂ (Q := fun b => v ∈ b.vars) hn]
    congr 1
    exact decide_eq_decide.2 mem_vars_compound.symm

theorem occursCheck_det {θ : Theta} {v : String} {t : Term} {n m : Nat} {b c : Bool}
    (h1 : occursCheck θ v n t = some b) (h2 : occursCheck θ v m t = some c) : b = c := by
  have e1 := occursCheck_mono h1 (le_max_left n m)
  have e2 := occursCheck_mono h2 (le_max_right n m)
  rw [e1] at e2
  exact Option.some.inj e2

/-! ## Equations without solution -/

theorem size_subst_le {τ : String → Term} {x : String} (t : Term) (h : x ∈ t.vars) :
    (τ x).size ≤ (subst τ t).size := by
  revert h
  refine Term.induction (P := fun t => x ∈ t.vars → (τ x).size ≤ (subst τ t).size) ?_ ?_ ?_ t
  · intro y hy
    simp at hy
    simp [hy]
  · intro a ha
    simp at ha
  · intro f as ih h
    obtain ⟨a, ha, hxa⟩ := mem_vars_compound.1 h
    have h1 := ih a ha hxa
    have h2 : (subst τ a).size ≤ ((as.map (subst τ)).map Term.size).sum :=
      size_le_sum_of_mem (List.mem_map_of_mem _ ha)
    rw [subst_compound, size_compound]
    omega

/-- A variable is not unifiable with a different term in which it occurs. -/
theorem occurs_no_unifier {τ : String → Term} {x : String} {t : Term} (h : x ∈ t.vars)
    (hne : t ≠ Term.Var x) : τ x ≠ subst τ t := by
  cases t with
  | Var y =>
    simp at h
    exact absurd (by rw [h]) hne
  | Atom a => simp at h
  | Compound f as =>
    obtain ⟨a, ha, hxa⟩ := mem_vars_compound.1 h
    have h1 : (τ x).size ≤ (subst τ a).size := size_subst_le a hxa
    have h2 : (subst τ a).size ≤ ((as.map (subst τ)).map Term.size).sum :=
      size_le_sum_of_mem (List.mem_map_of_mem _ ha)
    intro e
    have h3 := congrArg Term.size e
    rw [subst_compound, size_compound] at h3
    omega

theorem subst_shape {τ : String → Term} {t : Term} (h : t.type ≠ 'V') :
    (subst τ t).type = t.type ∧ (subst τ t).name = t.name ∧
      (subst τ t).args.length = t.args.length := by
  cases t with
  | Var x => simp [Term.type] at h
  | Atom a => simp [Term.type, Term.name, Term.args]
  | Compound f as => simp [Term.type, Term.name, Term.args]

theorem eq_of_shape {a b : Term} (ht : a.type = b.type) (hn : a.name = b.name)
    (hF : a.type ≠ 'F') : a = b := by
  cases a <;> cases b <;> simp [Term.type, Term.name] at ht hn hF ⊢ <;> exact hn

theorem type_V {t : Term} (h : t.type = 'V') : ∃ x, t = Term.Var x := by
  cases t <;> simp [Term.type] at h ⊢

theorem type_F {t : Term} (h : t.type = 'F') : ∃ f as, t = Term.Compound f as := by
  cases t <;> simp [Term.type] at h ⊢

/-! ## One iteration of the loop -/

theorem unifyLoop_nil (n : Nat) (θ : Theta) : unifyLoop (n + 1) θ [] = some (true, θ) := by
  simp [unifyLoop]

theorem unifyLoop_skip {n : Nat} {θ : Theta} {p1 p2 ptr1 ptr2 : Term}
    {stack : List (Term × Term)} (h1 : applySubst θ n p1 = some ptr1)
    (h2 : applySubst θ n p2 = some ptr2)
    (hc : ptr1.type = ptr2.type ∧ ptr1.name = ptr2.name ∧
      ptr1.args.length = ptr2.args.length)
    (hF : ptr1.type ≠ 'F') :
    unifyLoop (n + 1) θ ((p1, p2) :: stack) = unifyLoop n θ stack := by
  simp only [unifyLoop, h1, h2]
  rw [if_pos hc, if_pos hF]

theorem unifyLoop_push {n : Nat} {θ : Theta} {p1 p2 ptr1 ptr2 : Term}
    {stack : List (Term × Term)} (h1 : applySubst θ n p1 = some ptr1)
    (h2 : applySubst θ n p2 = some ptr2)
    (hc : ptr1.type = ptr2.type ∧ ptr1.name = ptr2.name ∧
      ptr1.args.length = ptr2.args.length)
    (hF : ¬ ptr1.type ≠ 'F') :
    unifyLoop (n + 1) θ ((p1, p2) :: stack) =
      unifyLoop n θ (pushArgs stack ptr1.args ptr2.args) := by
  simp only [unifyLoop, h1, h2]
  rw [if_pos hc, if_neg hF]

theorem unifyLoop_bind1 {n : Nat} {θ : Theta} {p1 p2 ptr1 ptr2 : Term}
    {stack : List (Term × Term)} (h1 : applySubst θ n p1 = some ptr1)
    (h2 : applySubst θ n p2 = some ptr2)
    (hc : ¬ (ptr1.type = ptr2.type ∧ ptr1.name = ptr2.name ∧
      ptr1.args.length = ptr2.args.length))
    (hV : ptr1.type = 'V') (ho : occursCheck θ ptr1.name n ptr2 = some false) :
    unifyLoop (n + 1) θ ((p1, p2) :: stack) = unifyLoop n (θ.set ptr1.name ptr2) stack := by
  simp only [unifyLoop, h1, h2]
  rw [if_neg hc, if_pos hV]
  simp only [ho]

theorem unifyLoop_occurs1 {n : Nat} {θ : Theta} {p1 p2 ptr1 ptr2 : Term}
    {stack : List (Term × Term)} (h1 : applySubst θ n p1 = some ptr1)
    (h2 : applySubst θ n p2 = some ptr2)
    (hc : ¬ (ptr1.type = ptr2.type ∧ ptr1.name = ptr2.name ∧
      ptr1.args.length = ptr2.args.length))
    (hV : ptr1.type = 'V') (ho : occursCheck θ ptr1.name n ptr2 = some true) :
    unifyLoop (n + 1) θ ((p1, p2) :: stack) = some (false, θ) := by
  simp only [unifyLoop, h1, h2]
  rw [if_neg hc, if_pos hV]
  simp only [ho]

theorem unifyLoop_bind2 {n : Nat} {θ : Theta} {p1 p2 ptr1 ptr2 : Term}
    {stack : List (Term × Term)} (h1 : applySubst θ n p1 = some ptr1)
    (h2 : applySubst θ n p2 = some ptr2)
    (hc : ¬ (ptr1.type = ptr2.type ∧ ptr1.name = ptr2.name ∧
      ptr1.args.length = ptr2.args.length))
    (hV1 : ¬ ptr1.type = 'V') (hV2 : ptr2.type = 'V')
    (ho : occursCheck θ ptr2.name n ptr1 = some false) :
    unifyLoop (n + 1) θ ((p1, p2) :: stack) = unifyLoop n (θ.set ptr2.name ptr1) stack := by
  simp only [unifyLoop, h1, h2]
  rw [if_neg hc, if_neg hV1, if_pos hV2]
  simp only [ho]

theorem unifyLoop_occurs2 {n : Nat} {θ : Theta} {p1 p2 ptr1 ptr2 : Term}
    {stack : List (Term × Term)} (h1 : applySubst θ n p1 = some ptr1)
    (h2 : applySubst θ n p2 = some ptr2)
    (hc : ¬ (ptr1.type = ptr2.type ∧ ptr1.name = ptr2.name ∧
      ptr1.args.length = ptr2.args.length))
    (hV1 : ¬ ptr1.type = 'V') (hV2 : ptr2.type = 'V')
    (ho : occursCheck θ ptr2.name n ptr1 = some true) :
    unifyLoop (n + 1) θ ((p1, p2) :: stack) = some (false, θ) := by
  simp only [unifyLoop, h1, h2]
  rw [if_neg hc, if_neg hV1, if_pos hV2]
  simp only [ho]

theorem unifyLoop_clash {n : Nat} {θ : Theta} {p1 p2 ptr1 ptr2 : Term}
    {stack : List (Term × Term)} (h1 : applySubst θ n p1 = some ptr1)
    (h2 : applySubst θ n p2 = some ptr2)
    (hc : ¬ (ptr1.type = ptr2.type ∧ ptr1.name = ptr2.name ∧
      ptr1.args.length = ptr2.args.length))
    (hV1 : ¬ ptr1.type = 'V') (hV2 : ¬ ptr2.type = 'V') :
    unifyLoop (n + 1) θ ((p1, p2) :: stack) = some (false, θ) := by
  simp only [unifyLoop, h1, h2]
  rw [if_neg hc, if_neg hV1, if_neg hV2]

theorem unifyLoop_mono : ∀ {n m : Nat} {θ : Theta} {stack : List (Term × Term)}
    {r : Bool × Theta}, unifyLoop n θ stack = some r → n ≤ m → unifyLoop m θ stack = some r := by
  intro n
  induction n with
  | zero =>
    intro m θ stack r h
    simp [unifyLoop] at h
  | succ n ih =>
    intro m θ stack r h hnm
    obtain ⟨m, rfl⟩ : ∃ k, m = k + 1 := ⟨m - 1, by omega⟩
    have hle : n ≤ m := by omega
    cases stack with
    | nil =>
      rw [unifyLoop_nil] at h ⊢
      exact h
    | cons p stack =>
      obtain ⟨p1, p2⟩ := p
      cases h1 : applySubst θ n p1 with
      | none => simp [unifyLoop, h1] at h
      | some ptr1 =>
        cases h2 : applySubst θ n p2 with
        | none => simp [unifyLoop, h1, h2] at h
        | some ptr2 =>
          have h1m := applySubst_mono h1 hle
          have h2m := applySubst_mono h2 hle
          by_cases hc : ptr1.type = ptr2.type ∧ ptr1.name = ptr2.name ∧
              ptr1.args.length = ptr2.args.length
          · by_cases hF : ptr1.type ≠ 'F'
            · rw [unifyLoop_skip h1 h2 hc hF] at h
              rw [unifyLoop_skip h1m h2m hc hF]
              exact ih h hle
            · rw [unifyLoop_push h1 h2 hc hF] at h
              rw [unifyLoop_push h1m h2m hc hF]
              exact ih h hle
          · by_cases hV1 : ptr1.type = 'V'
            · cases ho : occursCheck θ ptr1.name n ptr2 with
              | none =>
                simp only [unifyLoop, h1, h2] at h
                rw [if_neg hc, if_pos hV1] at h
                simp [ho] at h
              | some b =>
                have hom := occursCheck_mono ho hle
                cases b with
                | true =>
                  rw [unifyLoop_occurs1 h1 h2 hc hV1 ho] at h
                  rw [unifyLoop_occurs1 h1m h2m hc hV1 hom]
                  exact h
                | false =>
                  rw [unifyLoop_bind1 h1 h2 hc hV1 ho] at h
                  rw [unifyLoop_bind1 h1m h2m hc hV1 hom]
                  exact ih h hle
            · by_cases hV2 : ptr2.type = 'V'
              · cases ho : occursCheck θ ptr2.name n ptr1 with
                | none =>
                  simp only [unifyLoop, h1, h2] at h
                  rw [if_neg hc, if_neg hV1, if_pos hV2] at h
                  simp [ho] at h
                | some b =>
                  have hom := occursCheck_mono ho hle
                  cases b with
                  | true =>
                    rw [unifyLoop_occurs2 h1 h2 hc hV1 hV2 ho] at h
                    rw [unifyLoop_occurs2 h1m h2m hc hV1 hV2 hom]
                    exact h
                  | false =>
                    rw [unifyLoop_bind2 h1 h2 hc hV1 hV2 ho] at h
                    rw [unifyLoop_bind2 h1m h2m hc hV1 hV2 hom]
                    exact ih h hle
              · rw [unifyLoop_clash h1 h2 hc hV1 hV2] at h
                rw [unifyLoop_clash h1m h2m hc hV1 hV2]
                exact h

/-! ## The solutions of a state -/

theorem solves_cons {τ : String → Term} {θ : Theta} {p : Term × Term}
    {stack : List (Term × Term)} :
    Solves τ θ (p :: stack) ↔ Solves τ θ stack ∧ subst τ p.1 = subst τ p.2 := by
  simp only [Solves, SolvesStack, List.mem_cons, forall_eq_or_imp]
  tauto

theorem subst_resolved {θ : Theta} {σ τ : String → Term} (hσ : Denotes θ σ)
    (hτ : SolvesStore τ θ) (t : Term) : subst τ (subst σ t) = subst τ t :=
  (hσ.resolves t).subst_eq hτ

theorem solves_pair {θ : Theta} {σ τ : String → Term} (hσ : Denotes θ σ) {p1 p2 : Term}
    {stack : List (Term × Term)} :
    Solves τ θ ((p1, p2) :: stack) ↔
      Solves τ θ stack ∧ subst τ (subst σ p1) = subst τ (subst σ p2) := by
  rw [solves_cons]
  constructor
  · rintro ⟨h, e⟩
    refine ⟨h, ?_⟩
    rw [subst_resolved hσ h.1, subst_resolved hσ h.1]
    exact e
  · rintro ⟨h, e⟩
    refine ⟨h, ?_⟩
    rw [subst_resolved hσ h.1, subst_resolved hσ h.1] at e
    exact e

theorem solves_skip {θ : Theta} {σ τ : String → Term} (hσ : Denotes θ σ) {p1 p2 : Term}
    {stack : List (Term × Term)} (he : subst σ p1 = subst σ p2) :
    Solves τ θ ((p1, p2) :: stack) ↔ Solves τ θ stack := by
  rw [solves_pair hσ, he]
  simp

theorem mem_pushArgs {p : Term × Term} : ∀ {as bs : List Term} {stack : List (Term × Term)},
    p ∈ pushArgs stack as bs ↔ p ∈ stack ∨ p ∈ List.zip as bs := by
  intro as
  induction as with
  | nil =>
    intro bs stack
    simp [pushArgs]
  | cons a as ih =>
    intro bs stack
    cases bs with
    | nil => simp [pushArgs]
    | cons b bs =>
      simp only [pushArgs, ih, List.mem_cons, List.zip_cons_cons]
      tauto

theorem zip_solved {τ : String → Term} : ∀ {as bs : List Term}, as.length = bs.length →
    ((∀ p ∈ List.zip as bs, subst τ p.1 = subst τ p.2) ↔
      as.map (subst τ) = bs.map (subst τ)) := by
  intro as
  induction as with
  | nil =>
    intro bs h
    cases bs with
    | nil => simp
    | cons b bs => simp at h
  | cons a as ih =>
    intro bs h
    cases bs with
    | nil => simp at h
    | cons b bs =>
      have hl : as.length = bs.length := by simpa using h
      simp only [List.zip_cons_cons, List.mem_cons, forall_eq_or_imp, List.map_cons,
        List.cons.injEq, ih hl]

theorem solves_push {θ : Theta} {σ τ : String → Term} (hσ : Denotes θ σ) {p1 p2 : Term}
    {stack : List (Term × Term)} {f : String} {as bs : List Term}
    (h1 : subst σ p1 = Term.Compound f as) (h2 : subst σ p2 = Term.Compound f bs)
    (hlen : as.length = bs.length) :
    Solves τ θ ((p1, p2) :: stack) ↔ Solves τ θ (pushArgs stack as bs) := by
  rw [solves_pair hσ, h1, h2]
  simp only [Solves, SolvesStack, mem_pushArgs, subst_compound, Term.Compound.injEq, true_and,
    ← zip_solved hlen]
  constructor
  · rintro ⟨⟨hs, hst⟩, hz⟩
    exact ⟨hs, fun p hp => hp.elim (hst p) (hz p)⟩
  · rintro ⟨hs, hall⟩
    exact ⟨⟨hs, fun p hp => hall p (Or.inl hp)⟩, fun p hp => hall p (Or.inr hp)⟩

theorem solvesStore_set {θ : Theta} {τ : String → Term} {x : String} {t : Term}
    (hx : θ.find x = none) :
    SolvesStore τ (θ.set x t) ↔ SolvesStore τ θ ∧ τ x = subst τ t := by
  constructor
  · intro h
    refine ⟨fun y u hy => ?_, h x t (find_set_self _ _ _)⟩
    have hne : y ≠ x := by
      intro e
      rw [e, hx] at hy
      cases hy
    exact h y u (by rw [find_set_ne _ _ _ hne]; exact hy)
  · rintro ⟨h, e⟩ y u hy
    by_cases hyx : y = x
    · subst hyx
      rw [find_set_self] at hy
      cases hy
      exact e
    · rw [find_set_ne _ _ _ hyx] at hy
      exact h y u hy

theorem solves_bind {θ : Theta} {σ τ : String → Term} (hσ : Denotes θ σ) {p1 p2 : Term}
    {stack : List (Term × Term)} {x : String} {t : Term} (hx : θ.find x = none)
    (h : subst τ (subst σ p1) = subst τ (subst σ p2) ↔ τ x = subst τ t) :
    Solves τ θ ((p1, p2) :: stack) ↔ Solves τ (θ.set x t) stack := by
  rw [solves_pair hσ, h]
  simp only [Solves, solvesStore_set hx]
  tauto

theorem Post.of_equiv {θ θ2 θ1 : Theta} {stack stack2 : List (Term × Term)} {b : Bool}
    (he : ∀ τ, Solves τ θ stack ↔ Solves τ θ2 stack2) (h : Post θ2 stack2 b θ1) :
    Post θ stack b θ1 := by
  refine ⟨h.1, fun hb τ => (he τ).trans (h.2.1 hb τ), fun hb τ hτ => ?_⟩
  exact h.2.2 hb τ ((he τ).1 hτ)

theorem post_nil {θ : Theta} {σ : String → Term} (hσ : Denotes θ σ) : Post θ [] true θ := by
  refine ⟨⟨σ, hσ⟩, fun _ τ => ?_, fun hb => by cases hb⟩
  simp [Solves, SolvesStack]

theorem post_fail {θ θ1 : Theta} {σ : String → Term} {stack : List (Term × Term)}
    (hσ : Denotes θ1 σ) (h : ∀ τ, ¬ Solves τ θ stack) : Post θ stack false θ1 :=
  ⟨⟨σ, hσ⟩, fun hb => Bool.noConfusion hb, fun _ => h⟩

/-! ## The measure of a state -/

theorem stackSize_cons (σ : String → Term) (p : Term × Term) (stack : List (Term × Term)) :
    stackSize σ (p :: stack) = (subst σ p.1).size + (subst σ p.2).size + stackSize σ stack := by
  simp [stackSize]

theorem stackSize_pushArgs (σ : String → Term) : ∀ (as bs : List Term)
    (stack : List (Term × Term)), as.length = bs.length →
    stackSize σ (pushArgs stack as bs) =
      stackSize σ stack + ((as.map (subst σ)).map Term.size).sum +
        ((bs.map (subst σ)).map Term.size).sum := by
  intro as
  induction as with
  | nil =>
    intro bs stack h
    cases bs with
    | nil => simp [pushArgs]
    | cons b bs => simp at h
  | cons a as ih =>
    intro bs stack h
    cases bs with
    | nil => simp at h
    | cons b bs =>
      have hl : as.length = bs.length := by simpa using h
      simp only [pushArgs, ih bs _ hl, stackSize_cons, List.map_cons, List.sum_cons]
      omega

theorem length_filter_lt {α : Type} {p q : α → Bool} {l : List α} {x : α}
    (hpq : ∀ a, p a = true → q a = true) (hx : x ∈ l) (hq : q x = true) (hp : p x = false) :
    (l.filter p).length < (l.filter q).length := by
  induction l with
  | nil => cases hx
  | cons a l ih =>
    have hle : (l.filter p).length ≤ (l.filter q).length := by
      have hsub : List.Sublist (l.filter p) (l.filter q) := by
        apply List.monotone_filter_right
        exact hpq
      exact hsub.length_le
    rcases List.mem_cons.1 hx with e | hx2
    · subst e
      simp only [List.filter_cons, hq, hp, if_true, List.length_cons]
      simp
      omega
    · have := ih hx2
      by_cases hpa : p a = true
      · simp only [List.filter_cons, hpa, hpq a hpa, if_true, List.length_cons]
        omega
      · by_cases hqa : q a = true
        · simp only [List.filter_cons, hpa, hqa, if_true, List.length_cons]
          simp
          omega
        · simp only [List.filter_cons, hpa, hqa]
          simpa using this

theorem unboundCount_set_lt {V : List String} {θ : Theta} {x : String} (t : Term)
    (hxV : x ∈ V) (hx : θ.find x = none) :
    unboundCount V (θ.set x t) < unboundCount V θ := by
  apply length_filter_lt (x := x) _ hxV
  · simp [hx]
  · simp [find_set_self]
  · intro y hy
    by_cases e : y = x
    · subst e
      simp [find_set_self] at hy
    · rw [find_set_ne _ _ _ e] at hy
      exact hy

theorem Resolves.vars_closed {V : List String} {θ : Theta}
    (hc : ∀ x t, θ.find x = some t → ∀ y ∈ t.vars, y ∈ V) {t r : Term}
    (h : Resolves θ t r) : (∀ y ∈ t.vars, y ∈ V) → ∀ y ∈ r.vars, y ∈ V := by
  refine Resolves.induct
    (P := fun t r => (∀ y ∈ t.vars, y ∈ V) → ∀ y ∈ r.vars, y ∈ V) ?_ ?_ ?_ ?_ h
  · intro x t r hf _ ih _
    exact ih (hc x t hf)
  · intro x _ h
    exact h
  · intro a h
    exact h
  · intro f as bs hall ht y hy
    obtain ⟨b, hb, hyb⟩ := mem_vars_compound.1 hy
    obtain ⟨a, ha, hab⟩ := forall₂_mem_right hall hb
    exact hab.2 (fun z hz => ht z (mem_vars_compound.2 ⟨a, ha, hz⟩)) y hyb

/-! ## The loop terminates and keeps the solutions -/

/-- From a store that denotes a substitution the loop returns, and what it returns satisfies
`Post`.  The measure is the number of unbound variables of `V`, then the size of the resolved
stack. -/
theorem unifyLoop_total (V : List String) : ∀ (k s : Nat) (θ : Theta) (σ : String → Term)
    (stack : List (Term × Term)), Denotes θ σ → Closed V θ stack → unboundCount V θ ≤ k →
    stackSize σ stack ≤ s →
    ∃ N b θ1, (∀ n, N ≤ n → unifyLoop n θ stack = some (b, θ1)) ∧ Post θ stack b θ1 := by
  intro k
  induction k using Nat.strong_induction_on with
  | _ k ihk =>
    intro s
    induction s using Nat.strong_induction_on with
    | _ s ihs =>
      intro θ σ stack hσ hcl hk hs
      cases stack with
      | nil =>
        refine ⟨1, true, θ, ?_, post_nil hσ⟩
        intro n hn
        obtain ⟨m, rfl⟩ : ∃ m, n = m + 1 := ⟨n - 1, by omega⟩
        exact unifyLoop_nil m θ
      | cons p stack =>
        obtain ⟨p1, p2⟩ := p
        obtain ⟨n1, h1⟩ := hσ.resolves p1
        obtain ⟨n2, h2⟩ := hσ.resolves p2
        have hu1 := (hσ.resolves p1).unbound
        have hu2 := (hσ.resolves p2).unbound
        have hv1 := (hσ.resolves p1).vars_closed hcl.1
          (hcl.2 (p1, p2) (List.mem_cons_self _ _)).1
        have hv2 := (hσ.resolves p2).vars_closed hcl.1
          (hcl.2 (p1, p2) (List.mem_cons_self _ _)).2
        have hclt : Closed V θ stack :=
          ⟨hcl.1, fun p hp => hcl.2 p (List.mem_cons_of_mem _ hp)⟩
        rw [stackSize_cons] at hs
        simp only at hs
        by_cases hc : (subst σ p1).type = (subst σ p2).type ∧
            (subst σ p1).name = (subst σ p2).name ∧
            (subst σ p1).args.length = (subst σ p2).args.length
        · by_cases hF : (subst σ p1).type ≠ 'F'
          · -- identical variables or atoms: the pair is dropped
            have heq := eq_of_shape hc.1 hc.2.1 hF
            have hpos := size_pos (subst σ p1)
            obtain ⟨N, b, θ1, hN, hpost⟩ :=
              ihs (stackSize σ stack) (by omega) θ σ stack hσ hclt hk le_rfl
            refine ⟨n1 + n2 + N + 1, b, θ1, ?_,
              hpost.of_equiv (fun τ => solves_skip hσ heq)⟩
            intro n hn
            obtain ⟨m, rfl⟩ : ∃ m, n = m + 1 := ⟨n - 1, by omega⟩
            rw [unifyLoop_skip (applySubst_mono h1 (by omega))
              (applySubst_mono h2 (by omega)) hc hF]
            exact hN m (by omega)
          · -- two compounds with the same functor and arity: the arguments are pushed
            have hF1 : (subst σ p1).type = 'F' := not_not.1 hF
            have hF2 : (subst σ p2).type = 'F' := hc.1 ▸ hF1
            obtain ⟨f, as, e1⟩ := type_F hF1
            obtain ⟨g, bs, e2⟩ := type_F hF2
            have hfg : f = g := by
              have := hc.2.1
              rw [e1, e2] at this
              exact this
            subst hfg
            have hlen : as.length = bs.length := by
              have := hc.2.2
              rw [e1, e2] at this
              exact this
            have id1 : as.map (subst σ) = as := by
              have := hσ.idem p1
              rw [e1, subst_compound] at this
              injection this
            have id2 : bs.map (subst σ) = bs := by
              have := hσ.idem p2
              rw [e2, subst_compound] at this
              injection this
            have hsz : stackSize σ (pushArgs stack as bs) < s := by
              rw [stackSize_pushArgs σ as bs stack hlen, id1, id2]
              rw [e1, e2, size_compound, size_compound] at hs
              omega
            have hclp : Closed V θ (pushArgs stack as bs) := by
              refine ⟨hcl.1, fun p hp => ?_⟩
              rcases mem_pushArgs.1 hp with hp | hp
              · exact hclt.2 p hp
              · obtain ⟨q1, q2⟩ := p
                have hm := List.of_mem_zip hp
                constructor
                · intro y hy
                  exact hv1 y (by rw [e1]; exact mem_vars_compound.2 ⟨q1, hm.1, hy⟩)
                · intro y hy
                  exact hv2 y (by rw [e2]; exact mem_vars_compound.2 ⟨q2, hm.2, hy⟩)
            obtain ⟨N, b, θ1, hN, hpost⟩ :=
              ihs (stackSize σ (pushArgs stack as bs)) hsz θ σ _ hσ hclp hk le_rfl
            refine ⟨n1 + n2 + N + 1, b, θ1, ?_,
              hpost.of_equiv (fun τ => solves_push hσ e1 e2 hlen)⟩
            intro n hn
            obtain ⟨m, rfl⟩ : ∃ m, n = m + 1 := ⟨n - 1, by omega⟩
            rw [unifyLoop_push (applySubst_mono h1 (by omega))
              (applySubst_mono h2 (by omega)) hc hF, e1, e2]
            exact hN m (by omega)
        · by_cases hV1 : (subst σ p1).type = 'V'
          · -- the first term is an unbound variable
            obtain ⟨x, e1⟩ := type_V hV1
            have hname : (subst σ p1).name = x := by rw [e1]; rfl
            have hx : θ.find x = none := hu1 x (by rw [e1]; simp)
            have hxV : x ∈ V := hv1 x (by rw [e1]; simp)
            have hne : subst σ p2 ≠ Term.Var x := by
              intro e
              apply hc
              rw [e1, e]
              simp
            obtain ⟨n3, h3⟩ :=
              occursCheck_of_resolves (v := x) (resolves_self (subst σ p2) hu2)
            by_cases hocc : x ∈ (subst σ p2).vars
            · refine ⟨n1 + n2 + n3 + 1, false, θ, ?_, post_fail hσ (fun τ hτ => ?_)⟩
              · intro n hn
                obtain ⟨m, rfl⟩ : ∃ m, n = m + 1 := ⟨n - 1, by omega⟩
                have ho : occursCheck θ (subst σ p1).name m (subst σ p2) = some true := by
                  rw [hname]
                  have := occursCheck_mono h3 (show n3 ≤ m by omega)
                  simpa [hocc] using this
                exact unifyLoop_occurs1 (applySubst_mono h1 (by omega))
                  (applySubst_mono h2 (by omega)) hc hV1 ho
              · have := ((solves_pair hσ).1 hτ).2
                rw [e1, subst_var] at this
                exact occurs_no_unifier hocc hne this
            · have hσ2 := hσ.set hx hu2 hocc
              have hlt := unboundCount_set_lt (subst σ p2) hxV hx
              have hcl2 : Closed V (θ.set x (subst σ p2)) stack := by
                refine ⟨fun y u hy => ?_, hclt.2⟩
                by_cases e : y = x
                · subst e
                  rw [find_set_self] at hy
                  cases hy
                  exact hv2
                · rw [find_set_ne _ _ _ e] at hy
                  exact hcl.1 y u hy
              obtain ⟨N, b, θ1, hN, hpost⟩ :=
                ihk (unboundCount V (θ.set x (subst σ p2))) (by omega) _ _ _ stack
                  hσ2 hcl2 le_rfl le_rfl
              refine ⟨n1 + n2 + n3 + N + 1, b, θ1, ?_,
                hpost.of_equiv (fun τ => solves_bind hσ hx (by rw [e1, subst_var]))⟩
              intro n hn
              obtain ⟨m, rfl⟩ : ∃ m, n = m + 1 := ⟨n - 1, by omega⟩
              have ho : occursCheck θ (subst σ p1).name m (subst σ p2) = some false := by
                rw [hname]
                have := occursCheck_mono h3 (show n3 ≤ m by omega)
                simpa [hocc] using this
              rw [unifyLoop_bind1 (applySubst_mono h1 (by omega))
                (applySubst_mono h2 (by omega)) hc hV1 ho, hname]
              exact hN m (by omega)
          · by_cases hV2 : (subst σ p2).type = 'V'
            · -- the second term is an unbound variable, the first is not a variable
              obtain ⟨y, e2⟩ := type_V hV2
              have hname : (subst σ p2).name = y := by rw [e2]; rfl
              have hy : θ.find y = none := hu2 y (by rw [e2]; simp)
              have hyV : y ∈ V := hv2 y (by rw [e2]; simp)
              have hne : subst σ p1 ≠ Term.Var y := by
                intro e
                apply hV1
                rw [e]
                rfl
              obtain ⟨n3, h3⟩ :=
                occursCheck_of_resolves (v := y) (resolves_self (subst σ p1) hu1)
              by_cases hocc : y ∈ (subst σ p1).vars
              · refine ⟨n1 + n2 + n3 + 1, false, θ, ?_, post_fail hσ (fun τ hτ => ?_)⟩
                · intro n hn
                  obtain ⟨m, rfl⟩ : ∃ m, n = m + 1 := ⟨n - 1, by omega⟩
                  have ho : occursCheck θ (subst σ p2).name m (subst σ p1) = some true := by
                    rw [hname]
                    have := occursCheck_mono h3 (show n3 ≤ m by omega)
                    simpa [hocc] using this
                  exact unifyLoop_occurs2 (applySubst_mono h1 (by omega))
                    (applySubst_mono h2 (by omega)) hc hV1 hV2 ho
                · have := ((solves_pair hσ).1 hτ).2
                  rw [e2, subst_var] at this
                  exact occurs_no_unifier hocc hne this.symm
              · have hσ2 := hσ.set hy hu1 hocc
                have hlt := unboundCount_set_lt (subst σ p1) hyV hy
                have hcl2 : Closed V (θ.set y (subst σ p1)) stack := by
                  refine ⟨fun z u hz => ?_, hclt.2⟩
                  by_cases e : z = y
                  · subst e
                    rw [find_set_self] at hz
                    cases hz
                    exact hv1
                  · rw [find_set_ne _ _ _ e] at hz
                    exact hcl.1 z u hz
                obtain ⟨N, b, θ1, hN, hpost⟩ :=
                  ihk (unboundCount V (θ.set y (subst σ p1))) (by omega) _ _ _ stack
                    hσ2 hcl2 le_rfl le_rfl
                refine ⟨n1 + n2 + n3 + N + 1, b, θ1, ?_,
                  hpost.of_equiv (fun τ => solves_bind hσ hy
                    (by rw [e2, subst_var]; exact eq_comm))⟩
                intro n hn
                obtain ⟨m, rfl⟩ : ∃ m, n = m + 1 := ⟨n - 1, by omega⟩
                have ho : occursCheck θ (subst σ p2).name m (subst σ p1) = some false := by
                  rw [hname]
                  have := occursCheck_mono h3 (show n3 ≤ m by omega)
                  simpa [hocc] using this
                rw [unifyLoop_bind2 (applySubst_mono h1 (by omega))
                  (applySubst_mono h2 (by omega)) hc hV1 hV2 ho, hname]
                exact hN m (by omega)
            · -- two different non-variable terms
              refine ⟨n1 + n2 + 1, false, θ, ?_, post_fail hσ (fun τ hτ => ?_)⟩
              · intro n hn
                obtain ⟨m, rfl⟩ : ∃ m, n = m + 1 := ⟨n - 1, by omega⟩
                exact unifyLoop_clash (applySubst_mono h1 (by omega))
                  (applySubst_mono h2 (by omega)) hc hV1 hV2
              · have := ((solves_pair hσ).1 hτ).2
                have s1 := subst_shape (τ := τ) hV1
                have s2 := subst_shape (τ := τ) hV2
                rw [this] at s1
                exact hc ⟨s1.1.symm.trans s2.1, s1.2.1.symm.trans s2.2.1,
                  s1.2.2.symm.trans s2.2.2⟩

/-! ## `unify` -/

theorem solves_start {τ : String → Term} {t1 t2 : Term} :
    Solves τ [] [(t1, t2)] ↔ subst τ t1 = subst τ t2 := by
  simp [Solves, SolvesStore, SolvesStack, Theta.find]

/-- The function `unify` returns on every pair of terms, and what it returns satisfies
`Post`. -/
theorem unify_total (t1 t2 : Term) :
    ∃ N b θ1, (∀ n, N ≤ n → unify n t1 t2 = some (b, θ1)) ∧ Post [] [(t1, t2)] b θ1 := by
  refine unifyLoop_total (t1.vars ++ t2.vars) _ _ [] Term.Var [(t1, t2)] denotes_nil ?_
    le_rfl le_rfl
  refine ⟨fun x t h => by simp [Theta.find] at h, fun p hp => ?_⟩
  simp only [List.mem_singleton] at hp
  subst hp
  exact ⟨fun y hy => List.mem_append_left _ hy, fun y hy => List.mem_append_right _ hy⟩

/-- Whatever a run of `unify` returns satisfies `Post`. -/
theorem unify_post {n : Nat} {t1 t2 : Term} {b : Bool} {θ : Theta}
    (h : unify n t1 t2 = some (b, θ)) : Post [] [(t1, t2)] b θ := by
  obtain ⟨N, b0, θ0, hN, hpost⟩ := unify_total t1 t2
  have e1 := unifyLoop_mono h (le_max_left n N)
  have e2 := hN (max n N) (le_max_right n N)
  rw [unify, e1] at e2
  cases e2
  exact hpost

theorem resolves_nil (t : Term) : Resolves [] t t :=
  resolves_self t (fun _ _ => rfl)

theorem mem_zip_self {p : Term × Term} : ∀ {as : List Term}, p ∈ List.zip as as → p.1 = p.2 := by
  intro as
  induction as with
  | nil => simp
  | cons a as ih =>
    intro h
    simp only [List.zip_cons_cons, List.mem_cons] at h
    rcases h with e | h
    · rw [e]
    · exact ih h

/-- On a stack of pairs of identical terms and the empty store the loop returns `true` and
leaves the store empty. -/
theorem unifyLoop_same : ∀ (s : Nat) (stack : List (Term × Term)),
    (∀ p ∈ stack, p.1 = p.2) → stackSize Term.Var stack ≤ s →
    ∃ N, ∀ n, N ≤ n → unifyLoop n [] stack = some (true, []) := by
  intro s
  induction s using Nat.strong_induction_on with
  | _ s ihs =>
    intro stack hsame hs
    cases stack with
    | nil =>
      refine ⟨1, fun n hn => ?_⟩
      obtain ⟨m, rfl⟩ : ∃ m, n = m + 1 := ⟨n - 1, by omega⟩
      exact unifyLoop_nil m []
    | cons p stack =>
      obtain ⟨p1, p2⟩ := p
      have e : p1 = p2 := hsame (p1, p2) (List.mem_cons_self _ _)
      subst e
      obtain ⟨n1, h1⟩ := resolves_nil p1
      have hsame2 : ∀ p ∈ stack, p.1 = p.2 := fun p hp => hsame p (List.mem_cons_of_mem _ hp)
      have hid : ∀ t : Term, subst Term.Var t = t :=
        fun t => (denotes_nil.resolves t).det (resolves_nil t)
      rw [stackSize_cons] at hs
      simp only [hid] at hs
      have hc : p1.type = p1.type ∧ p1.name = p1.name ∧ p1.args.length = p1.args.length :=
        ⟨rfl, rfl, rfl⟩
      by_cases hF : p1.type ≠ 'F'
      · have hpos := size_pos p1
        obtain ⟨N, hN⟩ := ihs (stackSize Term.Var stack) (by omega) stack hsame2 le_rfl
        refine ⟨n1 + N + 1, fun n hn => ?_⟩
        obtain ⟨m, rfl⟩ : ∃ m, n = m + 1 := ⟨n - 1, by omega⟩
        rw [unifyLoop_skip (applySubst_mono h1 (by omega)) (applySubst_mono h1 (by omega))
          hc hF]
        exact hN m (by omega)
      · obtain ⟨f, as, e1⟩ := type_F (not_not.1 hF)
        have hsame3 : ∀ p ∈ pushArgs stack as as, p.1 = p.2 := by
          intro p hp
          rcases mem_pushArgs.1 hp with hp | hp
          · exact hsame2 p hp
          · exact mem_zip_self hp
        have hsz : stackSize Term.Var (pushArgs stack as as) < s := by
          rw [stackSize_pushArgs Term.Var as as stack rfl]
          have : as.map (subst Term.Var) = as := by
            conv_rhs => rw [← List.map_id as]
            exact List.map_congr_left (fun a _ => hid a)
          rw [this]
          rw [e1, size_compound] at hs
          omega
        obtain ⟨N, hN⟩ := ihs _ hsz _ hsame3 le_rfl
        refine ⟨n1 + N + 1, fun n hn => ?_⟩
        obtain ⟨m, rfl⟩ : ∃ m, n = m + 1 := ⟨n - 1, by omega⟩
        rw [unifyLoop_push (applySubst_mono h1 (by omega)) (applySubst_mono h1 (by omega))
          hc hF, e1]
        exact hN m (by omega)

theorem subst_ground {τ : String → Term} (t : Term) (h : t.vars = []) : subst τ t = t := by
  revert h
  refine Term.induction (P := fun t => t.vars = [] → subst τ t = t) ?_ ?_ ?_ t
  · intro x h
    simp at h
  · intro a _
    simp
  · intro f as ih h
    rw [subst_compound]
    congr 1
    conv_rhs => rw [← List.map_id as]
    apply List.map_congr_left
    intro a ha
    apply ih a ha
    apply List.eq_nil_iff_forall_not_mem.2
    intro y hy
    have : y ∈ (Term.Compound f as).vars := mem_vars_compound.2 ⟨a, ha, hy⟩
    rw [h] at this
    cases this

/-! ## The claims -/

/-- C1 (soundness of `unify`): when `unify t1 t2` returns `true` with the store `θ`, applying
`θ` with `applySubst` to `t1` and to `t2` returns, and returns one and the same term. -/
theorem unify_sound (n : Nat) (t1 t2 : Term) (θ : Theta)
    (h : unify n t1 t2 = some (true, θ)) :
    ∃ m r, applySubst θ m t1 = some r ∧ applySubst θ m t2 = some r := by
  obtain ⟨⟨σ, hσ⟩, hsol, _⟩ := unify_post h
  have hsol := hsol rfl
  have he : subst σ t1 = subst σ t2 := solves_start.1 ((hsol σ).2 hσ.solves)
  obtain ⟨n1, h1⟩ := hσ.resolves t1
  obtain ⟨n2, h2⟩ := hσ.resolves t2
  refine ⟨max n1 n2, subst σ t1, applySubst_mono h1 (le_max_left _ _), ?_⟩
  rw [he]
  exact applySubst_mono h2 (le_max_right _ _)

/-- C1 at `f(X, a)` and `f(b, Y)`. -/
theorem unify_sound_witness :
    unify 4 (Term.Compound "f" [Term.Var "X", Term.Atom "a"])
        (Term.Compound "f" [Term.Atom "b", Term.Var "Y"])
      = some (true, [("X", Term.Atom "b"), ("Y", Term.Atom "a")]) ∧
    ∃ m r,
      applySubst [("X", Term.Atom "b"), ("Y", Term.Atom "a")] m
        (Term.Compound "f" [Term.Var "X", Term.Atom "a"]) = some r ∧
      applySubst [("X", Term.Atom "b"), ("Y", Term.Atom "a")] m
        (Term.Compound "f" [Term.Atom "b", Term.Var "Y"]) = some r :=
  ⟨rfl, unify_sound 4 _ _ _ rfl⟩

/-- C2 (completeness of `unify`): when `unify t1 t2` returns `false`, no substitution of terms
for variables makes `t1` and `t2` identical; equivalently, when some substitution makes them
identical, `unify t1 t2` returns `true`. -/
theorem unify_complete (t1 t2 : Term) :
    (∀ n θ, unify n t1 t2 = some (false, θ) → ∀ τ : String → Term, subst τ t1 ≠ subst τ t2) ∧
    ((∃ τ : String → Term, subst τ t1 = subst τ t2) →
      ∃ N θ, ∀ n, N ≤ n → unify n t1 t2 = some (true, θ)) := by
  refine ⟨fun n θ h τ e => (unify_post h).2.2 rfl τ (solves_start.2 e), ?_⟩
  rintro ⟨τ, e⟩
  obtain ⟨N, b, θ, hN, hpost⟩ := unify_total t1 t2
  cases b with
  | true => exact ⟨N, θ, hN⟩
  | false => exact absurd (solves_start.2 e) (hpost.2.2 rfl τ)

/-- C2 at `X` and `f(X)`, which `unify` rejects, and at `f(X, a)` and `f(b, Y)`, which the
substitution of `b` for `X` and `a` for `Y` makes identical. -/
theorem unify_complete_witness :
    unify 3 (Term.Var "X") (Term.Compound "f" [Term.Var "X"]) = some (false, []) ∧
    (∀ τ : String → Term,
      subst τ (Term.Var "X") ≠ subst τ (Term.Compound "f" [Term.Var "X"])) ∧
    ∃ N θ, ∀ n, N ≤ n →
      unify n (Term.Compound "f" [Term.Var "X", Term.Atom "a"])
        (Term.Compound "f" [Term.Atom "b", Term.Var "Y"]) = some (true, θ) :=
  ⟨rfl, (unify_complete _ _).1 3 [] rfl,
    (unify_complete _ _).2
      ⟨fun x => if x = "X" then Term.Atom "b" else Term.Atom "a", by simp⟩⟩

/-- C3 (most general unifier): when `unify t1 t2` returns `true` with the store `θ`, the
store denotes a substitution `σ` that unifies `t1` and `t2`, and every substitution `s` that
unifies them is `σ` followed by a further substitution `ρ`. -/
theorem unify_mgu (n : Nat) (t1 t2 : Term) (θ : Theta)
    (h : unify n t1 t2 = some (true, θ)) :
    ∃ σ, Denotes θ σ ∧ subst σ t1 = subst σ t2 ∧
      ∀ s : String → Term, subst s t1 = subst s t2 →
        ∃ ρ : String → Term, ∀ t, subst s t = subst ρ (subst σ t) := by
  obtain ⟨⟨σ, hσ⟩, hsol, _⟩ := unify_post h
  have hsol := hsol rfl
  refine ⟨σ, hσ, solves_start.1 ((hsol σ).2 hσ.solves), fun s hs => ⟨s, fun t => ?_⟩⟩
  exact (subst_resolved hσ ((hsol s).1 (solves_start.2 hs)) t).symm

/-- C3 at `f(X, a)` and `f(b, Y)`. -/
theorem unify_mgu_witness :
    unify 4 (Term.Compound "f" [Term.Var "X", Term.Atom "a"])
        (Term.Compound "f" [Term.Atom "b", Term.Var "Y"])
      = some (true, [("X", Term.Atom "b"), ("Y", Term.Atom "a")]) ∧
    ∃ σ, Denotes [("X", Term.Atom "b"), ("Y", Term.Atom "a")] σ ∧
      subst σ (Term.Compound "f" [Term.Var "X", Term.Atom "a"])
        = subst σ (Term.Compound "f" [Term.Atom "b", Term.Var "Y"]) ∧
      ∀ s : String → Term,
        subst s (Term.Compound "f" [Term.Var "X", Term.Atom "a"])
          = subst s (Term.Compound "f" [Term.Atom "b", Term.Var "Y"]) →
        ∃ ρ : String → Term, ∀ t, subst s t = subst ρ (subst σ t) :=
  ⟨rfl, unify_mgu 4 _ _ _ rfl⟩

/-- C4 (termination of `unify`): for every pair of terms there is a depth from which on
`unify` returns, always the same boolean with the same store, and no run returns anything
else.  The loop returns only when every call of `applySubst` and `occursCheck` it makes
returns; against the store the run ends with, `applySubst` and `occursCheck` return on every
term. -/
theorem unify_terminates (t1 t2 : Term) :
    ∃ N b θ, (∀ n, N ≤ n → unify n t1 t2 = some (b, θ)) ∧
      (∀ n r, unify n t1 t2 = some r → r = (b, θ)) ∧
      (∀ t, ∃ m r, applySubst θ m t = some r) ∧
      (∀ v t, ∃ m c, occursCheck θ v m t = some c) := by
  obtain ⟨N, b, θ, hN, ⟨σ, hσ⟩, _⟩ := unify_total t1 t2
  refine ⟨N, b, θ, hN, fun n r hr => ?_, fun t => ?_, fun v t => ?_⟩
  · have e1 := unifyLoop_mono hr (le_max_left n N)
    have e2 := hN (max n N) (le_max_right n N)
    rw [unify, e1] at e2
    exact Option.some.inj e2
  · obtain ⟨m, hm⟩ := hσ.resolves t
    exact ⟨m, _, hm⟩
  · obtain ⟨m, hm⟩ := occursCheck_of_resolves (v := v) (hσ.resolves t)
    exact ⟨m, _, hm⟩

/-- C5 (occurs-check rejection): when the variable `x` occurs in the compound term
`f(as)`, the occurs-check answers `true` and `unify` returns `false`, whichever side the
variable is on. -/
theorem unify_occurs_fails (x f : String) (as : List Term)
    (h : x ∈ (Term.Compound f as).vars) :
    ∃ N, ∀ n, N ≤ n →
      occursCheck [] x n (Term.Compound f as) = some true ∧
      unify n (Term.Var x) (Term.Compound f as) = some (false, []) ∧
      unify n (Term.Compound f as) (Term.Var x) = some (false, []) := by
  obtain ⟨n1, h1⟩ := resolves_nil (Term.Compound f as)
  obtain ⟨n2, h2⟩ := occursCheck_of_resolves (v := x) (resolves_nil (Term.Compound f as))
  have h0 : ∀ m, applySubst [] (m + 1) (Term.Var x) = some (Term.Var x) := by
    intro m
    simp [applySubst, Theta.find]
  simp only [h, decide_True] at h2
  refine ⟨n1 + n2 + 2, fun n hn => ?_⟩
  obtain ⟨m, rfl⟩ : ∃ m, n = m + 1 := ⟨n - 1, by omega⟩
  obtain ⟨k, rfl⟩ : ∃ k, m = k + 1 := ⟨m - 1, by omega⟩
  have h1m := applySubst_mono h1 (show n1 ≤ k + 1 by omega)
  have h2m := occursCheck_mono h2 (show n2 ≤ k + 1 by omega)
  refine ⟨occursCheck_mono h2 (by omega), ?_, ?_⟩
  · exact unifyLoop_occurs1 (h0 k) h1m (by simp [Term.type]) rfl h2m
  · exact unifyLoop_occurs2 h1m (h0 k) (by simp [Term.type]) (by simp [Term.type]) rfl h2m

/-- C5 at `X` and `f(X)`. -/
theorem unify_occurs_fails_witness :
    "X" ∈ (Term.Compound "f" [Term.Var "X"]).vars ∧
    ∃ N, ∀ n, N ≤ n →
      occursCheck [] "X" n (Term.Compound "f" [Term.Var "X"]) = some true ∧
      unify n (Term.Var "X") (Term.Compound "f" [Term.Var "X"]) = some (false, []) ∧
      unify n (Term.Compound "f" [Term.Var "X"]) (Term.Var "X") = some (false, []) :=
  ⟨by simp [mem_vars_compound], unify_occurs_fails "X" "f" [Term.Var "X"]
    (by simp [mem_vars_compound])⟩

/-- C6 (structural clash): two non-variable terms that differ at the root in type tag, name
or number of arguments make `unify` return `false`. -/
theorem unify_clash (a b : Term) (ha : a.type ≠ 'V') (hb : b.type ≠ 'V')
    (hd : a.type ≠ b.type ∨ a.name ≠ b.name ∨ a.args.length ≠ b.args.length) :
    ∃ N, ∀ n, N ≤ n → unify n a b = some (false, []) := by
  obtain ⟨n1, h1⟩ := resolves_nil a
  obtain ⟨n2, h2⟩ := resolves_nil b
  refine ⟨n1 + n2 + 1, fun n hn => ?_⟩
  obtain ⟨m, rfl⟩ : ∃ m, n = m + 1 := ⟨n - 1, by omega⟩
  refine unifyLoop_clash (applySubst_mono h1 (by omega)) (applySubst_mono h2 (by omega)) ?_
    ha hb
  rintro ⟨c1, c2, c3⟩
  rcases hd with d | d | d
  · exact d c1
  · exact d c2
  · exact d c3

/-- C6 at the three examples: `a` and `b`; `f(a)` and `g(a)`; `f(a)` and `f(a, b)`. -/
theorem unify_clash_witness :
    (∃ N, ∀ n, N ≤ n → unify n (Term.Atom "a") (Term.Atom "b") = some (false, [])) ∧
    (∃ N, ∀ n, N ≤ n → unify n (Term.Compound "f" [Term.Atom "a"])
      (Term.Compound "g" [Term.Atom "a"]) = some (false, [])) ∧
    (∃ N, ∀ n, N ≤ n → unify n (Term.Compound "f" [Term.Atom "a"])
      (Term.Compound "f" [Term.Atom "a", Term.Atom "b"]) = some (false, [])) :=
  ⟨unify_clash _ _ (by decide) (by decide) (Or.inr (Or.inl (by decide))),
   unify_clash _ _ (by decide) (by decide) (Or.inr (Or.inl (by decide))),
   unify_clash _ _ (by decide) (by decide) (Or.inr (Or.inr (by decide)))⟩

/-- C7 (successful decomposition): `unify(f(X, a), f(b, Y))` returns `true`; the store binds
exactly `X`, to the atom `b`, and `Y`, to the atom `a`, and these are the values the two
variables resolve to. -/
theorem unify_decomposition :
    ∃ N, ∀ n, N ≤ n →
      unify n (Term.Compound "f" [Term.Var "X", Term.Atom "a"])
          (Term.Compound "f" [Term.Atom "b", Term.Var "Y"])
        = some (true, [("X", Term.Atom "b"), ("Y", Term.Atom "a")]) ∧
      applySubst [("X", Term.Atom "b"), ("Y", Term.Atom "a")] n (Term.Var "X")
        = some (Term.Atom "b") ∧
      applySubst [("X", Term.Atom "b"), ("Y", Term.Atom "a")] n (Term.Var "Y")
        = some (Term.Atom "a") :=
  ⟨4, fun _ hn => ⟨unifyLoop_mono (n := 4) rfl hn, applySubst_mono (n := 4) rfl hn,
    applySubst_mono (n := 4) rfl hn⟩⟩

/-- C8, as stated, fails at `g(X, Y)` and `g(f(Z), Z)`: both orders return `true`, `X`
resolves to a non-variable term under both stores, and the two resolved values differ,
`f(Z)` under the first store and `f(Y)` under the second. -/
theorem unify_symm_values_differ :
    unify 6 (Term.Compound "g" [Term.Var "X", Term.Var "Y"])
        (Term.Compound "g" [Term.Compound "f" [Term.Var "Z"], Term.Var "Z"])
      = some (true, [("X", Term.Compound "f" [Term.Var "Z"]), ("Y", Term.Var "Z")]) ∧
    unify 6 (Term.Compound "g" [Term.Compound "f" [Term.Var "Z"], Term.Var "Z"])
        (Term.Compound "g" [Term.Var "X", Term.Var "Y"])
      = some (true, [("X", Term.Compound "f" [Term.Var "Y"]), ("Z", Term.Var "Y")]) ∧
    applySubst [("X", Term.Compound "f" [Term.Var "Z"]), ("Y", Term.Var "Z")] 5 (Term.Var "X")
      = some (Term.Compound "f" [Term.Var "Z"]) ∧
    applySubst [("X", Term.Compound "f" [Term.Var "Y"]), ("Z", Term.Var "Y")] 5 (Term.Var "X")
      = some (Term.Compound "f" [Term.Var "Y"]) ∧
    Term.Compound "f" [Term.Var "Z"] ≠ Term.Compound "f" [Term.Var "Y"] :=
  ⟨rfl, rfl, rfl, rfl, by simp⟩

/-- C8, amended (symmetry of `unify`): `unify a b` and `unify b a` return the same boolean.
When it is `true` the two stores denote substitutions `σ1` and `σ2` with the same classes of
variables: two variables resolve to one term under `σ1` exactly when they do under `σ2`, and
a variable resolves to a variable under `σ1` exactly when it does under `σ2`.  The resolved
values match up to the representative of each class: the value under one store, with its
variables resolved by the other store, is the value under the other store; hence a value
without variables is the same under both. -/
theorem unify_symm (a b : Term) :
    ∃ N r1 r2, (∀ n, N ≤ n → unify n a b = some r1 ∧ unify n b a = some r2) ∧
      r1.1 = r2.1 ∧
      (r1.1 = true → ∃ σ1 σ2, Denotes r1.2 σ1 ∧ Denotes r2.2 σ2 ∧
        (∀ x y, σ1 x = σ1 y ↔ σ2 x = σ2 y) ∧
        (∀ x, (σ1 x).type = 'V' ↔ (σ2 x).type = 'V') ∧
        (∀ x, subst σ2 (σ1 x) = σ2 x ∧ subst σ1 (σ2 x) = σ1 x) ∧
        (∀ x, (σ1 x).vars = [] ∨ (σ2 x).vars = [] → σ1 x = σ2 x)) := by
  obtain ⟨N1, b1, θ1, hN1, hp1⟩ := unify_total a b
  obtain ⟨N2, b2, θ2, hN2, hp2⟩ := unify_total b a
  have hswap : ∀ τ, Solves τ [] [(a, b)] ↔ Solves τ [] [(b, a)] := by
    intro τ
    rw [solves_start, solves_start]
    exact eq_comm
  have hb : b1 = b2 := by
    cases b1 <;> cases b2
    · rfl
    · obtain ⟨⟨σ, hσ⟩, hsol, _⟩ := hp2
      exact absurd ((hswap σ).2 ((hsol rfl σ).2 hσ.solves)) (hp1.2.2 rfl σ)
    · obtain ⟨⟨σ, hσ⟩, hsol, _⟩ := hp1
      exact absurd ((hswap σ).1 ((hsol rfl σ).2 hσ.solves)) (hp2.2.2 rfl σ)
    · rfl
  refine ⟨max N1 N2, (b1, θ1), (b2, θ2), fun n hn => ⟨hN1 n (le_trans (le_max_left _ _) hn),
    hN2 n (le_trans (le_max_right _ _) hn)⟩, hb, fun ht => ?_⟩
  simp only at ht
  obtain ⟨⟨σ1, hσ1⟩, hsol1, _⟩ := hp1
  obtain ⟨⟨σ2, hσ2⟩, hsol2, _⟩ := hp2
  have hsol1 := hsol1 ht
  have hsol2 := hsol2 (hb ▸ ht)
  have h21 : SolvesStore σ2 θ1 := (hsol1 σ2).1 ((hswap σ2).2 ((hsol2 σ2).2 hσ2.solves))
  have h12 : SolvesStore σ1 θ2 := (hsol2 σ1).1 ((hswap σ1).1 ((hsol1 σ1).2 hσ1.solves))
  have e21 : ∀ x, subst σ2 (σ1 x) = σ2 x := fun x => by
    simpa using subst_resolved hσ1 h21 (Term.Var x)
  have e12 : ∀ x, subst σ1 (σ2 x) = σ1 x := fun x => by
    simpa using subst_resolved hσ2 h12 (Term.Var x)
  refine ⟨σ1, σ2, hσ1, hσ2, fun x y => ⟨fun e => ?_, fun e => ?_⟩,
    fun x => ⟨fun hv => ?_, fun hv => ?_⟩, fun x => ⟨e21 x, e12 x⟩, fun x hg => ?_⟩
  · rw [← e21 x, ← e21 y, e]
  · rw [← e12 x, ← e12 y, e]
  · by_contra hn
    have := (subst_shape (τ := σ1) hn).1
    rw [e12 x, hv] at this
    exact hn this.symm
  · by_contra hn
    have := (subst_shape (τ := σ2) hn).1
    rw [e21 x, hv] at this
    exact hn this.symm
  · rcases hg with hg | hg
    · rw [← e21 x, subst_ground _ hg]
    · rw [← e12 x, subst_ground _ hg]

/-- C9 (identity unification): `unify a a` returns `true` and leaves the store empty, so no
variable is bound at all and every variable of `a` resolves to itself. -/
theorem unify_self (a : Term) :
    ∃ N, ∀ n, N ≤ n → unify n a a = some (true, []) ∧
      ∀ x ∈ a.vars, applySubst [] n (Term.Var x) = some (Term.Var x) := by
  obtain ⟨N, hN⟩ := unifyLoop_same _ [(a, a)]
    (fun p hp => by simp only [List.mem_singleton] at hp; rw [hp]) le_rfl
  refine ⟨N + 1, fun n hn => ⟨hN n (by omega), fun x _ => ?_⟩⟩
  obtain ⟨m, rfl⟩ : ∃ m, n = m + 1 := ⟨n - 1, by omega⟩
  simp [applySubst, Theta.find]

/-- C10, as stated, fails at the atom `a` and the compound `a()` with no arguments: `unify`
returns `false` in both orders, and no run returns anything else. -/
theorem unify_atom_compound_fails :
    unify 2 (Term.Atom "a") (Term.Compound "a" []) = some (false, []) ∧
    unify 2 (Term.Compound "a" []) (Term.Atom "a") = some (false, []) ∧
    (∀ n r, unify n (Term.Atom "a") (Term.Compound "a" []) = some r → r = (false, [])) ∧
    (∀ n r, unify n (Term.Compound "a" []) (Term.Atom "a") = some r → r = (false, [])) := by
  refine ⟨rfl, rfl, fun n r h => ?_, fun n r h => ?_⟩
  · have e1 := unifyLoop_mono h (le_max_left n 2)
    have e2 : unify (max n 2) (Term.Atom "a") (Term.Compound "a" []) = some (false, []) :=
      unifyLoop_mono (n := 2) rfl (le_max_right n 2)
    rw [unify, e1] at e2
    exact Option.some.inj e2
  · have e1 := unifyLoop_mono h (le_max_left n 2)
    have e2 : unify (max n 2) (Term.Compound "a" []) (Term.Atom "a") = some (false, []) :=
      unifyLoop_mono (n := 2) rfl (le_max_right n 2)
    rw [unify, e1] at e2
    exact Option.some.inj e2

/-- C10, amended: the type tag takes part in the match.  For every name `c`, two atoms `c`
unify with no binding and so do two compounds `c()` without arguments, while the atom `c` and
the compound `c()` do not unify, in either order. -/
theorem unify_atom_compound (c : String) :
    ∃ N, ∀ n, N ≤ n →
      unify n (Term.Atom c) (Term.Atom c) = some (true, []) ∧
      unify n (Term.Compound c []) (Term.Compound c []) = some (true, []) ∧
      unify n (Term.Atom c) (Term.Compound c []) = some (false, []) ∧
      unify n (Term.Compound c []) (Term.Atom c) = some (false, []) := by
  refine ⟨2, fun n hn => ?_⟩
  obtain ⟨m, rfl⟩ : ∃ m, n = m + 2 := ⟨n - 2, by omega⟩
  simp [unify, unifyLoop, applySubst, mapArgs, pushArgs, Term.type, Term.name, Term.args]

/-! ## Acyclic stores -/

theorem exists_forall₂ {α β : Type} {R : α → β → Prop} {as : List α}
    (h : ∀ a ∈ as, ∃ b, R a b) : ∃ bs, List.Forall₂ R as bs := by
  induction as with
  | nil => exact ⟨[], List.Forall₂.nil⟩
  | cons a as ih =>
    obtain ⟨b, hb⟩ := h a (List.mem_cons_self _ _)
    obtain ⟨bs, hbs⟩ := ih (fun c hc => h c (List.mem_cons_of_mem _ hc))
    exact ⟨b :: bs, List.Forall₂.cons hb hbs⟩

/-- A term resolves as soon as each of its variables does. -/
theorem resolves_of_vars {θ : Theta} (t : Term) :
    (∀ y ∈ t.vars, ∃ r, Resolves θ (Term.Var y) r) → ∃ r, Resolves θ t r := by
  refine Term.induction
    (P := fun t => (∀ y ∈ t.vars, ∃ r, Resolves θ (Term.Var y) r) → ∃ r, Resolves θ t r)
    ?_ ?_ ?_ t
  · intro x h
    exact h x (by simp)
  · intro a _
    exact ⟨_, Resolves.atom θ a⟩
  · intro f as ih h
    obtain ⟨bs, hbs⟩ := exists_forall₂ (R := Resolves θ)
      (fun a ha => ih a ha (fun y hy => h y (mem_vars_compound.2 ⟨a, ha, hy⟩)))
    exact ⟨_, Resolves.compound hbs⟩

/-- Against an acyclic store `applySubst` returns on every term. -/
theorem Acyclic.denotes {θ : Theta} (h : Acyclic θ) : ∃ σ, Denotes θ σ := by
  obtain ⟨rank, hr⟩ := h
  have key : ∀ k x, rank x < k → ∃ r, Resolves θ (Term.Var x) r := by
    intro k
    induction k with
    | zero =>
      intro x hx
      omega
    | succ k ih =>
      intro x hx
      cases hf : θ.find x with
      | none => exact ⟨_, Resolves.var_unbound hf⟩
      | some t =>
        obtain ⟨r, hres⟩ := resolves_of_vars (θ := θ) t
          (fun y hy => ih y (by have := hr x t hf y hy; omega))
        exact ⟨r, Resolves.var_bound hf hres⟩
  have all : ∀ x, ∃ r, Resolves θ (Term.Var x) r := fun x => key (rank x + 1) x (by omega)
  choose σ hσ using all
  exact ⟨σ, hσ⟩

theorem applySubst_vars {θ : Theta} : ∀ {n : Nat} {t r : Term}, applySubst θ n t = some r →
    ∀ y ∈ t.vars, ∃ r1, applySubst θ n (Term.Var y) = some r1 := by
  intro n
  induction n with
  | zero =>
    intro t r h
    simp [applySubst] at h
  | succ n ih =>
    intro t r h y hy
    cases t with
    | Var x =>
      simp only [vars_var, List.mem_singleton] at hy
      subst hy
      exact ⟨r, h⟩
    | Atom a => simp at hy
    | Compound f as =>
      obtain ⟨a, ha, hya⟩ := mem_vars_compound.1 hy
      simp only [applySubst] at h
      cases hm : mapArgs (fun a => applySubst θ n a) as with
      | none => simp [hm] at h
      | some bs =>
        obtain ⟨b, _, hab⟩ := forall₂_mem_left (mapArgs_eq_some.1 hm) ha
        obtain ⟨r1, hr1⟩ := ih hab y hya
        exact ⟨r1, applySubst_mono hr1 (Nat.le_succ n)⟩

/-- A store against which `applySubst` returns on every variable is acyclic. -/
theorem Denotes.acyclic {θ : Theta} {σ : String → Term} (h : Denotes θ σ) : Acyclic θ := by
  classical
  have hex : ∀ x, ∃ n, (applySubst θ n (Term.Var x)).isSome = true := by
    intro x
    obtain ⟨n, hn⟩ := h x
    exact ⟨n, by simp [hn]⟩
  refine ⟨fun x => Nat.find (hex x), fun x t hf y hy => ?_⟩
  show Nat.find (hex y) < Nat.find (hex x)
  have hspec := Nat.find_spec (hex x)
  cases hk : Nat.find (hex x) with
  | zero =>
    rw [hk] at hspec
    simp [applySubst] at hspec
  | succ m =>
    rw [hk] at hspec
    simp only [applySubst, hf] at hspec
    obtain ⟨r, hr⟩ := Option.isSome_iff_exists.1 hspec
    obtain ⟨r1, hr1⟩ := applySubst_vars hr y hy
    have : Nat.find (hex y) ≤ m := Nat.find_min' (hex y) (by simp [hr1])
    omega

theorem acyclic_iff_denotes {θ : Theta} : Acyclic θ ↔ ∃ σ, Denotes θ σ :=
  ⟨Acyclic.denotes, fun ⟨_, h⟩ => h.acyclic⟩

theorem acyclic_chain : Acyclic [("X", Term.Var "Y"), ("Y", Term.Atom "a")] := by
  refine ⟨fun x => if x = "X" then 1 else 0, ?_⟩
  intro x t hf y hy
  simp only [Theta.find] at hf
  split_ifs at hf with h1 h2
  · cases hf
    simp only [vars_var, List.mem_singleton] at hy
    subst hy
    subst h1
    decide
  · cases hf
    simp at hy

theorem anyArg_true {f : Term → Option Bool} {as : List Term} (h : anyArg f as = some true) :
    ∃ a ∈ as, f a = some true := by
  induction as with
  | nil => simp [anyArg] at h
  | cons a as ih =>
    cases hfa : f a with
    | none => simp [anyArg, hfa] at h
    | some c =>
      cases c with
      | true => exact ⟨a, List.mem_cons_self _ _, hfa⟩
      | false =>
        simp only [anyArg, hfa] at h
        obtain ⟨b, hb, hfb⟩ := ih h
        exact ⟨b, List.mem_cons_of_mem _ hb, hfb⟩

/-- C17 (resolve follows binding chains to their end): against an acyclic store `applySubst`
returns on every term, and what it returns is never a variable the store binds, nor does it
hold one; with the bindings `X -> Y` and `Y -> a` it returns the atom `a` for `X`. -/
theorem applySubst_chain_end (θ : Theta) (h : Acyclic θ) (t : Term) :
    (∃ N r, (∀ n, N ≤ n → applySubst θ n t = some r) ∧
      (∀ x, r = Term.Var x → θ.find x = none) ∧ ∀ x ∈ r.vars, θ.find x = none) ∧
    applySubst [("X", Term.Var "Y"), ("Y", Term.Atom "a")] 3 (Term.Var "X")
      = some (Term.Atom "a") := by
  refine ⟨?_, rfl⟩
  obtain ⟨σ, hσ⟩ := h.denotes
  obtain ⟨N, hN⟩ := hσ.resolves t
  have hu := (hσ.resolves t).unbound
  refine ⟨N, subst σ t, fun n hn => applySubst_mono hN hn, fun x hx => ?_, hu⟩
  exact hu x (by rw [hx]; simp)

/-- C17 at the store `X -> Y`, `Y -> a` and the term `f(X, Y, Z)`. -/
theorem applySubst_chain_end_witness :
    (∃ N r, (∀ n, N ≤ n →
        applySubst [("X", Term.Var "Y"), ("Y", Term.Atom "a")] n
          (Term.Compound "f" [Term.Var "X", Term.Var "Y", Term.Var "Z"]) = some r) ∧
      (∀ x, r = Term.Var x →
        Theta.find [("X", Term.Var "Y"), ("Y", Term.Atom "a")] x = none) ∧
      ∀ x ∈ r.vars, Theta.find [("X", Term.Var "Y"), ("Y", Term.Atom "a")] x = none) ∧
    applySubst [("X", Term.Var "Y"), ("Y", Term.Atom "a")] 3 (Term.Var "X")
      = some (Term.Atom "a") :=
  applySubst_chain_end _ acyclic_chain _

/-- C18, as stated, fails at the store `X -> a` and the compound `f(X)`: `applySubst` returns
`f(a)`, the argument replaced by its binding, and never `f(X)`. -/
theorem applySubst_not_lazy :
    applySubst [("X", Term.Atom "a")] 3 (Term.Compound "f" [Term.Var "X"])
      = some (Term.Compound "f" [Term.Atom "a"]) ∧
    Term.Compound "f" [Term.Atom "a"] ≠ Term.Compound "f" [Term.Var "X"] ∧
    ∀ n, applySubst [("X", Term.Atom "a")] n (Term.Compound "f" [Term.Var "X"])
      ≠ some (Term.Compound "f" [Term.Var "X"]) := by
  refine ⟨rfl, by simp, fun n hn => ?_⟩
  have e1 := applySubst_mono hn (le_max_left n 3)
  have e2 : applySubst [("X", Term.Atom "a")] (max n 3) (Term.Compound "f" [Term.Var "X"])
      = some (Term.Compound "f" [Term.Atom "a"]) :=
    applySubst_mono (n := 3) rfl (le_max_right n 3)
  rw [e1] at e2
  simp at e2

/-- C18, amended (resolve is eager on compounds): against an acyclic store `applySubst`
returns, for a compound `f(as)`, the compound with the same functor and as many arguments, each
argument replaced by what `applySubst` returns for it; the result holds no bound variable, and
it is `f(as)` itself exactly when no variable of `f(as)` is bound.  Against any store, what
`applySubst` returns for a compound has this form. -/
theorem applySubst_compound (θ : Theta) (h : Acyclic θ) (f : String) (as : List Term) :
    (∃ N bs, (∀ n, N ≤ n → applySubst θ n (Term.Compound f as) = some (Term.Compound f bs)) ∧
      bs.length = as.length ∧
      List.Forall₂ (fun a b => ∃ n, applySubst θ n a = some b) as bs ∧
      (∀ x ∈ (Term.Compound f bs).vars, θ.find x = none) ∧
      (bs = as ↔ ∀ x ∈ (Term.Compound f as).vars, θ.find x = none)) ∧
    ∀ (θ1 : Theta) n r, applySubst θ1 n (Term.Compound f as) = some r →
      ∃ bs, r = Term.Compound f bs ∧
        List.Forall₂ (fun a b => ∃ n, applySubst θ1 n a = some b) as bs := by
  constructor
  · obtain ⟨σ, hσ⟩ := h.denotes
    have hres := hσ.resolves (Term.Compound f as)
    rw [subst_compound] at hres
    obtain ⟨N, hN⟩ := hres
    refine ⟨N, as.map (subst σ), fun n hn => applySubst_mono hN hn, by simp, ?_,
      Resolves.unbound ⟨N, hN⟩, ?_⟩
    · rw [List.forall₂_map_right_iff, List.forall₂_same]
      intro a _
      exact hσ.resolves a
    · constructor
      · intro e
        have := Resolves.unbound (θ := θ) ⟨N, hN⟩
        rw [e] at this
        exact this
      · intro hu
        have h2 : Resolves θ (Term.Compound f as) (Term.Compound f as) := resolves_self _ hu
        have := Resolves.det ⟨N, hN⟩ h2
        injection this
  · intro θ1 n r hr
    cases n with
    | zero => simp [applySubst] at hr
    | succ n =>
      simp only [applySubst] at hr
      cases hm : mapArgs (fun a => applySubst θ1 n a) as with
      | none => simp [hm] at hr
      | some bs =>
        rw [hm] at hr
        cases hr
        exact ⟨bs, rfl, (mapArgs_eq_some.1 hm).imp (fun _ _ hab => ⟨n, hab⟩)⟩

/-- C18 amended, at the store `X -> Y`, `Y -> a` and the compound `f(X, Z)`. -/
theorem applySubst_compound_witness :
    (∃ N bs, (∀ n, N ≤ n →
        applySubst [("X", Term.Var "Y"), ("Y", Term.Atom "a")] n
          (Term.Compound "f" [Term.Var "X", Term.Var "Z"]) = some (Term.Compound "f" bs)) ∧
      bs.length = [Term.Var "X", Term.Var "Z"].length ∧
      List.Forall₂
        (fun a b => ∃ n, applySubst [("X", Term.Var "Y"), ("Y", Term.Atom "a")] n a = some b)
        [Term.Var "X", Term.Var "Z"] bs ∧
      (∀ x ∈ (Term.Compound "f" bs).vars,
        Theta.find [("X", Term.Var "Y"), ("Y", Term.Atom "a")] x = none) ∧
      (bs = [Term.Var "X", Term.Var "Z"] ↔
        ∀ x ∈ (Term.Compound "f" [Term.Var "X", Term.Var "Z"]).vars,
          Theta.find [("X", Term.Var "Y"), ("Y", Term.Atom "a")] x = none)) ∧
    ∀ (θ1 : Theta) n r,
      applySubst θ1 n (Term.Compound "f" [Term.Var "X", Term.Var "Z"]) = some r →
      ∃ bs, r = Term.Compound "f" bs ∧
        List.Forall₂ (fun a b => ∃ n, applySubst θ1 n a = some b)
          [Term.Var "X", Term.Var "Z"] bs :=
  applySubst_compound _ acyclic_chain _ _

/-- C19 (occurs-check sees through bindings): against an acyclic store `occursCheck v t`
returns, and returns `true` exactly when `v` occurs in the term `applySubst` returns for `t`,
where every variable is unbound.  A bound variable is answered by its bound value, an unbound
variable by the equality of its name with `v`, an atom by `false`, and a compound by `true`
exactly when some argument is. -/
theorem occursCheck_sees_through (θ : Theta) (h : Acyclic θ) (v : String) :
    (∀ t, ∃ N r, (∀ n, N ≤ n → applySubst θ n t = some r ∧
        occursCheck θ v n t = some (decide (v ∈ r.vars))) ∧
      ∀ x ∈ r.vars, θ.find x = none) ∧
    (∀ x u, θ.find x = some u → ∀ b,
      (∃ n, occursCheck θ v n (Term.Var x) = some b) ↔ ∃ n, occursCheck θ v n u = some b) ∧
    (∀ x, θ.find x = none → ∀ n, occursCheck θ v (n + 1) (Term.Var x) = some (decide (x = v))) ∧
    (∀ a n, occursCheck θ v (n + 1) (Term.Atom a) = some false) ∧
    (∀ f as, (∃ n, occursCheck θ v n (Term.Compound f as) = some true) ↔
      ∃ a ∈ as, ∃ n, occursCheck θ v n a = some true) := by
  obtain ⟨σ, hσ⟩ := h.denotes
  have main : ∀ t, ∃ n, occursCheck θ v n t = some (decide (v ∈ (subst σ t).vars)) :=
    fun t => occursCheck_of_resolves (hσ.resolves t)
  refine ⟨fun t => ?_, fun x u hf b => ⟨?_, ?_⟩, fun x hf n => ?_, fun a n => ?_,
    fun f as => ⟨?_, ?_⟩⟩
  · obtain ⟨n1, h1⟩ := hσ.resolves t
    obtain ⟨n2, h2⟩ := main t
    exact ⟨n1 + n2, subst σ t, fun n hn => ⟨applySubst_mono h1 (by omega),
      occursCheck_mono h2 (by omega)⟩, (hσ.resolves t).unbound⟩
  · rintro ⟨n, hn⟩
    cases n with
    | zero => simp [occursCheck] at hn
    | succ n =>
      simp only [occursCheck, hf] at hn
      exact ⟨n, hn⟩
  · rintro ⟨n, hn⟩
    exact ⟨n + 1, by simp only [occursCheck, hf]; exact hn⟩
  · simp [occursCheck, hf]
  · simp [occursCheck]
  · rintro ⟨n, hn⟩
    cases n with
    | zero => simp [occursCheck] at hn
    | succ n =>
      simp only [occursCheck] at hn
      obtain ⟨a, ha, hfa⟩ := anyArg_true hn
      exact ⟨a, ha, n, hfa⟩
  · rintro ⟨a, ha, n, hn⟩
    obtain ⟨m, hm⟩ := main a
    have hva : v ∈ (subst σ a).vars := by
      have := occursCheck_det hn hm
      exact of_decide_eq_true this.symm
    obtain ⟨k, hk⟩ := main (Term.Compound f as)
    refine ⟨k, ?_⟩
    rw [hk]
    congr 1
    apply decide_eq_true
    rw [subst_compound]
    exact mem_vars_compound.2 ⟨subst σ a, List.mem_map_of_mem _ ha, hva⟩

/-- C19 at the store `X -> Y`, `Y -> a` and the variable `Z`. -/
theorem occursCheck_sees_through_witness :
    (∀ t, ∃ N r, (∀ n, N ≤ n →
        applySubst [("X", Term.Var "Y"), ("Y", Term.Atom "a")] n t = some r ∧
        occursCheck [("X", Term.Var "Y"), ("Y", Term.Atom "a")] "Z" n t
          = some (decide ("Z" ∈ r.vars))) ∧
      ∀ x ∈ r.vars, Theta.find [("X", Term.Var "Y"), ("Y", Term.Atom "a")] x = none) ∧
    (∀ x u, Theta.find [("X", Term.Var "Y"), ("Y", Term.Atom "a")] x = some u → ∀ b,
      (∃ n, occursCheck [("X", Term.Var "Y"), ("Y", Term.Atom "a")] "Z" n (Term.Var x)
        = some b) ↔
      ∃ n, occursCheck [("X", Term.Var "Y"), ("Y", Term.Atom "a")] "Z" n u = some b) ∧
    (∀ x, Theta.find [("X", Term.Var "Y"), ("Y", Term.Atom "a")] x = none → ∀ n,
      occursCheck [("X", Term.Var "Y"), ("Y", Term.Atom "a")] "Z" (n + 1) (Term.Var x)
        = some (decide (x = "Z"))) ∧
    (∀ a n, occursCheck [("X", Term.Var "Y"), ("Y", Term.Atom "a")] "Z" (n + 1) (Term.Atom a)
      = some false) ∧
    (∀ f as,
      (∃ n, occursCheck [("X", Term.Var "Y"), ("Y", Term.Atom "a")] "Z" n
        (Term.Compound f as) = some true) ↔
      ∃ a ∈ as, ∃ n, occursCheck [("X", Term.Var "Y"), ("Y", Term.Atom "a")] "Z" n a
        = some true) :=
  occursCheck_sees_through _ acyclic_chain "Z"

/-! ## The states of a run -/

/-- The loop is the iteration of `unifyStep`. -/
theorem unifyLoop_succ (n : Nat) (θ : Theta) (stack : List (Term × Term)) :
    unifyLoop (n + 1) θ stack =
      match unifyStep n θ stack with
      | none => none
      | some (Sum.inl r) => some r
      | some (Sum.inr (θ1, stack1)) => unifyLoop n θ1 stack1 := by
  cases stack with
  | nil => simp [unifyLoop, unifyStep]
  | cons p stack =>
    obtain ⟨p1, p2⟩ := p
    cases h1 : applySubst θ n p1 with
    | none => simp [unifyLoop, unifyStep, h1]
    | some ptr1 =>
      cases h2 : applySubst θ n p2 with
      | none => simp [unifyLoop, unifyStep, h1, h2]
      | some ptr2 =>
        simp only [unifyLoop, unifyStep, h1, h2]
        split_ifs with hc hF hV1 hV2
        · rfl
        · rfl
        · cases ho : occursCheck θ ptr1.name n ptr2 with
          | none => rfl
          | some b => cases b <;> rfl
        · cases ho : occursCheck θ ptr2.name n ptr1 with
          | none => rfl
          | some b => cases b <;> rfl
        · rfl

/-- An iteration that returns leaves the store as it is. -/
theorem unifyStep_inl {n : Nat} {θ θ1 : Theta} {stack : List (Term × Term)} {b : Bool}
    (h : unifyStep n θ stack = some (Sum.inl (b, θ1))) : θ1 = θ := by
  cases stack with
  | nil =>
    simp only [unifyStep, Option.some.injEq, Sum.inl.injEq, Prod.mk.injEq] at h
    exact h.2.symm
  | cons p stack =>
    obtain ⟨p1, p2⟩ := p
    cases h1 : applySubst θ n p1 with
    | none => simp [unifyStep, h1] at h
    | some ptr1 =>
      cases h2 : applySubst θ n p2 with
      | none => simp [unifyStep, h1, h2] at h
      | some ptr2 =>
        simp only [unifyStep, h1, h2] at h
        split_ifs at h with hc hF hV1 hV2
        · simp at h
        · simp at h
        · cases ho : occursCheck θ ptr1.name n ptr2 with
          | none => simp [ho] at h
          | some c =>
            cases c
            · simp [ho] at h
            · simp only [ho, Option.some.injEq, Sum.inl.injEq, Prod.mk.injEq] at h
              exact h.2.symm
        · cases ho : occursCheck θ ptr2.name n ptr1 with
          | none => simp [ho] at h
          | some c =>
            cases c
            · simp [ho] at h
            · simp only [ho, Option.some.injEq, Sum.inl.injEq, Prod.mk.injEq] at h
              exact h.2.symm
        · simp only [Option.some.injEq, Sum.inl.injEq, Prod.mk.injEq] at h
          exact h.2.symm

/-- An iteration keeps the store acyclic: a binding is inserted only for an unbound variable,
to a resolved term in which the occurs-check did not find it. -/
theorem unifyStep_denotes {n : Nat} {θ θ1 : Theta} {stack stack1 : List (Term × Term)}
    (h : unifyStep n θ stack = some (Sum.inr (θ1, stack1))) {σ : String → Term}
    (hσ : Denotes θ σ) : ∃ σ1, Denotes θ1 σ1 := by
  cases stack with
  | nil => simp [unifyStep] at h
  | cons p stack =>
    obtain ⟨p1, p2⟩ := p
    cases h1 : applySubst θ n p1 with
    | none => simp [unifyStep, h1] at h
    | some ptr1 =>
      cases h2 : applySubst θ n p2 with
      | none => simp [unifyStep, h1, h2] at h
      | some ptr2 =>
        have hu1 := Resolves.unbound (θ := θ) ⟨n, h1⟩
        have hu2 := Resolves.unbound (θ := θ) ⟨n, h2⟩
        simp only [unifyStep, h1, h2] at h
        split_ifs at h with hc hF hV1 hV2
        · simp only [Option.some.injEq, Sum.inr.injEq, Prod.mk.injEq] at h
          exact ⟨σ, h.1 ▸ hσ⟩
        · simp only [Option.some.injEq, Sum.inr.injEq, Prod.mk.injEq] at h
          exact ⟨σ, h.1 ▸ hσ⟩
        · obtain ⟨x, e1⟩ := type_V hV1
          subst e1
          cases ho : occursCheck θ x n ptr2 with
          | none => simp [Term.name, ho] at h
          | some c =>
            cases c with
            | true => simp [Term.name, ho] at h
            | false =>
              simp only [Term.name, ho, Option.some.injEq, Sum.inr.injEq, Prod.mk.injEq] at h
              obtain ⟨m, hm⟩ := occursCheck_of_resolves (v := x) (resolves_self ptr2 hu2)
              have hdec := occursCheck_det ho hm
              have hx : x ∉ ptr2.vars := of_decide_eq_false hdec.symm
              rw [← h.1]
              exact ⟨_, hσ.set (hu1 x (by simp)) hu2 hx⟩
        · obtain ⟨y, e2⟩ := type_V hV2
          subst e2
          cases ho : occursCheck θ y n ptr1 with
          | none => simp [Term.name, ho] at h
          | some c =>
            cases c with
            | true => simp [Term.name, ho] at h
            | false =>
              simp only [Term.name, ho, Option.some.injEq, Sum.inr.injEq, Prod.mk.injEq] at h
              obtain ⟨m, hm⟩ := occursCheck_of_resolves (v := y) (resolves_self ptr1 hu1)
              have hdec := occursCheck_det ho hm
              have hy : y ∉ ptr1.vars := of_decide_eq_false hdec.symm
              rw [← h.1]
              exact ⟨_, hσ.set (hu2 y (by simp)) hu1 hy⟩
        · simp at h

theorem Reaches.store_denotes {t1 t2 : Term} {θ : Theta} {stack : List (Term × Term)}
    (h : Reaches t1 t2 θ stack) : ∃ σ, Denotes θ σ := by
  induction h with
  | start => exact ⟨_, denotes_nil⟩
  | step n _ hs ih =>
    obtain ⟨σ, hσ⟩ := ih
    exact unifyStep_denotes hs hσ

/-- The store a run returns with is the store of a state the run passed through. -/
theorem Reaches.final {t1 t2 : Term} : ∀ {n : Nat} {θ θ1 : Theta}
    {stack : List (Term × Term)} {b : Bool}, Reaches t1 t2 θ stack →
    unifyLoop n θ stack = some (b, θ1) → ∃ stack1, Reaches t1 t2 θ1 stack1 := by
  intro n
  induction n with
  | zero =>
    intro θ θ1 stack b _ h
    simp [unifyLoop] at h
  | succ n ih =>
    intro θ θ1 stack b hr h
    rw [unifyLoop_succ] at h
    cases hs : unifyStep n θ stack with
    | none => simp [hs] at h
    | some v =>
      cases v with
      | inl r =>
        simp only [hs, Option.some.injEq] at h
        subst h
        have := unifyStep_inl hs
        exact ⟨stack, this ▸ hr⟩
      | inr q =>
        obtain ⟨θ2, stack2⟩ := q
        simp only [hs] at h
        exact ih (Reaches.step n hr hs) h

/-- In a store that denotes a substitution no bound variable occurs in the term its bound
value resolves to. -/
theorem Denotes.no_self {θ : Theta} {σ : String → Term} (hσ : Denotes θ σ) {x : String}
    {t : Term} (hf : θ.find x = some t) :
    ∃ N r, (∀ n, N ≤ n → applySubst θ n t = some r) ∧ x ∉ r.vars := by
  obtain ⟨N, hN⟩ := hσ.resolves t
  refine ⟨N, subst σ t, fun n hn => applySubst_mono hN hn, fun hx => ?_⟩
  have := (hσ.resolves t).unbound x hx
  rw [hf] at this
  cases this

/-- C16 (store acyclicity invariant): in every state a run of `unify t1 t2` passes through,
the initial one and the one after each iteration, hence after each binding, the binding graph
of the store has no cycle and no bound variable occurs in the full dereference of its bound
value; the same holds of the store a run returns with. -/
theorem store_acyclic (t1 t2 : Term) :
    (∀ θ stack, Reaches t1 t2 θ stack →
      Acyclic θ ∧ ∀ x t, θ.find x = some t →
        ∃ N r, (∀ n, N ≤ n → applySubst θ n t = some r) ∧ x ∉ r.vars) ∧
    (∀ n b θ, unify n t1 t2 = some (b, θ) →
      Acyclic θ ∧ ∀ x t, θ.find x = some t →
        ∃ N r, (∀ n, N ≤ n → applySubst θ n t = some r) ∧ x ∉ r.vars) := by
  have key : ∀ θ stack, Reaches t1 t2 θ stack →
      Acyclic θ ∧ ∀ x t, θ.find x = some t →
        ∃ N r, (∀ n, N ≤ n → applySubst θ n t = some r) ∧ x ∉ r.vars := by
    intro θ stack h
    obtain ⟨σ, hσ⟩ := h.store_denotes
    exact ⟨hσ.acyclic, fun x t hf => hσ.no_self hf⟩
  refine ⟨key, fun n b θ h => ?_⟩
  obtain ⟨stack1, hr⟩ := Reaches.final (@Reaches.start t1 t2) h
  exact key θ stack1 hr

/-! ## The parser -/

theorem parse_mono_aux : ∀ n : Nat,
    (∀ (expr : List Char) (pos : Nat) (r : TermPtr × Nat) (m : Nat),
      parseAtom n expr pos = some r → n ≤ m → parseAtom m expr pos = some r) ∧
    (∀ (expr : List Char) (pos : Nat) (args : List TermPtr) (r : List TermPtr × Nat) (m : Nat),
      parseArgs n expr pos args = some r → n ≤ m → parseArgs m expr pos args = some r) := by
  intro n
  induction n with
  | zero =>
    constructor
    · intro expr pos r m h
      simp [parseAtom] at h
    · intro expr pos args r m h
      simp [parseArgs] at h
  | succ n ih =>
    constructor
    · intro expr pos r m h hnm
      obtain ⟨m, rfl⟩ : ∃ k, m = k + 1 := ⟨m - 1, by omega⟩
      have hle : n ≤ m := by omega
      simp only [parseAtom] at h ⊢
      split_ifs at h ⊢ with c1 c2 c3 c4
      · exact h
      · exact h
      · cases hp : parseArgs n expr
            (skipSpaces expr (readName expr (skipSpaces expr pos)).2 + 1) [] with
        | none => simp [hp] at h
        | some q =>
          rw [hp] at h
          rw [ih.2 _ _ _ _ m hp hle]
          exact h
      · exact h
      · exact h
    · intro expr pos args r m h hnm
      obtain ⟨m, rfl⟩ : ∃ k, m = k + 1 := ⟨m - 1, by omega⟩
      have hle : n ≤ m := by omega
      simp only [parseArgs] at h ⊢
      split_ifs at h ⊢ with c1 c2
      · exact h
      · cases hp : parseAtom n expr (skipSpaces expr pos) with
        | none => simp [hp] at h
        | some q =>
          rw [hp] at h
          rw [ih.1 _ _ _ m hp hle]
          simp only at h ⊢
          exact ih.2 _ _ _ _ m h hle
      · exact h

theorem parseAtom_mono {n m : Nat} {expr : List Char} {pos : Nat} {r : TermPtr × Nat}
    (h : parseAtom n expr pos = some r) (hnm : n ≤ m) : parseAtom m expr pos = some r :=
  (parse_mono_aux n).1 expr pos r m h hnm

theorem parseArgs_mono {n m : Nat} {expr : List Char} {pos : Nat} {args : List TermPtr}
    {r : List TermPtr × Nat} (h : parseArgs n expr pos args = some r) (hnm : n ≤ m) :
    parseArgs m expr pos args = some r :=
  (parse_mono_aux n).2 expr pos args r m h hnm

theorem parse_mono {n m : Nat} {expr : List Char} {pos : Nat} {r : TermPtr × Nat}
    (h : parse n expr pos = some r) (hnm : n ≤ m) : parse m expr pos = some r :=
  parseAtom_mono h hnm

/-- C12 (parser example): `parse("f(X, a)", 0)` returns the compound `f` with exactly the two
arguments variable `X` and atom `a`, in this order, and leaves `pos` at 7, the end of the
text. -/
theorem parse_example :
    "f(X, a)".data.length = 7 ∧
    ∃ N, ∀ n, N ≤ n →
      parse n "f(X, a)".data 0
        = some (TermPtr.Compound "f" [TermPtr.Var "X", TermPtr.Atom "a"], 7) :=
  ⟨rfl, 4, fun _ hn => parse_mono (n := 4) rfl hn⟩

/-- Inside `f(1)`, at the digit, the argument loop of `parseAtom` never leaves: `parse`
returns `nullptr` without moving `pos`, no comma follows, and the next iteration starts from
the same position with one more `nullptr` in `args`. -/
theorem parseArgs_stuck : ∀ (n : Nat) (args : List TermPtr),
    parseArgs n "f(1)".data 2 args = none := by
  intro n
  induction n with
  | zero =>
    intro args
    rfl
  | succ n ih =>
    intro args
    have c1 : (2 < "f(1)".data.length ∧ charAt "f(1)".data 2 ≠ ')') := by decide
    have c2 : skipSpaces "f(1)".data 2 = 2 := rfl
    have c3 : ¬ charAt "f(1)".data 2 = ')' := by decide
    have c4 : ¬ (2 < "f(1)".data.length ∧ charAt "f(1)".data 2 = ',') := by decide
    simp only [parseArgs]
    rw [if_pos c1, c2, if_neg c3]
    cases n with
    | zero => rfl
    | succ k =>
      have c5 : parseAtom (k + 1) "f(1)".data 2 = some (TermPtr.null, 2) := rfl
      rw [c5]
      simp only [c2, if_neg c4]
      exact ih _

/-- C20 fails at the text `f(1)`: `parse` returns for no depth of recursion, however large;
the argument loop makes no progress. -/
theorem parse_diverges :
    ∀ n, parse n "f(1)".data 0 = none := by
  intro n
  cases n with
  | zero => rfl
  | succ n =>
    have c1 : skipSpaces "f(1)".data 0 = 0 := rfl
    have c2 : ¬ (0 ≥ "f(1)".data.length) := by decide
    have c3 : ¬ isupper (charAt "f(1)".data 0) = true := by decide
    have c4 : islower (charAt "f(1)".data 0) = true := by decide
    have c5 : readName "f(1)".data 0 = ("f", 1) := rfl
    have c6 : skipSpaces "f(1)".data 1 = 1 := rfl
    have c7 : (1 < "f(1)".data.length ∧ charAt "f(1)".data 1 = '(') := by decide
    simp only [parse, parseAtom]
    rw [c1, if_neg c2, if_neg c3, if_pos c4, c5]
    simp only [c6, if_pos c7]
    rw [show parseArgs n ['f', '(', '1', ')'] (1 + 1) [] = none from parseArgs_stuck n []]

/-- C14, as stated, fails for a tab: before the identifier `X` a space is skipped and a tab is
not; `parse` returns `nullptr` for the text made of a tab and `X`, at every depth. -/
theorem parse_tab :
    parse 1 "X".data 0 = some (TermPtr.Var "X", 1) ∧
    parse 1 (' ' :: "X".data) 0 = some (TermPtr.Var "X", 2) ∧
    parse 1 ('\t' :: "X".data) 0 = some (TermPtr.null, 0) ∧
    ∀ n r, parse n ('\t' :: "X".data) 0 = some r → r = (TermPtr.null, 0) := by
  refine ⟨rfl, rfl, rfl, fun n r h => ?_⟩
  have e1 := parse_mono h (le_max_left n 1)
  have e2 : parse (max n 1) ('\t' :: "X".data) 0 = some (TermPtr.null, 0) :=
    parse_mono (n := 1) rfl (le_max_right n 1)
  rw [e1] at e2
  exact Option.some.inj e2

/-! ## The printer -/

theorem exists_common_bound {α : Type} {P : Nat → α → Prop} {as : List α}
    (h : ∀ a ∈ as, ∃ N, ∀ n, N ≤ n → P n a) : ∃ N, ∀ n, N ≤ n → ∀ a ∈ as, P n a := by
  induction as with
  | nil => exact ⟨0, fun _ _ a ha => by cases ha⟩
  | cons a as ih =>
    obtain ⟨N1, h1⟩ := h a (List.mem_cons_self _ _)
    obtain ⟨N2, h2⟩ := ih (fun c hc => h c (List.mem_cons_of_mem _ hc))
    refine ⟨max N1 N2, fun n hn c hc => ?_⟩
    rcases List.mem_cons.1 hc with e | hc2
    · rw [e]
      exact h1 n (le_trans (le_max_left _ _) hn)
    · exact h2 n (le_trans (le_max_right _ _) hn) c hc2

theorem printArgs_text {f : Term → Option (List Char)} {as : List Term}
    (h : ∀ a ∈ as, f a = some a.text) : printArgs f as = some (textList as) := by
  induction as with
  | nil => simp [printArgs, textList]
  | cons a as ih =>
    have ha := h a (List.mem_cons_self _ _)
    have ih1 := ih (fun c hc => h c (List.mem_cons_of_mem _ hc))
    cases as with
    | nil => simp [printArgs, textList, ha]
    | cons b bs =>
      rw [printArgs]
      simp only [ha]
      rw [ih1, textList]

/-- A term that holds no bound variable is printed as it is. -/
theorem printTerm_resolved {θ : Theta} (r : Term) :
    (∀ x ∈ r.vars, θ.find x = none) → ∃ N, ∀ n, N ≤ n → printTerm θ n r = some r.text := by
  refine Term.induction
    (P := fun r => (∀ x ∈ r.vars, θ.find x = none) →
      ∃ N, ∀ n, N ≤ n → printTerm θ n r = some r.text) ?_ ?_ ?_ r
  · intro x h
    refine ⟨2, fun n hn => ?_⟩
    obtain ⟨m, rfl⟩ : ∃ m, n = m + 2 := ⟨n - 2, by omega⟩
    have hx : θ.find x = none := h x (by simp)
    simp [printTerm, applySubst, hx, Term.type, Term.name, Term.text]
  · intro a _
    refine ⟨2, fun n hn => ?_⟩
    obtain ⟨m, rfl⟩ : ∃ m, n = m + 2 := ⟨n - 2, by omega⟩
    simp [printTerm, applySubst, Term.type, Term.name, Term.text]
  · intro f as ih h
    obtain ⟨N0, h0⟩ := resolves_self (θ := θ) (Term.Compound f as) h
    obtain ⟨N1, h1⟩ := exists_common_bound
      (P := fun n (a : Term) => printTerm θ n a = some a.text)
      (fun a ha => ih a ha (fun x hx => h x (mem_vars_compound.2 ⟨a, ha, hx⟩)))
    refine ⟨N0 + N1 + 1, fun n hn => ?_⟩
    obtain ⟨m, rfl⟩ : ∃ m, n = m + 1 := ⟨n - 1, by omega⟩
    have e0 := applySubst_mono h0 (show N0 ≤ m by omega)
    have e1 : printArgs (fun a => printTerm θ m a) as = some (textList as) :=
      printArgs_text (fun a ha => h1 m (by omega) a ha)
    simp [printTerm, e0, Term.type, Term.name, Term.args, e1, Term.text]

/-- The text `printTerm` writes for a term is the text of the term fully resolved. -/
theorem printTerm_text {θ : Theta} {σ : String → Term} (hσ : Denotes θ σ) (t : Term) :
    ∃ N, ∀ n, N ≤ n → printTerm θ n t = some (subst σ t).text := by
  obtain ⟨N0, h0⟩ := hσ.resolves t
  have hu := (hσ.resolves t).unbound
  obtain ⟨N1, h1⟩ := resolves_self (θ := θ) (subst σ t) hu
  obtain ⟨N2, h2⟩ := printTerm_resolved (θ := θ) (subst σ t) hu
  refine ⟨N0 + N1 + N2 + 1, fun n hn => ?_⟩
  obtain ⟨m, rfl⟩ : ∃ m, n = m + 1 := ⟨n - 1, by omega⟩
  have e0 := applySubst_mono h0 (show N0 ≤ m by omega)
  have e1 := applySubst_mono h1 (show N1 ≤ m by omega)
  have e2 := h2 (m + 1) (by omega)
  simp only [printTerm, e1] at e2
  simp only [printTerm, e0]
  exact e2

theorem printBindings_false {f : Term → Option (List Char)} {σ : String → Term} :
    ∀ {θ : Theta}, (∀ p ∈ θ, f p.2 = some (subst σ p.2).text) →
    printBindings f false θ
      = some ((θ.map (fun p => ", ".data ++ entryText σ p)).flatten) := by
  intro θ
  induction θ with
  | nil =>
    intro _
    simp [printBindings]
  | cons p rest ih =>
    intro h
    obtain ⟨k, v⟩ := p
    have hv := h (k, v) (List.mem_cons_self _ _)
    have ih1 := ih (fun q hq => h q (List.mem_cons_of_mem _ hq))
    simp only at hv
    simp [printBindings, hv, ih1, entryText]

theorem joinSep_cons (sep e : List Char) (es : List (List Char)) :
    joinSep sep (e :: es) = e ++ (es.map (fun x => sep ++ x)).flatten := by
  induction es generalizing e with
  | nil => simp [joinSep]
  | cons d ds ih =>
    rw [joinSep, ih d]
    simp [List.append_assoc]

theorem printBindings_true {f : Term → Option (List Char)} {σ : String → Term}
    {θ : Theta} (h : ∀ p ∈ θ, f p.2 = some (subst σ p.2).text) :
    printBindings f true θ = some (joinSep ", ".data (θ.map (entryText σ))) := by
  cases θ with
  | nil => simp [printBindings, joinSep]
  | cons p rest =>
    obtain ⟨k, v⟩ := p
    have hv := h (k, v) (List.mem_cons_self _ _)
    have hr := printBindings_false (σ := σ)
      (fun q hq => h q (List.mem_cons_of_mem _ hq))
    simp only at hv
    rw [List.map_cons, joinSep_cons]
    simp [printBindings, hv, hr, entryText, List.map_map, Function.comp_def]

/-! ## The order of the store -/

theorem mem_set {θ : Theta} {k : String} {v : Term} {q : String × Term}
    (h : q ∈ θ.set k v) : q = (k, v) ∨ q ∈ θ := by
  induction θ with
  | nil =>
    simp only [Theta.set, List.mem_singleton] at h
    exact Or.inl h
  | cons p rest ih =>
    obtain ⟨k0, v0⟩ := p
    simp only [Theta.set] at h
    split_ifs at h with h1 h2
    · rcases List.mem_cons.1 h with e | h'
      · exact Or.inl e
      · exact Or.inr h'
    · rcases List.mem_cons.1 h with e | h'
      · exact Or.inl e
      · exact Or.inr (List.mem_cons_of_mem _ h')
    · rcases List.mem_cons.1 h with e | h'
      · exact Or.inr (e ▸ List.mem_cons_self _ _)
      · rcases ih h' with e | h''
        · exact Or.inl e
        · exact Or.inr (List.mem_cons_of_mem _ h'')

/-- The assignment `theta[k] = v` keeps the keys in ascending order. -/
theorem set_ordered {θ : Theta} (h : θ.Ordered) (k : String) (v : Term) :
    (θ.set k v).Ordered := by
  induction θ with
  | nil => simp [Theta.set, Theta.Ordered]
  | cons p rest ih =>
    obtain ⟨k0, v0⟩ := p
    have hp := List.pairwise_cons.1 h
    simp only [Theta.set]
    split_ifs with h1 h2
    · refine List.pairwise_cons.2 ⟨fun q hq => ?_, h⟩
      rcases List.mem_cons.1 hq with e | hq'
      · rw [e]
        exact h1
      · exact lt_trans h1 (hp.1 q hq')
    · subst h2
      exact List.pairwise_cons.2 ⟨hp.1, hp.2⟩
    · have h3 : k0.data < k.data := by
        refine lt_of_le_of_ne (not_lt.1 h1) ?_
        intro e
        apply h2
        cases k
        cases k0
        simp only at e
        rw [e]
      refine List.pairwise_cons.2 ⟨fun q hq => ?_, ih hp.2⟩
      rcases mem_set hq with e | hq'
      · rw [e]
        exact h3
      · exact hp.1 q hq'

/-- An iteration leaves the store as it is or assigns one key. -/
theorem unifyStep_store {n : Nat} {θ θ1 : Theta} {stack stack1 : List (Term × Term)}
    (h : unifyStep n θ stack = some (Sum.inr (θ1, stack1))) :
    θ1 = θ ∨ ∃ x t, θ1 = θ.set x t := by
  cases stack with
  | nil => simp [unifyStep] at h
  | cons p stack =>
    obtain ⟨p1, p2⟩ := p
    cases h1 : applySubst θ n p1 with
    | none => simp [unifyStep, h1] at h
    | some ptr1 =>
      cases h2 : applySubst θ n p2 with
      | none => simp [unifyStep, h1, h2] at h
      | some ptr2 =>
        simp only [unifyStep, h1, h2] at h
        split_ifs at h with hc hF hV1 hV2
        · simp only [Option.some.injEq, Sum.inr.injEq, Prod.mk.injEq] at h
          exact Or.inl h.1.symm
        · simp only [Option.some.injEq, Sum.inr.injEq, Prod.mk.injEq] at h
          exact Or.inl h.1.symm
        · cases ho : occursCheck θ ptr1.name n ptr2 with
          | none => simp [ho] at h
          | some c =>
            cases c with
            | true => simp [ho] at h
            | false =>
              simp only [ho, Option.some.injEq, Sum.inr.injEq, Prod.mk.injEq] at h
              exact Or.inr ⟨_, _, h.1.symm⟩
        · cases ho : occursCheck θ ptr2.name n ptr1 with
          | none => simp [ho] at h
          | some c =>
            cases c with
            | true => simp [ho] at h
            | false =>
              simp only [ho, Option.some.injEq, Sum.inr.injEq, Prod.mk.injEq] at h
              exact Or.inr ⟨_, _, h.1.symm⟩
        · simp at h

theorem Reaches.ordered {t1 t2 : Term} {θ : Theta} {stack : List (Term × Term)}
    (h : Reaches t1 t2 θ stack) : θ.Ordered := by
  induction h with
  | start => exact List.Pairwise.nil
  | step n _ hs ih =>
    rcases unifyStep_store hs with e | ⟨x, t, e⟩
    · rw [e]
      exact ih
    · rw [e]
      exact set_ordered ih x t

theorem acyclic_example : Acyclic [("X", Term.Atom "b"), ("Y", Term.Atom "a")] := by
  refine ⟨fun _ => 0, ?_⟩
  intro x t hf y hy
  simp only [Theta.find] at hf
  split_ifs at hf with h1 h2
  · cases hf
    simp at hy
  · cases hf
    simp at hy

/-- The text `printSubst` writes for a non-empty store that denotes a substitution. -/
theorem printSubst_eq {θ : Theta} {σ : String → Term} (hσ : Denotes θ σ) (hne : θ ≠ []) :
    ∃ N, ∀ n, N ≤ n → printSubst θ n = some (joinSep ", ".data (θ.map (entryText σ))) := by
  obtain ⟨N, hN⟩ := exists_common_bound
    (P := fun n (p : String × Term) => printTerm θ n p.2 = some (subst σ p.2).text)
    (fun p (_ : p ∈ θ) => printTerm_text hσ p.2)
  refine ⟨N, fun n hn => ?_⟩
  have he : θ.isEmpty = false := by
    cases θ with
    | nil => exact absurd rfl hne
    | cons p rest => rfl
  simp only [printSubst, he]
  exact printBindings_true (fun p hp => hN n hn p hp)

/-- C15 (rendering of the store): `printSubst` writes `no bindings` for the empty store.  For
a non-empty acyclic store with its keys in ascending order it writes the entries
`<name> = <term>` of the bindings, in that order, so in ascending order of the names, joined
by `, `, each term being the bound value fully resolved, in which no variable is bound by the
store.  Every store `unify` returns
is acyclic with its keys in ascending order, and for the store of `unify(f(X, a), f(b, Y))`
the text is `X = b, Y = a`. -/
theorem printSubst_text (θ : Theta) (ho : θ.Ordered) (ha : Acyclic θ) :
    (∀ n, printSubst [] n = some "no bindings".data) ∧
    (∃ σ, Denotes θ σ ∧
      (θ ≠ [] → ∃ N, ∀ n, N ≤ n →
        printSubst θ n = some (joinSep ", ".data (θ.map (entryText σ)))) ∧
      (θ.map Prod.fst).Pairwise (fun a b => a.data < b.data) ∧
      (∀ p ∈ θ, ∀ x ∈ (subst σ p.2).vars, θ.find x = none)) ∧
    (∀ m t1 t2 b θ1, unify m t1 t2 = some (b, θ1) → θ1.Ordered ∧ Acyclic θ1) ∧
    (∃ N, ∀ n, N ≤ n →
      unify n (Term.Compound "f" [Term.Var "X", Term.Atom "a"])
          (Term.Compound "f" [Term.Atom "b", Term.Var "Y"])
        = some (true, [("X", Term.Atom "b"), ("Y", Term.Atom "a")]) ∧
      printSubst [("X", Term.Atom "b"), ("Y", Term.Atom "a")] n
        = some "X = b, Y = a".data) := by
  refine ⟨fun n => rfl, ?_, ?_, ?_⟩
  · obtain ⟨σ, hσ⟩ := ha.denotes
    exact ⟨σ, hσ, fun hne => printSubst_eq hσ hne, List.pairwise_map.2 ho,
      fun p _ => (hσ.resolves p.2).unbound⟩
  · intro m t1 t2 b θ1 h
    obtain ⟨stack1, hr⟩ := Reaches.final (@Reaches.start t1 t2) h
    obtain ⟨σ, hσ⟩ := hr.store_denotes
    exact ⟨hr.ordered, hσ.acyclic⟩
  · obtain ⟨σ, hσ⟩ := acyclic_example.denotes
    obtain ⟨N, hN⟩ := printSubst_eq hσ (by simp)
    refine ⟨N + 4, fun n hn => ⟨unifyLoop_mono (n := 4) rfl (by omega), ?_⟩⟩
    rw [hN n (by omega)]
    simp [joinSep, entryText, Term.text]

/-- C15 at the store of `unify(f(X, a), f(b, Y))`. -/
theorem printSubst_text_witness :
    (∀ n, printSubst [] n = some "no bindings".data) ∧
    (∃ σ, Denotes [("X", Term.Atom "b"), ("Y", Term.Atom "a")] σ ∧
      ([("X", Term.Atom "b"), ("Y", Term.Atom "a")] ≠ [] → ∃ N, ∀ n, N ≤ n →
        printSubst [("X", Term.Atom "b"), ("Y", Term.Atom "a")] n
          = some (joinSep ", ".data
              ([("X", Term.Atom "b"), ("Y", Term.Atom "a")].map (entryText σ)))) ∧
      ([("X", Term.Atom "b"), ("Y", Term.Atom "a")].map Prod.fst).Pairwise
        (fun a b => a.data < b.data) ∧
      (∀ p ∈ [("X", Term.Atom "b"), ("Y", Term.Atom "a")], ∀ x ∈ (subst σ p.2).vars,
        Theta.find [("X", Term.Atom "b"), ("Y", Term.Atom "a")] x = none)) ∧
    (∀ m t1 t2 b θ1, unify m t1 t2 = some (b, θ1) → θ1.Ordered ∧ Acyclic θ1) ∧
    (∃ N, ∀ n, N ≤ n →
      unify n (Term.Compound "f" [Term.Var "X", Term.Atom "a"])
          (Term.Compound "f" [Term.Atom "b", Term.Var "Y"])
        = some (true, [("X", Term.Atom "b"), ("Y", Term.Atom "a")]) ∧
      printSubst [("X", Term.Atom "b"), ("Y", Term.Atom "a")] n
        = some "X = b, Y = a".data) :=
  printSubst_text _ (by simp [Theta.Ordered]; decide) acyclic_example

/-! ## Reading a text -/

theorem Spaced.induction_on_args {P : Spaced → Prop} (hv : ∀ pre x post, P (Spaced.Var pre x post))
    (ha : ∀ pre a post, P (Spaced.Atom pre a post))
    (hc : ∀ pre f mid inner args post, (∀ s ∈ args, P s) →
      P (Spaced.Compound pre f mid inner args post)) (s : Spaced) : P s := by
  refine @Spaced.rec P (fun l => ∀ s ∈ l, P s) hv ha
    (fun pre f mid inner args post ih => hc pre f mid inner args post ih) ?_ ?_ s
  · intro s hs
    cases hs
  · intro hd tl ih1 ih2 s hs
    rcases List.mem_cons.1 hs with h | h
    · exact h ▸ ih1
    · exact ih2 s h

theorem drop_cons_facts {expr : List Char} {p : Nat} {c : Char} {r : List Char}
    (h : expr.drop p = c :: r) :
    p < expr.length ∧ charAt expr p = c ∧ expr.drop (p + 1) = r := by
  have hlt : p < expr.length := by
    by_contra hge
    rw [List.drop_of_length_le (by omega)] at h
    cases h
  refine ⟨hlt, ?_, ?_⟩
  · have h2 := List.drop_eq_getElem_cons hlt
    rw [h2] at h
    simp only [charAt, List.getD_eq_getElem?_getD, List.getElem?_eq_getElem hlt,
      Option.getD_some]
    exact (List.cons.inj h).1
  · rw [← List.drop_drop, h]
    rfl

theorem drop_nil_facts {expr : List Char} {p : Nat} (h : expr.drop p = []) :
    expr.length ≤ p := by
  by_contra hlt
  have h2 := List.drop_eq_getElem_cons (show p < expr.length by omega)
  rw [h2] at h
  cases h

theorem drop_add {expr a b : List Char} {p : Nat} (h : expr.drop p = a ++ b) :
    expr.drop (p + a.length) = b := by
  rw [← List.drop_drop, h]
  simp

theorem length_sp (k : Nat) : (sp k).length = k := by
  simp [sp]

theorem lead_sp (k : Nat) (r : List Char) : lead (sp k ++ r) = k + lead r := by
  induction k with
  | zero => simp [sp]
  | succ k ih =>
    have : sp (k + 1) ++ r = ' ' :: (sp k ++ r) := by simp [sp, List.replicate_succ]
    rw [this, lead, if_pos rfl, ih]
    omega

theorem lead_cons_ne {c : Char} (r : List Char) (h : c ≠ ' ') : lead (c :: r) = 0 := by
  simp [lead, h]

theorem lead_le_length (r : List Char) : lead r ≤ r.length := by
  induction r with
  | nil => simp [lead]
  | cons c r ih =>
    simp only [lead]
    split_ifs
    · simp
      omega
    · omega

theorem skipSpacesLoop_eq (expr : List Char) : ∀ (k p : Nat), lead (expr.drop p) ≤ k →
    skipSpacesLoop expr k p = p + lead (expr.drop p) := by
  intro k
  induction k with
  | zero =>
    intro p h
    simp only [skipSpacesLoop]
    omega
  | succ k ih =>
    intro p h
    cases hd : expr.drop p with
    | nil =>
      have := drop_nil_facts hd
      simp only [skipSpacesLoop, lead]
      rw [if_neg (by omega)]
      rfl
    | cons c r =>
      obtain ⟨hlt, hc, hr⟩ := drop_cons_facts hd
      rw [hd] at h
      simp only [skipSpacesLoop, hc]
      by_cases e : c = ' '
      · rw [if_pos ⟨hlt, e⟩]
        simp only [lead, if_pos e] at h ⊢
        rw [ih (p + 1) (by rw [hr]; omega), hr]
        omega
      · rw [if_neg (fun hh => e hh.2)]
        simp [lead, e]

/-- The function `skipSpaces` moves `pos` over the spaces the rest of the text starts with. -/
theorem skipSpaces_eq (expr : List Char) (p : Nat) :
    skipSpaces expr p = p + lead (expr.drop p) := by
  apply skipSpacesLoop_eq
  have := lead_le_length (expr.drop p)
  simp only [List.length_drop] at this
  exact this

theorem readNameLoop_eq (expr : List Char) : ∀ (k : Nat) (acc : List Char) (p : Nat),
    ((expr.drop p).takeWhile isalnum).length ≤ k →
    readNameLoop expr k acc p
      = (acc ++ (expr.drop p).takeWhile isalnum,
         p + ((expr.drop p).takeWhile isalnum).length) := by
  intro k
  induction k with
  | zero =>
    intro acc p h
    have : (expr.drop p).takeWhile isalnum = [] := List.length_eq_zero.1 (by omega)
    simp [readNameLoop, this]
  | succ k ih =>
    intro acc p h
    cases hd : expr.drop p with
    | nil =>
      have := drop_nil_facts hd
      simp only [readNameLoop]
      rw [if_neg (by omega)]
      simp
    | cons c r =>
      obtain ⟨hlt, hc, hr⟩ := drop_cons_facts hd
      rw [hd] at h
      simp only [readNameLoop, hc]
      by_cases e : isalnum c = true
      · rw [if_pos ⟨hlt, e⟩]
        simp only [List.takeWhile_cons, e, if_true, List.length_cons] at h ⊢
        rw [ih _ (p + 1) (by rw [hr]; omega), hr]
        simp
        omega
      · rw [if_neg (fun hh => e hh.2)]
        simp [List.takeWhile_cons, e]

/-- The name loop reads the alphanumeric characters the rest of the text starts with. -/
theorem readName_eq (expr : List Char) (p : Nat) :
    readName expr p
      = (String.mk ((expr.drop p).takeWhile isalnum),
         p + ((expr.drop p).takeWhile isalnum).length) := by
  have h := readNameLoop_eq expr (expr.length - p) [] p (by
    have := (List.takeWhile_sublist (l := expr.drop p) isalnum).length_le
    simp only [List.length_drop] at this
    exact this)
  simp [readName, h]

theorem upper_alnum {c : Char} (h : isupper c = true) : isalnum c = true := by
  simp only [isupper] at h
  simp [isalnum, Char.isAlphanum, Char.isAlpha, h]

theorem lower_alnum {c : Char} (h : islower c = true) : isalnum c = true := by
  simp only [islower] at h
  simp [isalnum, Char.isAlphanum, Char.isAlpha, h]

theorem alnum_ne_space {c : Char} (h : isalnum c = true) : c ≠ ' ' := by
  rintro rfl
  exact absurd h (by decide)

theorem alnum_ne_close {c : Char} (h : isalnum c = true) : c ≠ ')' := by
  rintro rfl
  exact absurd h (by decide)

theorem lower_not_upper {c : Char} (h : islower c = true) : ¬ isupper c = true := by
  simp only [islower, isupper, Char.isLower, Char.isUpper, Bool.and_eq_true, decide_eq_true_eq,
    not_and, not_le] at *
  intro h1
  have a := h.1
  simp only [GE.ge, UInt32.le_def, BitVec.le_def] at *
  have e1 : (UInt32.toBitVec 97).toNat = 97 := rfl
  have e2 : (UInt32.toBitVec 90).toNat = 90 := rfl
  rw [e1] at a
  rw [e2]
  omega

theorem varName_data {x : String} (h : isVarName x = true) :
    ∃ c cs, x.data = c :: cs ∧ isupper c = true ∧ ∀ d ∈ cs, isalnum d = true := by
  simp only [isVarName] at h
  cases hd : x.data with
  | nil => simp [hd] at h
  | cons c cs =>
    simp only [hd, Bool.and_eq_true, List.all_eq_true] at h
    exact ⟨c, cs, rfl, h.1, h.2⟩

theorem atomName_data {x : String} (h : isAtomName x = true) :
    ∃ c cs, x.data = c :: cs ∧ islower c = true ∧ ∀ d ∈ cs, isalnum d = true := by
  simp only [isAtomName] at h
  cases hd : x.data with
  | nil => simp [hd] at h
  | cons c cs =>
    simp only [hd, Bool.and_eq_true, List.all_eq_true] at h
    exact ⟨c, cs, rfl, h.1, h.2⟩

theorem string_of_data {x : String} {cs : List Char} (h : x.data = cs) : String.mk cs = x := by
  cases x
  simp only at h
  rw [h]

/-- The alphanumeric characters a text starts with, when the text is a name followed by a
character that is not alphanumeric or by nothing. -/
theorem takeWhile_name {cs r : List Char} (hcs : ∀ d ∈ cs, isalnum d = true)
    (hr : ∀ c r1, r = c :: r1 → isalnum c = false) :
    (cs ++ r).takeWhile isalnum = cs := by
  induction cs with
  | nil =>
    cases r with
    | nil => rfl
    | cons c r1 => simp [List.takeWhile_cons, hr c r1 rfl]
  | cons d cs ih =>
    have hd := hcs d (List.mem_cons_self _ _)
    simp only [List.cons_append, List.takeWhile_cons, hd, if_true]
    rw [ih (fun e he => hcs e (List.mem_cons_of_mem _ he))]

/-- After the spaces at the end of a term and what may follow it, no alphanumeric character
comes first. -/
theorem stops_name {post : Nat} {rest : List Char} (h : RestOK rest) :
    ∀ c r1, sp post ++ rest = c :: r1 → isalnum c = false := by
  intro c r1 e
  cases post with
  | succ k =>
    have : sp (k + 1) ++ rest = ' ' :: (sp k ++ rest) := by simp [sp, List.replicate_succ]
    rw [this] at e
    cases e
    decide
  | zero =>
    simp only [sp, List.replicate_zero, List.nil_append] at e
    by_cases hc : c = ' '
    · rw [hc]
      decide
    · have hl : lead rest = 0 := by rw [e]; exact lead_cons_ne _ hc
      have := h c r1 (by rw [hl]; simpa using e)
      exact this.2

theorem lead_drop_lead (r : List Char) : lead (r.drop (lead r)) = 0 := by
  induction r with
  | nil => simp [lead]
  | cons c r ih =>
    by_cases hc : c = ' '
    · simp only [lead, if_pos hc, List.drop_succ_cons]
      exact ih
    · simp [lead, hc]

/-! ### One call of `parseAtom`, one iteration of its loop -/

theorem parseAtom_var {m : Nat} {expr : List Char} {p : Nat}
    (hlt : skipSpaces expr p < expr.length)
    (hu : isupper (charAt expr (skipSpaces expr p)) = true) :
    parseAtom (m + 1) expr p
      = some (TermPtr.Var (readName expr (skipSpaces expr p)).1,
          (readName expr (skipSpaces expr p)).2) := by
  simp only [parseAtom]
  rw [if_neg (by omega), if_pos hu]

theorem parseAtom_atom {m : Nat} {expr : List Char} {p : Nat}
    (hlt : skipSpaces expr p < expr.length)
    (hu : ¬ isupper (charAt expr (skipSpaces expr p)) = true)
    (hl : islower (charAt expr (skipSpaces expr p)) = true)
    (hno : ¬ (skipSpaces expr (readName expr (skipSpaces expr p)).2 < expr.length ∧
      charAt expr (skipSpaces expr (readName expr (skipSpaces expr p)).2) = '(')) :
    parseAtom (m + 1) expr p
      = some (TermPtr.Atom (readName expr (skipSpaces expr p)).1,
          skipSpaces expr (readName expr (skipSpaces expr p)).2) := by
  simp only [parseAtom]
  rw [if_neg (by omega), if_neg hu, if_pos hl, if_neg hno]

theorem parseAtom_compound {m : Nat} {expr : List Char} {p : Nat} {args : List TermPtr}
    {pos2 : Nat} (hlt : skipSpaces expr p < expr.length)
    (hu : ¬ isupper (charAt expr (skipSpaces expr p)) = true)
    (hl : islower (charAt expr (skipSpaces expr p)) = true)
    (hyes : skipSpaces expr (readName expr (skipSpaces expr p)).2 < expr.length ∧
      charAt expr (skipSpaces expr (readName expr (skipSpaces expr p)).2) = '(')
    (hargs : parseArgs m expr (skipSpaces expr (readName expr (skipSpaces expr p)).2 + 1) []
      = some (args, pos2)) :
    parseAtom (m + 1) expr p
      = some (TermPtr.Compound (readName expr (skipSpaces expr p)).1 args, pos2 + 1) := by
  simp only [parseAtom]
  rw [if_neg (by omega), if_neg hu, if_pos hl, if_pos hyes, hargs]

theorem parseArgs_exit {m : Nat} {expr : List Char} {p : Nat} {acc : List TermPtr}
    (hc : ¬ (p < expr.length ∧ charAt expr p ≠ ')')) :
    parseArgs (m + 1) expr p acc = some (acc, p) := by
  simp only [parseArgs]
  rw [if_neg hc]

theorem parseArgs_break {m : Nat} {expr : List Char} {p : Nat} {acc : List TermPtr}
    (hc : p < expr.length ∧ charAt expr p ≠ ')')
    (hb : charAt expr (skipSpaces expr p) = ')') :
    parseArgs (m + 1) expr p acc = some (acc, skipSpaces expr p) := by
  simp only [parseArgs]
  rw [if_pos hc, if_pos hb]

theorem parseArgs_iter {m : Nat} {expr : List Char} {p : Nat} {acc : List TermPtr}
    {arg : TermPtr} {pos2 : Nat} (hc : p < expr.length ∧ charAt expr p ≠ ')')
    (hb : ¬ charAt expr (skipSpaces expr p) = ')')
    (hp : parseAtom m expr (skipSpaces expr p) = some (arg, pos2)) :
    parseArgs (m + 1) expr p acc
      = parseArgs m expr
          (if skipSpaces expr pos2 < expr.length ∧ charAt expr (skipSpaces expr pos2) = ','
            then skipSpaces expr pos2 + 1 else skipSpaces expr pos2)
          (acc ++ [arg]) := by
  simp only [parseArgs]
  rw [if_pos hc, if_neg hb, hp]

/-- The function `parseAtom` starts by skipping spaces: it sees `pos` only through
`skipSpaces`. -/
theorem parseAtom_skip {n : Nat} {expr : List Char} {a b : Nat}
    (h : skipSpaces expr a = skipSpaces expr b) : parseAtom n expr a = parseAtom n expr b := by
  cases n with
  | zero => rfl
  | succ n => simp only [parseAtom, h]

/-- Skipping the spaces before a character that is not a space. -/
theorem skip_to {expr : List Char} {p k : Nat} {c : Char} {r : List Char}
    (hd : expr.drop p = sp k ++ c :: r) (hc : c ≠ ' ') :
    skipSpaces expr p = p + k ∧ expr.drop (p + k) = c :: r := by
  constructor
  · rw [skipSpaces_eq, hd, lead_sp, lead_cons_ne _ hc]
    rfl
  · have := drop_add hd
    rwa [length_sp] at this

/-- The parser reads a spaced variable. -/
theorem parses_var (pre : Nat) (x : String) (post : Nat) (hx : isVarName x = true) :
    Parses (Spaced.Var pre x post) := by
  intro expr p rest hd hrest
  obtain ⟨c, cs, hxd, hc, hcs⟩ := varName_data hx
  have hd1 : expr.drop p = sp pre ++ c :: (cs ++ (sp post ++ rest)) := by
    rw [hd]
    simp [Spaced.text, hxd, List.append_assoc]
  obtain ⟨hq, hd2⟩ := skip_to hd1 (alnum_ne_space (upper_alnum hc))
  obtain ⟨hlt, hch, _⟩ := drop_cons_facts hd2
  have htw : (expr.drop (p + pre)).takeWhile isalnum = c :: cs := by
    rw [hd2]
    exact @takeWhile_name (c :: cs) _ (fun d hd => by
      rcases List.mem_cons.1 hd with e | hd'
      · rw [e]
        exact upper_alnum hc
      · exact hcs d hd') (stops_name hrest)
  have hname : readName expr (p + pre) = (x, p + pre + (cs.length + 1)) := by
    rw [readName_eq, htw, string_of_data hxd]
    rfl
  have hlen : (Spaced.Var pre x post).text.length = pre + (cs.length + 1) + post := by
    simp [Spaced.text, hxd, length_sp]
    omega
  have hd3 : expr.drop (p + pre + (cs.length + 1)) = sp post ++ rest := by
    have := drop_add (a := c :: cs) (b := sp post ++ rest) (by rw [hd2]; simp)
    simpa using this
  have hd4 : expr.drop (p + (pre + (cs.length + 1) + post)) = rest := by
    have := drop_add hd3
    rw [length_sp] at this
    rw [← this]
    congr 1
    omega
  refine ⟨1, fun n hn => ?_⟩
  obtain ⟨m, rfl⟩ : ∃ m, n = m + 1 := ⟨n - 1, by omega⟩
  refine ⟨p + pre + (cs.length + 1), ?_, ?_, ?_⟩
  · rw [parseAtom_var (by rw [hq]; exact hlt) (by rw [hq, hch]; exact hc), hq, hname]
    simp [Spaced.erase, Term.ptr]
  · rw [hlen]
    simp only [Spaced.post]
    omega
  · rw [hlen, skipSpaces_eq, skipSpaces_eq, hd3, hd4, lead_sp]
    omega

/-- The parser reads a spaced atom, and skips the spaces after it. -/
theorem parses_atom (pre : Nat) (a : String) (post : Nat) (ha : isAtomName a = true) :
    Parses (Spaced.Atom pre a post) := by
  intro expr p rest hd hrest
  obtain ⟨c, cs, hxd, hc, hcs⟩ := atomName_data ha
  have hd1 : expr.drop p = sp pre ++ c :: (cs ++ (sp post ++ rest)) := by
    rw [hd]
    simp [Spaced.text, hxd, List.append_assoc]
  obtain ⟨hq, hd2⟩ := skip_to hd1 (alnum_ne_space (lower_alnum hc))
  obtain ⟨hlt, hch, _⟩ := drop_cons_facts hd2
  have htw : (expr.drop (p + pre)).takeWhile isalnum = c :: cs := by
    rw [hd2]
    exact @takeWhile_name (c :: cs) _ (fun d hd => by
      rcases List.mem_cons.1 hd with e | hd'
      · rw [e]
        exact lower_alnum hc
      · exact hcs d hd') (stops_name hrest)
  have hname : readName expr (p + pre) = (a, p + pre + (cs.length + 1)) := by
    rw [readName_eq, htw, string_of_data hxd]
    rfl
  have hlen : (Spaced.Atom pre a post).text.length = pre + (cs.length + 1) + post := by
    simp [Spaced.text, hxd, length_sp]
    omega
  have hd3 : expr.drop (p + pre + (cs.length + 1)) = sp post ++ rest := by
    have := drop_add (a := c :: cs) (b := sp post ++ rest) (by rw [hd2]; simp)
    simpa using this
  have hd4 : expr.drop (p + (pre + (cs.length + 1) + post)) = rest := by
    have := drop_add hd3
    rw [length_sp] at this
    rw [← this]
    congr 1
    omega
  have hs1 : skipSpaces expr (p + pre + (cs.length + 1))
      = p + (pre + (cs.length + 1) + post) + lead rest := by
    rw [skipSpaces_eq, hd3, lead_sp]
    omega
  have hd5 : expr.drop (p + (pre + (cs.length + 1) + post) + lead rest)
      = rest.drop (lead rest) := by
    rw [← List.drop_drop, hd4]
  refine ⟨1, fun n hn => ?_⟩
  obtain ⟨m, rfl⟩ : ∃ m, n = m + 1 := ⟨n - 1, by omega⟩
  refine ⟨p + (pre + (cs.length + 1) + post) + lead rest, ?_, ?_, ?_⟩
  · rw [parseAtom_atom (by rw [hq]; exact hlt) (by rw [hq, hch]; exact lower_not_upper hc)
      (by rw [hq, hch]; exact hc) ?_, hq, hname]
    · simp [Spaced.erase, Term.ptr, hs1]
    · rw [hq, hname]
      simp only [hs1]
      rintro ⟨h1, h2⟩
      cases hr : rest.drop (lead rest) with
      | nil =>
        rw [hr] at hd5
        have := drop_nil_facts hd5
        omega
      | cons d r1 =>
        rw [hr] at hd5
        obtain ⟨_, hch2, _⟩ := drop_cons_facts hd5
        rw [hch2] at h2
        exact (hrest d r1 hr).1 h2
  · rw [hlen]
    simp only [Spaced.post]
    omega
  · rw [hlen, skipSpaces_eq, skipSpaces_eq, hd5, hd4, lead_drop_lead]
    omega

theorem wfList_iff {l : List Term} : wfList l = true ↔ ∀ t ∈ l, t.wf = true := by
  induction l with
  | nil => simp [wfList]
  | cons a l ih => simp [wfList, ih]

theorem mem_eraseList {t : Term} {l : List Spaced} :
    t ∈ eraseList l ↔ ∃ s ∈ l, s.erase = t := by
  induction l with
  | nil => simp [eraseList]
  | cons a l ih =>
    simp only [eraseList, List.mem_cons, ih, exists_eq_or_imp]
    constructor
    · rintro (e | h)
      · exact Or.inl e.symm
      · exact Or.inr h
    · rintro (e | h)
      · exact Or.inl e.symm
      · exact Or.inr h

/-- The text of a well-formed spaced term: spaces, then a letter. -/
theorem text_head (s : Spaced) (h : s.erase.wf = true) :
    ∃ j d r, s.text = sp j ++ d :: r ∧ isalnum d = true := by
  cases s with
  | Var pre x post =>
    obtain ⟨c, cs, hxd, hc, _⟩ := varName_data (x := x) (by simpa [Spaced.erase, Term.wf] using h)
    exact ⟨pre, c, cs ++ sp post, by simp [Spaced.text, hxd], upper_alnum hc⟩
  | Atom pre a post =>
    obtain ⟨c, cs, hxd, hc, _⟩ := atomName_data (x := a) (by simpa [Spaced.erase, Term.wf] using h)
    exact ⟨pre, c, cs ++ sp post, by simp [Spaced.text, hxd], lower_alnum hc⟩
  | Compound pre f mid inner args post =>
    have hf : isAtomName f = true := by
      simp only [Spaced.erase, Term.wf, Bool.and_eq_true] at h
      exact h.1
    obtain ⟨c, cs, hxd, hc, _⟩ := atomName_data hf
    exact ⟨pre, c, cs ++ (sp mid ++ '(' :: (sp inner ++ (argsText args ++ ')' :: sp post))),
      by simp [Spaced.text, hxd], lower_alnum hc⟩

/-- A text of spaces followed by a letter starts with a character that is not `)`. -/
theorem head_not_close {k : Nat} {d : Char} {r : List Char} (hd : isalnum d = true) :
    ∃ c0 r0, sp k ++ d :: r = c0 :: r0 ∧ c0 ≠ ')' := by
  cases k with
  | zero => exact ⟨d, r, by simp [sp], alnum_ne_close hd⟩
  | succ k =>
    exact ⟨' ', sp k ++ d :: r, by simp [sp, List.replicate_succ], by decide⟩

theorem sp_add (k j : Nat) : sp (k + j) = sp k ++ sp j := by
  show List.replicate (k + j) ' ' = List.replicate k ' ' ++ List.replicate j ' '
  exact List.replicate_add k j ' '

theorem restOK_cons {c : Char} (r : List Char) (h1 : c ≠ ' ') (h2 : c ≠ '(')
    (h3 : isalnum c = false) : RestOK (c :: r) := by
  intro d r1 e
  rw [lead_cons_ne _ h1] at e
  simp only [List.drop_zero, List.cons.injEq] at e
  rw [← e.1]
  exact ⟨h2, h3⟩

/-- The argument loop reads the spaced arguments up to the closing parenthesis, and leaves
`pos` on it. -/
theorem parseArgs_spaced : ∀ (ss : List Spaced), (∀ s ∈ ss, Parses s) →
    (∀ s ∈ ss, s.erase.wf = true) →
    ∀ (k : Nat) (acc : List TermPtr) (expr : List Char) (p : Nat) (tail : List Char),
      expr.drop p = sp k ++ (argsText ss ++ ')' :: tail) →
      ∃ N, ∀ n, N ≤ n →
        parseArgs n expr p acc
          = some (acc ++ ptrList (eraseList ss), p + k + (argsText ss).length) := by
  intro ss
  induction ss with
  | nil =>
    intro _ _ k acc expr p tail hd
    refine ⟨1, fun n hn => ?_⟩
    obtain ⟨m, rfl⟩ : ∃ m, n = m + 1 := ⟨n - 1, by omega⟩
    simp only [argsText, List.nil_append] at hd
    obtain ⟨hq, hd2⟩ := skip_to hd (by decide)
    obtain ⟨_, hch, _⟩ := drop_cons_facts hd2
    simp only [eraseList, ptrList, List.append_nil, argsText, List.length_nil, Nat.add_zero]
    cases k with
    | zero =>
      rw [parseArgs_exit]
      · rfl
      · rintro ⟨_, h2⟩
        exact h2 (by simpa using hch)
    | succ k =>
      have hd0 : expr.drop p = ' ' :: (sp k ++ ')' :: tail) := by
        rw [hd]
        simp [sp, List.replicate_succ]
      obtain ⟨hlt0, hch0, _⟩ := drop_cons_facts hd0
      rw [parseArgs_break ⟨hlt0, by rw [hch0]; decide⟩ (by rw [hq, hch]), hq]
  | cons s ss ih =>
    intro hP hwf k acc expr p tail hd
    have hPs := hP s (List.mem_cons_self _ _)
    have hws := hwf s (List.mem_cons_self _ _)
    have hP2 : ∀ t ∈ ss, Parses t := fun t ht => hP t (List.mem_cons_of_mem _ ht)
    have hwf2 : ∀ t ∈ ss, t.erase.wf = true := fun t ht => hwf t (List.mem_cons_of_mem _ ht)
    obtain ⟨j, d, r0, htext, hdal⟩ := text_head s hws
    -- what follows the text of `s`: the closing parenthesis, or a comma and more arguments
    obtain ⟨c, r, hsplit, hcs, hc1, hc2, hc3⟩ : ∃ c r,
        argsText (s :: ss) ++ ')' :: tail = s.text ++ c :: r ∧
        (c = ')' ∧ ss = [] ∧ r = tail ∨
          c = ',' ∧ ss ≠ [] ∧ r = argsText ss ++ ')' :: tail) ∧
        c ≠ ' ' ∧ c ≠ '(' ∧ isalnum c = false := by
      cases ss with
      | nil =>
        exact ⟨')', tail, by simp [argsText], Or.inl ⟨rfl, rfl, rfl⟩, by decide, by decide,
          by decide⟩
      | cons s2 ss2 =>
        refine ⟨',', argsText (s2 :: ss2) ++ ')' :: tail, ?_, Or.inr ⟨rfl, by simp, rfl⟩,
          by decide, by decide, by decide⟩
        rw [argsText]
        simp [List.append_assoc]
    have hd1 : expr.drop p = sp k ++ (s.text ++ c :: r) := by rw [hd, hsplit]
    have hdk : expr.drop (p + k) = s.text ++ c :: r := by
      have := drop_add hd1
      rwa [length_sp] at this
    -- the head of the loop
    have hd2 : expr.drop p = sp (k + j) ++ d :: (r0 ++ c :: r) := by
      rw [hd1, htext, sp_add]
      simp only [List.append_assoc, List.cons_append]
    obtain ⟨c0, r00, hc0, hc0ne⟩ := head_not_close (k := k + j) (r := r0 ++ c :: r) hdal
    obtain ⟨hlt0, hch0, _⟩ := drop_cons_facts (hd2.trans hc0)
    obtain ⟨hq, hd3⟩ := skip_to hd2 (alnum_ne_space hdal)
    obtain ⟨_, hch3, _⟩ := drop_cons_facts hd3
    have hq2 : skipSpaces expr (p + k + j) = p + k + j := by
      rw [skipSpaces_eq, show p + k + j = p + (k + j) by omega, hd3,
        lead_cons_ne _ (alnum_ne_space hdal)]
      rfl
    have hqk : skipSpaces expr (p + k) = p + k + j := by
      rw [skipSpaces_eq, hdk, htext, List.append_assoc, lead_sp,
        show (d :: r0) ++ c :: r = d :: (r0 ++ c :: r) by simp,
        lead_cons_ne _ (alnum_ne_space hdal)]
      rfl
    -- the argument
    obtain ⟨N1, hN1⟩ := hPs expr (p + k) (c :: r) hdk (restOK_cons r hc1 hc2 hc3)
    have hd4 : expr.drop (p + k + s.text.length) = c :: r := drop_add hdk
    obtain ⟨hlt4, hch4, hd5⟩ := drop_cons_facts hd4
    have hq4 : skipSpaces expr (p + k + s.text.length) = p + k + s.text.length := by
      rw [skipSpaces_eq, hd4, lead_cons_ne _ hc1]
      rfl
    rcases hcs with ⟨ec, ess, er⟩ | ⟨ec, ess, er⟩
    · -- the last argument
      subst ess
      obtain ⟨N2, hN2⟩ := ih hP2 hwf2 0 (acc ++ [s.erase.ptr]) expr
        (p + k + s.text.length) tail (by rw [hd4, ec, er]; simp [sp, argsText])
      refine ⟨N1 + N2 + 1, fun n hn => ?_⟩
      obtain ⟨m, rfl⟩ : ∃ m, n = m + 1 := ⟨n - 1, by omega⟩
      obtain ⟨pos2, hp2, _, hs2⟩ := hN1 m (by omega)
      rw [parseArgs_iter ⟨hlt0, by rw [hch0]; exact hc0ne⟩
        (by rw [hq, hch3]; exact alnum_ne_close hdal)
        (by rw [hq, ← show p + k + j = p + (k + j) by omega,
              parseAtom_skip (hq2.trans hqk.symm)]; exact hp2)]
      rw [hs2, hq4, hch4, if_neg (by rw [ec]; simp), hN2 m (by omega)]
      simp [eraseList, ptrList, argsText]
    · -- a comma follows
      obtain ⟨N2, hN2⟩ := ih hP2 hwf2 0 (acc ++ [s.erase.ptr]) expr
        (p + k + s.text.length + 1) tail (by rw [hd5, er]; simp [sp])
      refine ⟨N1 + N2 + 1, fun n hn => ?_⟩
      obtain ⟨m, rfl⟩ : ∃ m, n = m + 1 := ⟨n - 1, by omega⟩
      obtain ⟨pos2, hp2, _, hs2⟩ := hN1 m (by omega)
      rw [parseArgs_iter ⟨hlt0, by rw [hch0]; exact hc0ne⟩
        (by rw [hq, hch3]; exact alnum_ne_close hdal)
        (by rw [hq, ← show p + k + j = p + (k + j) by omega,
              parseAtom_skip (hq2.trans hqk.symm)]; exact hp2)]
      rw [hs2, hq4, hch4, if_pos ⟨hlt4, ec⟩, hN2 m (by omega)]
      have hlen : (argsText (s :: ss)).length = s.text.length + 1 + (argsText ss).length := by
        cases ss with
        | nil => exact absurd rfl ess
        | cons s2 ss2 =>
          rw [argsText]
          simp
          omega
      simp [eraseList, ptrList, hlen]
      omega

theorem wfList_erase {args : List Spaced} (h : wfList (eraseList args) = true) :
    ∀ s ∈ args, s.erase.wf = true := by
  intro s hs
  exact wfList_iff.1 h s.erase (mem_eraseList.2 ⟨s, hs, rfl⟩)

/-- The parser reads a spaced compound whose arguments it reads. -/
theorem parses_compound (pre : Nat) (f : String) (mid inner : Nat) (args : List Spaced)
    (post : Nat) (hf : isAtomName f = true) (hargs : ∀ s ∈ args, Parses s)
    (hwf : ∀ s ∈ args, s.erase.wf = true) :
    Parses (Spaced.Compound pre f mid inner args post) := by
  intro expr p rest hd hrest
  obtain ⟨c, cs, hxd, hc, hcs⟩ := atomName_data hf
  have hd1 : expr.drop p = sp pre ++ c :: (cs ++ (sp mid ++ '(' ::
      (sp inner ++ (argsText args ++ ')' :: (sp post ++ rest))))) := by
    rw [hd]
    simp [Spaced.text, hxd, List.append_assoc]
  obtain ⟨hq, hd2⟩ := skip_to hd1 (alnum_ne_space (lower_alnum hc))
  obtain ⟨hlt, hch, _⟩ := drop_cons_facts hd2
  have hstop : ∀ c1 r1, sp mid ++ '(' ::
      (sp inner ++ (argsText args ++ ')' :: (sp post ++ rest))) = c1 :: r1 →
      isalnum c1 = false := by
    intro c1 r1 e
    cases mid with
    | zero =>
      simp only [sp, List.replicate_zero, List.nil_append, List.cons.injEq] at e
      rw [← e.1]
      decide
    | succ k =>
      simp only [sp, List.replicate_succ, List.cons_append, List.cons.injEq] at e
      rw [← e.1]
      decide
  have htw : (expr.drop (p + pre)).takeWhile isalnum = c :: cs := by
    rw [hd2]
    exact @takeWhile_name (c :: cs) _ (fun d hd => by
      rcases List.mem_cons.1 hd with e | hd'
      · rw [e]
        exact lower_alnum hc
      · exact hcs d hd') hstop
  have hname : readName expr (p + pre) = (f, p + pre + (cs.length + 1)) := by
    rw [readName_eq, htw, string_of_data hxd]
    rfl
  have hd3 : expr.drop (p + pre + (cs.length + 1)) = sp mid ++ '(' ::
      (sp inner ++ (argsText args ++ ')' :: (sp post ++ rest))) := by
    have := drop_add (a := c :: cs)
      (b := sp mid ++ '(' :: (sp inner ++ (argsText args ++ ')' :: (sp post ++ rest))))
      (by rw [hd2]; simp)
    simpa using this
  obtain ⟨hq3, hd4⟩ := skip_to hd3 (by decide)
  obtain ⟨hlt4, hch4, hd5⟩ := drop_cons_facts hd4
  obtain ⟨N1, hN1⟩ := parseArgs_spaced args hargs hwf inner [] expr
    (p + pre + (cs.length + 1) + mid + 1) (sp post ++ rest) hd5
  have hd6 : expr.drop (p + pre + (cs.length + 1) + mid + 1 + inner + (argsText args).length)
      = ')' :: (sp post ++ rest) := by
    have h1 := drop_add hd5
    rw [length_sp] at h1
    exact drop_add h1
  obtain ⟨_, _, hd7⟩ := drop_cons_facts hd6
  have hlen : (Spaced.Compound pre f mid inner args post).text.length
      = pre + (cs.length + 1) + mid + 1 + inner + (argsText args).length + 1 + post := by
    simp [Spaced.text, hxd, length_sp]
    omega
  have hd8 : expr.drop (p + (pre + (cs.length + 1) + mid + 1 + inner +
      (argsText args).length + 1 + post)) = rest := by
    have := drop_add hd7
    rw [length_sp] at this
    rw [← this]
    congr 1
    omega
  refine ⟨N1 + 1, fun n hn => ?_⟩
  obtain ⟨m, rfl⟩ : ∃ m, n = m + 1 := ⟨n - 1, by omega⟩
  refine ⟨p + pre + (cs.length + 1) + mid + 1 + inner + (argsText args).length + 1,
    ?_, ?_, ?_⟩
  · rw [parseAtom_compound (by rw [hq]; exact hlt)
      (by rw [hq, hch]; exact lower_not_upper hc) (by rw [hq, hch]; exact hc)
      (by rw [hq, hname]; simp only [hq3]; exact ⟨hlt4, hch4⟩)
      (by rw [hq, hname]; simp only [hq3]; exact hN1 m (by omega)), hq, hname]
    simp [Spaced.erase, Term.ptr]
  · rw [hlen]
    simp only [Spaced.post]
    omega
  · rw [hlen, skipSpaces_eq, skipSpaces_eq, hd7, hd8, lead_sp]
    omega

/-- The parser reads every well-formed spaced term. -/
theorem parses_all (s : Spaced) : s.erase.wf = true → Parses s := by
  refine Spaced.induction_on_args (P := fun s => s.erase.wf = true → Parses s) ?_ ?_ ?_ s
  · intro pre x post h
    exact parses_var pre x post (by simpa [Spaced.erase, Term.wf] using h)
  · intro pre a post h
    exact parses_atom pre a post (by simpa [Spaced.erase, Term.wf] using h)
  · intro pre f mid inner args post ih h
    simp only [Spaced.erase, Term.wf, Bool.and_eq_true] at h
    have hw := wfList_erase h.2
    exact parses_compound pre f mid inner args post h.1 (fun s hs => ih s hs (hw s hs)) hw

/-- From position 0 of the text of a well-formed spaced term, `parse` returns the term and
leaves `pos` at the end of the text or before the spaces it ends with. -/
theorem parse_text (s : Spaced) (h : s.erase.wf = true) :
    ∃ N, ∀ n, N ≤ n → ∃ pos, parse n s.text 0 = some (s.erase.ptr, pos) ∧
      s.text.length - s.post ≤ pos ∧ pos ≤ s.text.length := by
  obtain ⟨N, hN⟩ := parses_all s h s.text 0 [] (by simp) (by
    intro c r e
    simp [lead] at e)
  refine ⟨N, fun n hn => ?_⟩
  obtain ⟨pos, h1, h2, h3⟩ := hN n hn
  refine ⟨pos, h1, by omega, ?_⟩
  rw [skipSpaces_eq, skipSpaces_eq] at h3
  have : s.text.drop (0 + s.text.length) = [] := by simp
  rw [this] at h3
  simp only [lead] at h3
  omega

/-! ## The text `printTerm` writes, read back -/

theorem argsText_cons_cons (x y : Spaced) (zs : List Spaced) :
    argsText (x :: y :: zs) = x.text ++ ',' :: argsText (y :: zs) := by
  rw [argsText]

theorem spaced_erase_aux (t : Term) : ∀ k, (t.spaced k).erase = t := by
  refine Term.induction (P := fun t => ∀ k, (t.spaced k).erase = t) ?_ ?_ ?_ t
  · intro x k
    simp [Term.spaced, Spaced.erase]
  · intro a k
    simp [Term.spaced, Spaced.erase]
  · intro f as ih k
    simp only [Term.spaced, Spaced.erase, Term.Compound.injEq, true_and]
    have : ∀ (l : List Term), (∀ a ∈ l, ∀ k, (a.spaced k).erase = a) →
        ∀ j, eraseList (spacedArgs j l) = l := by
      intro l
      induction l with
      | nil =>
        intro _ j
        simp [spacedArgs, eraseList]
      | cons a l ihl =>
        intro hl j
        simp only [spacedArgs, eraseList]
        rw [hl a (List.mem_cons_self _ _) j,
          ihl (fun b hb => hl b (List.mem_cons_of_mem _ hb)) 1]
    exact this as ih 0

theorem spaced_text_aux (t : Term) : ∀ k, (t.spaced k).text = sp k ++ t.text := by
  refine Term.induction (P := fun t => ∀ k, (t.spaced k).text = sp k ++ t.text) ?_ ?_ ?_ t
  · intro x k
    simp [Term.spaced, Spaced.text, Term.text, sp]
  · intro a k
    simp [Term.spaced, Spaced.text, Term.text, sp]
  · intro f as ih k
    have key : ∀ (l : List Term), (∀ a ∈ l, ∀ k, (a.spaced k).text = sp k ++ a.text) →
        l ≠ [] → ∀ j, argsText (spacedArgs j l) = sp j ++ textList l := by
      intro l
      induction l with
      | nil =>
        intro _ hne
        exact absurd rfl hne
      | cons a l ihl =>
        intro hl _ j
        have ha := hl a (List.mem_cons_self _ _) j
        cases l with
        | nil => simp [spacedArgs, argsText, textList, ha]
        | cons b bs =>
          have ih2 := ihl (fun c hc => hl c (List.mem_cons_of_mem _ hc)) (by simp) 1
          have e2 : spacedArgs 1 (b :: bs) = b.spaced 1 :: spacedArgs 1 bs := by
            rw [spacedArgs]
          have e1 : spacedArgs j (a :: b :: bs) = a.spaced j :: spacedArgs 1 (b :: bs) := by
            rw [spacedArgs]
          rw [e1, e2, argsText_cons_cons, ← e2, ih2, ha, textList]
          simp [sp, List.append_assoc]
    have key0 : argsText (spacedArgs 0 as) = textList as := by
      cases as with
      | nil => simp [spacedArgs, argsText, textList]
      | cons a l =>
        rw [key (a :: l) ih (by simp) 0]
        simp [sp]
    simp only [Term.spaced, Spaced.text, Term.text, key0]
    simp [sp, List.append_assoc]

theorem spaced_post (t : Term) (k : Nat) : (t.spaced k).post = 0 := by
  cases t <;> rfl

theorem subst_id (t : Term) : subst Term.Var t = t :=
  (denotes_nil.resolves t).det (resolves_nil t)

/-- C13 (parse inverts print on the grammar): for a term whose names have the shapes of the
grammar, `printTerm` under the empty store writes the text of the term, and `parse` from
position 0 of that text returns the term, with the same variant at every node, and leaves
`pos` at the end of the text. -/
theorem parse_print (t : Term) (h : t.wf = true) :
    ∃ N, ∀ n, N ≤ n →
      printTerm [] n t = some t.text ∧ parse n t.text 0 = some (t.ptr, t.text.length) := by
  obtain ⟨N1, h1⟩ := printTerm_text denotes_nil t
  have e0 : (t.spaced 0).text = t.text := by
    rw [spaced_text_aux]
    simp [sp]
  obtain ⟨N2, h2⟩ := parse_text (t.spaced 0) (by rw [spaced_erase_aux]; exact h)
  refine ⟨N1 + N2, fun n hn => ⟨?_, ?_⟩⟩
  · have := h1 n (by omega)
    rwa [subst_id] at this
  · obtain ⟨pos, hp, hlo, hhi⟩ := h2 n (by omega)
    rw [spaced_erase_aux, e0, spaced_post] at *
    have : pos = t.text.length := by omega
    rw [this] at hp
    exact hp

/-- C13 at `a()`, a compound without arguments, and at `f(X, g(a), b1)`. -/
theorem parse_print_witness :
    (Term.Compound "a" []).text = "a()".data ∧
    (∃ N, ∀ n, N ≤ n →
      printTerm [] n (Term.Compound "a" []) = some "a()".data ∧
      parse n "a()".data 0 = some (TermPtr.Compound "a" [], 3)) ∧
    (Term.Compound "f" [Term.Var "X", Term.Compound "g" [Term.Atom "a"], Term.Atom "b1"]).text
      = "f(X, g(a), b1)".data ∧
    ∃ N, ∀ n, N ≤ n →
      printTerm [] n
          (Term.Compound "f" [Term.Var "X", Term.Compound "g" [Term.Atom "a"], Term.Atom "b1"])
        = some "f(X, g(a), b1)".data ∧
      parse n "f(X, g(a), b1)".data 0
        = some (TermPtr.Compound "f"
            [TermPtr.Var "X", TermPtr.Compound "g" [TermPtr.Atom "a"], TermPtr.Atom "b1"], 14) :=
  ⟨rfl, parse_print (Term.Compound "a" []) rfl, rfl,
    parse_print
      (Term.Compound "f" [Term.Var "X", Term.Compound "g" [Term.Atom "a"], Term.Atom "b1"])
      rfl⟩

/-- C14, amended (spaces between tokens are insignificant to `parse`): two texts of one
well-formed term that differ only in the number of spaces before and after their tokens,
identifiers, `(`, `,` and `)`, are turned into the same term by `parse`, the term they are
texts of. -/
theorem parse_spaces (s1 s2 : Spaced) (hw : s1.erase.wf = true) (he : s2.erase = s1.erase) :
    ∃ N, ∀ n, N ≤ n → ∃ pos1 pos2,
      parse n s1.text 0 = some (s1.erase.ptr, pos1) ∧
      parse n s2.text 0 = some (s1.erase.ptr, pos2) := by
  obtain ⟨N1, h1⟩ := parse_text s1 hw
  obtain ⟨N2, h2⟩ := parse_text s2 (by rw [he]; exact hw)
  refine ⟨N1 + N2, fun n hn => ?_⟩
  obtain ⟨pos1, hp1, _⟩ := h1 n (by omega)
  obtain ⟨pos2, hp2, _⟩ := h2 n (by omega)
  rw [he] at hp2
  exact ⟨pos1, pos2, hp1, hp2⟩

/-- C14 amended, at the texts `f(X,a)` and ` f ( X  , a ) ` of the term `f(X, a)`. -/
theorem parse_spaces_witness :
    (Spaced.Compound 0 "f" 0 0 [Spaced.Var 0 "X" 0, Spaced.Atom 0 "a" 0] 0).text
      = "f(X,a)".data ∧
    (Spaced.Compound 1 "f" 1 1 [Spaced.Var 0 "X" 2, Spaced.Atom 1 "a" 1] 1).text
      = " f ( X  , a ) ".data ∧
    ∃ N, ∀ n, N ≤ n → ∃ pos1 pos2,
      parse n "f(X,a)".data 0
        = some (TermPtr.Compound "f" [TermPtr.Var "X", TermPtr.Atom "a"], pos1) ∧
      parse n " f ( X  , a ) ".data 0
        = some (TermPtr.Compound "f" [TermPtr.Var "X", TermPtr.Atom "a"], pos2) :=
  ⟨rfl, rfl,
    parse_spaces (Spaced.Compound 0 "f" 0 0 [Spaced.Var 0 "X" 0, Spaced.Atom 0 "a" 0] 0)
      (Spaced.Compound 1 "f" 1 1 [Spaced.Var 0 "X" 2, Spaced.Atom 1 "a" 1] 1) rfl rfl⟩

/-! ## What `unify` writes into the nodes -/

namespace Mem

theorem Frame.refl (h : Heap) : Frame h h :=
  ⟨rfl, fun _ node hn => ⟨node, hn, rfl, rfl, rfl, fun _ => rfl⟩⟩

theorem Frame.trans {h h1 h2 : Heap} (a : Frame h h1) (b : Frame h1 h2) : Frame h h2 := by
  refine ⟨b.1.trans a.1, fun p node hn => ?_⟩
  obtain ⟨node1, hn1, t1, n1, l1, e1⟩ := a.2 p node hn
  obtain ⟨node2, hn2, t2, n2, l2, e2⟩ := b.2 p node1 hn1
  refine ⟨node2, hn2, t2.trans t1, n2.trans n1, l2.trans l1, fun hF => ?_⟩
  rw [e2 (by rw [t1]; exact hF), e1 hF]

/-- Writing a slot of an `'F'` node stays within the frame. -/
theorem frame_setArg {h : Heap} {p : Nat} {node : Node} (hn : h[p]? = some node)
    (hF : node.type = 'F') (i r : Nat) : Frame h (setArg h p i r) := by
  have hlt : p < h.length := (List.getElem?_eq_some_iff.1 hn).1
  simp only [setArg, hn]
  refine ⟨by simp, fun q nodeq hq => ?_⟩
  by_cases e : q = p
  · subst e
    rw [hn] at hq
    cases hq
    refine ⟨{ node with args := node.args.set i r }, ?_, rfl, rfl, by simp, fun hne => ?_⟩
    · simp [List.getElem?_set, hlt]
    · exact absurd hF hne
  · refine ⟨nodeq, ?_, rfl, rfl, rfl, fun _ => rfl⟩
    rw [List.getElem?_set_ne (fun e2 => e e2.symm)]
    exact hq

theorem rewriteArgs_frame {f : Heap → Nat → Option (Heap × Nat)} {p : Nat}
    (hf : ∀ h a h1 r, f h a = some (h1, r) → Frame h h1) :
    ∀ (is : List Nat) (h h1 : Heap) (node : Node), h[p]? = some node → node.type = 'F' →
      rewriteArgs f p is h = some h1 → Frame h h1 := by
  intro is
  induction is with
  | nil =>
    intro h h1 node _ _ hr
    simp only [rewriteArgs, Option.some.injEq] at hr
    rw [← hr]
    exact Frame.refl h
  | cons i is ih =>
    intro h h1 node hn hF hr
    simp only [rewriteArgs] at hr
    cases ha : (h[p]?).bind (fun node => node.args[i]?) with
    | none => simp [ha] at hr
    | some a =>
      rw [ha] at hr
      cases hfa : f h a with
      | none => simp [hfa] at hr
      | some q =>
        obtain ⟨h2, r⟩ := q
        simp only [hfa] at hr
        have fr1 := hf h a h2 r hfa
        obtain ⟨node2, hn2, t2, _, _, _⟩ := fr1.2 p node hn
        have fr2 := frame_setArg hn2 (t2.trans hF) i r
        obtain ⟨node3, hn3, t3, _, _, _⟩ := fr2.2 p node2 hn2
        exact (fr1.trans fr2).trans (ih _ _ node3 hn3 (t3.trans (t2.trans hF)) hr)

/-- The function `applySubst` stays within the frame: it overwrites slots of `'F'` nodes
only. -/
theorem applySubst_frame {θ : Theta} : ∀ (n : Nat) (h : Heap) (p : Nat) (h1 : Heap) (r : Nat),
    applySubst θ n h p = some (h1, r) → Frame h h1 := by
  intro n
  induction n with
  | zero =>
    intro h p h1 r hr
    simp [applySubst] at hr
  | succ n ih =>
    intro h p h1 r hr
    simp only [applySubst] at hr
    cases hn : h[p]? with
    | none =>
      simp only [hn, Option.some.injEq, Prod.mk.injEq] at hr
      rw [← hr.1]
      exact Frame.refl h
    | some node =>
      simp only [hn] at hr
      split_ifs at hr with hV hF
      · cases hq : θ.find node.name with
        | none =>
          simp only [hq, Option.some.injEq, Prod.mk.injEq] at hr
          rw [← hr.1]
          exact Frame.refl h
        | some q =>
          simp only [hq] at hr
          exact ih _ _ _ _ hr
      · cases hw : rewriteArgs (fun h1 a => applySubst θ n h1 a) p
            (List.range node.args.length) h with
        | none => simp [hw] at hr
        | some h2 =>
          simp only [hw, Option.some.injEq, Prod.mk.injEq] at hr
          rw [← hr.1]
          exact rewriteArgs_frame (fun h a h1 r hh => ih h a h1 r hh) _ _ _ node hn hF hw
      · simp only [Option.some.injEq, Prod.mk.injEq] at hr
        rw [← hr.1]
        exact Frame.refl h

/-- The loop of `unify` stays within the frame. -/
theorem unifyLoop_frame : ∀ (n : Nat) (h : Heap) (θ : Theta) (stack : List (Nat × Nat))
    (b : Bool) (h1 : Heap) (θ1 : Theta),
    unifyLoop n h θ stack = some (b, h1, θ1) → Frame h h1 := by
  intro n
  induction n with
  | zero =>
    intro h θ stack b h1 θ1 hr
    simp [unifyLoop] at hr
  | succ n ih =>
    intro h θ stack b h1 θ1 hr
    cases stack with
    | nil =>
      simp only [unifyLoop, Option.some.injEq, Prod.mk.injEq] at hr
      rw [← hr.2.1]
      exact Frame.refl h
    | cons pr stack =>
      obtain ⟨p1, p2⟩ := pr
      simp only [unifyLoop] at hr
      cases ha : applySubst θ n h p1 with
      | none => simp [ha] at hr
      | some q1 =>
        obtain ⟨ha1, ptr1⟩ := q1
        simp only [ha] at hr
        cases hb : applySubst θ n ha1 p2 with
        | none => simp [hb] at hr
        | some q2 =>
          obtain ⟨ha2, ptr2⟩ := q2
          simp only [hb] at hr
          have fr : Frame h ha2 :=
            (applySubst_frame n h p1 ha1 ptr1 ha).trans (applySubst_frame n ha1 p2 ha2 ptr2 hb)
          cases hn1 : ha2[ptr1]? with
          | none => simp [hn1] at hr
          | some node1 =>
            cases hn2 : ha2[ptr2]? with
            | none => simp [hn1, hn2] at hr
            | some node2 =>
              simp only [hn1, hn2] at hr
              split_ifs at hr with hc hF hV1 hV2
              · exact fr.trans (ih _ _ _ _ _ _ hr)
              · exact fr.trans (ih _ _ _ _ _ _ hr)
              · cases ho : occursCheck θ node1.name ha2 n ptr2 with
                | none => simp [ho] at hr
                | some c =>
                  cases c with
                  | true =>
                    simp only [ho, Option.some.injEq, Prod.mk.injEq] at hr
                    rw [← hr.2.1]
                    exact fr
                  | false =>
                    simp only [ho] at hr
                    exact fr.trans (ih _ _ _ _ _ _ hr)
              · cases ho : occursCheck θ node2.name ha2 n ptr1 with
                | none => simp [ho] at hr
                | some c =>
                  cases c with
                  | true =>
                    simp only [ho, Option.some.injEq, Prod.mk.injEq] at hr
                    rw [← hr.2.1]
                    exact fr
                  | false =>
                    simp only [ho] at hr
                    exact fr.trans (ih _ _ _ _ _ _ hr)
              · simp only [Option.some.injEq, Prod.mk.injEq] at hr
                rw [← hr.2.1]
                exact fr

end Mem

namespace Mem

theorem rewriteArgs_mono {f g : Heap → Nat → Option (Heap × Nat)} {p : Nat}
    (hfg : ∀ h a r, f h a = some r → g h a = some r) :
    ∀ (is : List Nat) (h h1 : Heap), rewriteArgs f p is h = some h1 →
      rewriteArgs g p is h = some h1 := by
  intro is
  induction is with
  | nil =>
    intro h h1 hr
    simpa [rewriteArgs] using hr
  | cons i is ih =>
    intro h h1 hr
    simp only [rewriteArgs] at hr ⊢
    cases ha : (h[p]?).bind (fun node => node.args[i]?) with
    | none => simp [ha] at hr
    | some a =>
      simp only [ha] at hr ⊢
      cases hfa : f h a with
      | none => simp [hfa] at hr
      | some q =>
        simp only [hfa] at hr
        rw [hfg h a q hfa]
        exact ih _ _ hr

theorem applySubst_mem_mono {θ : Theta} : ∀ (n m : Nat) (h : Heap) (p : Nat) (r : Heap × Nat),
    applySubst θ n h p = some r → n ≤ m → applySubst θ m h p = some r := by
  intro n
  induction n with
  | zero =>
    intro m h p r hr
    simp [applySubst] at hr
  | succ n ih =>
    intro m h p r hr hnm
    obtain ⟨m, rfl⟩ : ∃ k, m = k + 1 := ⟨m - 1, by omega⟩
    have hle : n ≤ m := by omega
    simp only [applySubst] at hr ⊢
    cases hn : h[p]? with
    | none => simpa [hn] using hr
    | some node =>
      simp only [hn] at hr ⊢
      split_ifs at hr ⊢ with hV hF
      · cases hq : θ.find node.name with
        | none => simpa [hq] using hr
        | some q =>
          simp only [hq] at hr ⊢
          exact ih m h q r hr hle
      · cases hw : rewriteArgs (fun h1 a => applySubst θ n h1 a) p
            (List.range node.args.length) h with
        | none => simp [hw] at hr
        | some h2 =>
          rw [rewriteArgs_mono (g := fun h1 a => applySubst θ m h1 a)
            (fun h1 a r1 hh => ih m h1 a r1 hh hle) _ _ _ hw]
          simpa [hw] using hr
      · exact hr

theorem anyArg_mem_mono {f g : Nat → Option Bool} {as : List Nat} {b : Bool}
    (hfg : ∀ a c, f a = some c → g a = some c) (h : anyArg f as = some b) :
    anyArg g as = some b := by
  induction as with
  | nil => simpa [anyArg] using h
  | cons a as ih =>
    cases hfa : f a with
    | none => simp [anyArg, hfa] at h
    | some c =>
      have hga := hfg a c hfa
      cases c with
      | true => simpa [anyArg, hfa, hga] using h
      | false =>
        simp only [anyArg, hfa, hga] at h ⊢
        exact ih h

theorem occursCheck_mem_mono {θ : Theta} {v : String} {h : Heap} :
    ∀ (n m : Nat) (p : Nat) (b : Bool),
    occursCheck θ v h n p = some b → n ≤ m → occursCheck θ v h m p = some b := by
  intro n
  induction n with
  | zero =>
    intro m p b hr
    simp [occursCheck] at hr
  | succ n ih =>
    intro m p b hr hnm
    obtain ⟨m, rfl⟩ : ∃ k, m = k + 1 := ⟨m - 1, by omega⟩
    have hle : n ≤ m := by omega
    simp only [occursCheck] at hr ⊢
    cases hn : h[p]? with
    | none => simpa [hn] using hr
    | some node =>
      simp only [hn] at hr ⊢
      split_ifs at hr ⊢ with hV hF
      · cases hq : θ.find node.name with
        | none => simpa [hq] using hr
        | some q =>
          simp only [hq] at hr ⊢
          exact ih m q b hr hle
      · exact anyArg_mem_mono (fun a c hc => ih m a c hc hle) hr
      · exact hr

theorem unifyLoop_mem_mono : ∀ (n m : Nat) (h : Heap) (θ : Theta) (stack : List (Nat × Nat))
    (r : Bool × Heap × Theta),
    unifyLoop n h θ stack = some r → n ≤ m → unifyLoop m h θ stack = some r := by
  intro n
  induction n with
  | zero =>
    intro m h θ stack r hr
    simp [unifyLoop] at hr
  | succ n ih =>
    intro m h θ stack r hr hnm
    obtain ⟨m, rfl⟩ : ∃ k, m = k + 1 := ⟨m - 1, by omega⟩
    have hle : n ≤ m := by omega
    cases stack with
    | nil => simpa [unifyLoop] using hr
    | cons pr stack =>
      obtain ⟨p1, p2⟩ := pr
      simp only [unifyLoop] at hr ⊢
      cases ha : applySubst θ n h p1 with
      | none => simp [ha] at hr
      | some q1 =>
        obtain ⟨ha1, ptr1⟩ := q1
        simp only [ha] at hr
        rw [applySubst_mem_mono n m h p1 _ ha hle]
        simp only []
        cases hb : applySubst θ n ha1 p2 with
        | none => simp [hb] at hr
        | some q2 =>
          obtain ⟨ha2, ptr2⟩ := q2
          simp only [hb] at hr
          rw [applySubst_mem_mono n m ha1 p2 _ hb hle]
          simp only []
          cases hn1 : ha2[ptr1]? with
          | none => simp [hn1] at hr
          | some node1 =>
            cases hn2 : ha2[ptr2]? with
            | none => simp [hn1, hn2] at hr
            | some node2 =>
              simp only [hn1, hn2] at hr ⊢
              split_ifs at hr ⊢ with hc hF hV1 hV2
              · exact ih m _ _ _ _ hr hle
              · exact ih m _ _ _ _ hr hle
              · cases ho : occursCheck θ node1.name ha2 n ptr2 with
                | none => simp [ho] at hr
                | some c =>
                  rw [occursCheck_mem_mono n m ptr2 c ho hle]
                  cases c with
                  | true => simpa [ho] using hr
                  | false =>
                    simp only [ho] at hr ⊢
                    exact ih m _ _ _ _ hr hle
              · cases ho : occursCheck θ node2.name ha2 n ptr1 with
                | none => simp [ho] at hr
                | some c =>
                  rw [occursCheck_mem_mono n m ptr1 c ho hle]
                  cases c with
                  | true => simpa [ho] using hr
                  | false =>
                    simp only [ho] at hr ⊢
                    exact ih m _ _ _ _ hr hle
              · exact hr

/-- The result of the in-memory `unify` does not depend on the fuel: two budgets that both
give a result give the same one. -/
theorem unify_fuel_irrelevant {n m : Nat} {h : Heap} {t1 t2 : Nat} {r1 r2 : Bool × Heap × Theta}
    (h1 : unify n h t1 t2 = some r1) (h2 : unify m h t1 t2 = some r2) : r1 = r2 := by
  unfold unify at h1 h2
  have e1 := unifyLoop_mem_mono n (max n m) h [] [(t1, t2)] r1 h1 (le_max_left n m)
  have e2 := unifyLoop_mem_mono m (max n m) h [] [(t1, t2)] r2 h2 (le_max_right n m)
  rw [e1] at e2
  exact Option.some.inj e2

end Mem

/-- C11, as stated, fails at `g(f(X), X)` and `g(Y, a)`, laid out in memory as the parser
allocates them (`X` at 0, `f(X)` at 1, `X` at 2, `g(f(X), X)` at 3, `Y` at 4, `a` at 5,
`g(Y, a)` at 6).  The call `unify` returns `true`, and the node `f(X)` of the first input then
has the argument list `[5]`, the atom `a`, instead of `[0]`, the variable `X`: the first input
reads `g(f(a), X)`.  The run by value returns the same boolean and the same bindings. -/
theorem unify_rewrites_input :
    Mem.load [⟨'V', "X", []⟩, ⟨'F', "f", [0]⟩, ⟨'V', "X", []⟩, ⟨'F', "g", [1, 2]⟩,
        ⟨'V', "Y", []⟩, ⟨'A', "a", []⟩, ⟨'F', "g", [4, 5]⟩] 3 3
      = some (Term.Compound "g" [Term.Compound "f" [Term.Var "X"], Term.Var "X"]) ∧
    Mem.load [⟨'V', "X", []⟩, ⟨'F', "f", [0]⟩, ⟨'V', "X", []⟩, ⟨'F', "g", [1, 2]⟩,
        ⟨'V', "Y", []⟩, ⟨'A', "a", []⟩, ⟨'F', "g", [4, 5]⟩] 3 6
      = some (Term.Compound "g" [Term.Var "Y", Term.Atom "a"]) ∧
    Mem.unify 6 [⟨'V', "X", []⟩, ⟨'F', "f", [0]⟩, ⟨'V', "X", []⟩, ⟨'F', "g", [1, 2]⟩,
        ⟨'V', "Y", []⟩, ⟨'A', "a", []⟩, ⟨'F', "g", [4, 5]⟩] 3 6
      = some (true,
          [⟨'V', "X", []⟩, ⟨'F', "f", [5]⟩, ⟨'V', "X", []⟩, ⟨'F', "g", [1, 2]⟩,
            ⟨'V', "Y", []⟩, ⟨'A', "a", []⟩, ⟨'F', "g", [4, 5]⟩],
          [("X", 5), ("Y", 1)]) ∧
    Mem.load [⟨'V', "X", []⟩, ⟨'F', "f", [5]⟩, ⟨'V', "X", []⟩, ⟨'F', "g", [1, 2]⟩,
        ⟨'V', "Y", []⟩, ⟨'A', "a", []⟩, ⟨'F', "g", [4, 5]⟩] 3 3
      = some (Term.Compound "g" [Term.Compound "f" [Term.Atom "a"], Term.Var "X"]) ∧
    Term.Compound "g" [Term.Compound "f" [Term.Atom "a"], Term.Var "X"]
      ≠ Term.Compound "g" [Term.Compound "f" [Term.Var "X"], Term.Var "X"] ∧
    unify 6 (Term.Compound "g" [Term.Compound "f" [Term.Var "X"], Term.Var "X"])
        (Term.Compound "g" [Term.Var "Y", Term.Atom "a"])
      = some (true, [("X", Term.Atom "a"), ("Y", Term.Compound "f" [Term.Atom "a"])]) :=
  ⟨rfl, rfl, rfl, rfl, by simp, rfl⟩

/-- C11, amended: whatever `unify` returns, it has added or removed no node, it has changed
neither the tag, nor the name, nor the number of arguments of any node, and it has not changed
a variable or atom node at all; what it may have overwritten are argument slots of `'F'`
nodes, as `applySubst` does with the pointer it returns for the argument. -/
theorem unify_frame (n : Nat) (h : Mem.Heap) (t1 t2 : Nat) (b : Bool) (h1 : Mem.Heap)
    (θ : Mem.Theta) (hr : Mem.unify n h t1 t2 = some (b, h1, θ)) :
    h1.length = h.length ∧
    ∀ (p : Nat) (node : Mem.Node), h[p]? = some node →
      ∃ node1 : Mem.Node, h1[p]? = some node1 ∧
        node1.type = node.type ∧ node1.name = node.name ∧
        node1.args.length = node.args.length ∧ (node.type ≠ 'F' → node1 = node) :=
  Mem.unifyLoop_frame n h [] [(t1, t2)] b h1 θ hr

/-- C11 amended, at `g(f(X), X)` and `g(Y, a)` in memory. -/
theorem unify_frame_witness :
    Mem.unify 6 [⟨'V', "X", []⟩, ⟨'F', "f", [0]⟩, ⟨'V', "X", []⟩, ⟨'F', "g", [1, 2]⟩,
        ⟨'V', "Y", []⟩, ⟨'A', "a", []⟩, ⟨'F', "g", [4, 5]⟩] 3 6
      = some (true,
          [⟨'V', "X", []⟩, ⟨'F', "f", [5]⟩, ⟨'V', "X", []⟩, ⟨'F', "g", [1, 2]⟩,
            ⟨'V', "Y", []⟩, ⟨'A', "a", []⟩, ⟨'F', "g", [4, 5]⟩],
          [("X", 5), ("Y", 1)]) ∧
    ([⟨'V', "X", []⟩, ⟨'F', "f", [5]⟩, ⟨'V', "X", []⟩, ⟨'F', "g", [1, 2]⟩,
        ⟨'V', "Y", []⟩, ⟨'A', "a", []⟩, ⟨'F', "g", [4, 5]⟩] : Mem.Heap).length
      = ([⟨'V', "X", []⟩, ⟨'F', "f", [0]⟩, ⟨'V', "X", []⟩, ⟨'F', "g", [1, 2]⟩,
        ⟨'V', "Y", []⟩, ⟨'A', "a", []⟩, ⟨'F', "g", [4, 5]⟩] : Mem.Heap).length ∧
    ∀ (p : Nat) (node : Mem.Node),
      ([⟨'V', "X", []⟩, ⟨'F', "f", [0]⟩, ⟨'V', "X", []⟩, ⟨'F', "g", [1, 2]⟩,
        ⟨'V', "Y", []⟩, ⟨'A', "a", []⟩, ⟨'F', "g", [4, 5]⟩] : Mem.Heap)[p]? = some node →
      ∃ node1 : Mem.Node,
        ([⟨'V', "X", []⟩, ⟨'F', "f", [5]⟩, ⟨'V', "X", []⟩, ⟨'F', "g", [1, 2]⟩,
          ⟨'V', "Y", []⟩, ⟨'A', "a", []⟩, ⟨'F', "g", [4, 5]⟩] : Mem.Heap)[p]? = some node1 ∧
        node1.type = node.type ∧ node1.name = node.name ∧
        node1.args.length = node.args.length ∧ (node.type ≠ 'F' → node1 = node) :=
  ⟨rfl, unify_frame 6 _ 3 6 true _ _ rfl⟩

end Unification
